import Mathlib

/-!
Verification of the vCard codec (VCard class and VCardParser) against its
natural-language specification.  Strings are embedded as lists of characters
so that every operation of the JavaScript source can be mirrored exactly.
-/

set_option maxRecDepth 20000

deriving instance DecidableEq for Except

namespace VCardSpec

/-- Strings are modelled as lists of characters. -/
abbrev Str := List Char

/-- Model of the byte size of one character in UTF-8, which is what the
Blob size used by formatTextValue measures. -/
def byteSize (c : Char) : Nat :=
  if c.toNat < 0x80 then 1
  else if c.toNat < 0x800 then 2
  else if c.toNat < 0x10000 then 3
  else 4

/-- Total UTF-8 byte length of a string. -/
def byteLen (s : Str) : Nat := (s.map byteSize).sum

/-- Model of the JavaScript regex class backslash-s for the characters this
codec manipulates (ASCII whitespace). -/
def jsWs (c : Char) : Bool :=
  c = ' ' || c = '\t' || c = '\n' || c = '\r' || c = '\x0b' || c = '\x0c'

/-- Global replacement of the two-character pattern a b by r, scanning left to
right without overlap: the model of str.replace of a two-character literal
regex with the global flag. -/
def replace2 (a b : Char) (r : Str) : Str → Str
  | [] => []
  | [x] => [x]
  | x :: y :: rest =>
    if x = a ∧ y = b then r ++ replace2 a b r rest
    else x :: replace2 a b r (y :: rest)

/-- Split on every occurrence of a single character, keeping empty chunks:
the model of str.split of a one-character separator. -/
def splitAllChar (d : Char) : Str → List Str
  | [] => [[]]
  | c :: t =>
    if c = d then [] :: splitAllChar d t
    else
      match splitAllChar d t with
      | [] => [[c]]
      | h :: r => (c :: h) :: r

/-- Join a list of strings with a single separator character. -/
def joinChar (d : Char) : List Str → Str
  | [] => []
  | [x] => x
  | x :: y :: rest => x ++ d :: joinChar d (y :: rest)

/-- ASCII upper-casing of a string, the model of toUpperCase. -/
def upperStr (s : Str) : Str := s.map Char.toUpper

/-- ASCII lower-casing of a string, the model of toLowerCase. -/
def lowerStr (s : Str) : Str := s.map Char.toLower

/-- Removal of trailing whitespace. -/
def dropTrailingWs : Str → Str
  | [] => []
  | c :: t =>
    let r := dropTrailingWs t
    if r.isEmpty then (if jsWs c then [] else [c]) else c :: r

/-- Model of String.prototype.trim: whitespace removed from both ends. -/
def trimStr (s : Str) : Str := dropTrailingWs (s.dropWhile (fun c => jsWs c))

/-! ## The escaper (the escaping phase of VCard.formatTextValue) -/

/-- One step of the escaping in formatTextValue: each of the five reserved
characters becomes its two-character escape sequence, anything else is kept. -/
def escUnit (c : Char) : Str :=
  if c = ',' then ['\\', ',']
  else if c = ';' then ['\\', ';']
  else if c = ':' then ['\\', ':']
  else if c = '\\' then ['\\', '\\']
  else if c = '\n' then ['\\', 'n']
  else [c]

/-- The unit stream produced by the loop of formatTextValue: reserved
characters are escaped, the four five-character tokens are converted to their
literal characters (consuming five input characters), and every other
character passes through.  Each element is the string that the loop variable
char holds when the byte accounting runs. -/
def units : Str → List Str
  | [] => []
  | '%' :: 'C' :: 'O' :: 'M' :: '%' :: t => [','] :: units t
  | '%' :: 'S' :: 'E' :: 'M' :: '%' :: t => [';'] :: units t
  | '%' :: 'C' :: 'O' :: 'L' :: '%' :: t => [':'] :: units t
  | '%' :: 'B' :: 'A' :: 'C' :: '%' :: t => ['\\'] :: units t
  | c :: rest => escUnit c :: units rest

/-- The escaped logical line: the concatenation of the unit stream, before
any folding happens. -/
def escapeStr (s : Str) : Str := (units s).flatten

/-- The unescape helper unesc of VCardParser.tokenizeVcardString: five global
replacements applied in sequence. -/
def unesc (s : Str) : Str :=
  replace2 '\\' 'n' ['\n']
    (replace2 '\\' '\\' ['\\']
      (replace2 '\\' ':' [':']
        (replace2 '\\' ';' [';']
          (replace2 '\\' ',' [','] s))))

/-! ## Folding (the line-folding phase of VCard.formatTextValue) -/

/-- The folding loop of formatTextValue: units are appended to the current
physical line while the line stays within 75 bytes; otherwise the line is
emitted and a new line starts with a single space followed by the unit. -/
def foldGo (curr : Str) (bytes : Nat) : List Str → List Str
  | [] => [curr]
  | u :: us =>
    let ub := byteLen u
    if bytes + ub > 75 then curr :: foldGo (' ' :: u) (1 + ub) us
    else foldGo (curr ++ u) (bytes + ub) us

/-- VCard.formatTextValue: escape, tokenize, fold at 75 bytes, and join the
physical lines with newlines. -/
def formatTextValue (s : Str) : Str := joinChar '\n' (foldGo [] 0 (units s))

/-- Removal of folding: the replacement of every newline-space pair by the
empty string, as done by replace of a newline-space regex in the tokenizer. -/
def stripFolds (s : Str) : Str := replace2 '\n' ' ' [] s

/-- The physical lines of a rendered text. -/
def physLines (s : Str) : List Str := splitAllChar '\n' s

/-! ## Validation regexes of the VCard constructor -/

/-- Characters excluded from an atom of the local part of the email regex
(the negated class of the regex, whitespace included). -/
def emailAtomExcluded (c : Char) : Bool :=
  c = '<' || c = '>' || c = '(' || c = ')' || c = '[' || c = ']' ||
  c = '\\' || c = '.' || c = ',' || c = ';' || c = ':' || c = '@' ||
  c = '"' || jsWs c

/-- First alternative of the local part: one or more atoms joined by dots,
each atom a nonempty run of allowed characters. -/
def emailLocalDotted (s : Str) : Bool :=
  (splitAllChar '.' s).all fun a => !a.isEmpty && a.all (fun c => !emailAtomExcluded c)

/-- Second alternative of the local part: any character followed by a quoted
nonempty run (dot-quote-plus-quote in the regex; dot does not match a
newline). -/
def emailLocalQuoted (s : Str) : Bool :=
  match s with
  | c :: '"' :: rest =>
    c != '\n' && rest.length ≥ 2 && rest.getLastD ' ' = '"' &&
      (rest.dropLast).all (fun x => x != '\n')
  | _ => false

/-- A bracketed IPv4 segment: one to three digits. -/
def ipSeg (s : Str) : Bool := !s.isEmpty && s.length ≤ 3 && s.all Char.isDigit

/-- First alternative of the email domain: a bracketed dotted quad. -/
def emailDomainIp (s : Str) : Bool :=
  match s with
  | '[' :: rest =>
    match rest.getLastD ' ' with
    | ']' =>
      let inner := rest.dropLast
      let parts := splitAllChar '.' inner
      parts.length = 4 && parts.all ipSeg
    | _ => false
  | _ => false

/-- Second alternative of the email domain: one or more labels of letters,
digits and dashes, each followed by a dot, ending in an alphabetic top level
domain of length at least two. -/
def emailDomainNamed (s : Str) : Bool :=
  let parts := splitAllChar '.' s
  parts.length ≥ 2 &&
    (parts.dropLast).all
      (fun l => !l.isEmpty && l.all (fun c => c.isAlphanum || c = '-')) &&
    (parts.getLastD []).length ≥ 2 &&
    (parts.getLastD []).all (fun c => c.isAlpha)

/-- All decompositions of a string around an at sign. -/
def atSplits : Str → List (Str × Str)
  | [] => []
  | c :: t =>
    let rest := (atSplits t).map fun p => (c :: p.1, p.2)
    if c = '@' then ([], t) :: rest else rest

/-- Model of the anchored emailRegex of the VCard constructor: some split at
an at sign has a matching local part and a matching domain (the existential
split mirrors regex backtracking). -/
def emailTest (s : Str) : Bool :=
  (atSplits s).any fun p =>
    (emailLocalDotted p.1 || emailLocalQuoted p.1) &&
    (emailDomainIp p.2 || emailDomainNamed p.2)

/-- Model of the anchored dataUriRegex: data colon image slash, a type with
no semicolon, the literal text semicolon base64 comma, and a payload with no
newline (dot does not match newline and the dollar anchors the end).  The
result carries the two capture groups, type and payload. -/
def dataUriMatch (s : Str) : Option (Str × Str) :=
  match s with
  | 'd' :: 'a' :: 't' :: 'a' :: ':' :: 'i' :: 'm' :: 'a' :: 'g' :: 'e' :: '/' :: rest =>
    let ty := rest.takeWhile (fun c => c != ';')
    let after := rest.dropWhile (fun c => c != ';')
    match after with
    | ';' :: 'b' :: 'a' :: 's' :: 'e' :: '6' :: '4' :: ',' :: payload =>
      if payload.all (fun c => c != '\n') then some (ty, payload) else none
    | _ => none
  | _ => none

/-! ## Dates -/

/-- A JavaScript Date held by the contact model, stored as its normalized
UTC calendar components. -/
structure JSDate where
  year : Int
  month : Int
  day : Int
  hour : Int
  minute : Int
  second : Int
deriving DecidableEq, Repr

/-- Days from civil date (proleptic Gregorian, days since 1970-01-01). -/
def daysFromCivil (y m d : Int) : Int :=
  let y := if m ≤ 2 then y - 1 else y
  let era := Int.fdiv y 400
  let yoe := y - era * 400
  let mp := Int.fmod (m + 9) 12
  let doy := Int.fdiv (153 * mp + 2) 5 + d - 1
  let doe := yoe * 365 + Int.fdiv yoe 4 - Int.fdiv yoe 100 + doy
  era * 146097 + doe - 719468

/-- Civil date from days since 1970-01-01. -/
def civilFromDays (z0 : Int) : Int × Int × Int :=
  let z := z0 + 719468
  let era := Int.fdiv z 146097
  let doe := z - era * 146097
  let yoe := Int.fdiv (doe - Int.fdiv doe 1460 + Int.fdiv doe 36524 - Int.fdiv doe 146096) 365
  let y := yoe + era * 400
  let doy := doe - (365 * yoe + Int.fdiv yoe 4 - Int.fdiv yoe 100)
  let mp := Int.fdiv (5 * doy + 2) 153
  let d := doy - Int.fdiv (153 * mp + 2) 5 + 1
  let m := mp + (if mp < 10 then 3 else -9)
  (y + (if m ≤ 2 then 1 else 0), m, d)

/-- Model of Date.UTC followed by reading the normalized UTC components: the
month argument is zero-based and every component may overflow its range. -/
def dateUTC (y m0 d hr mi se : Int) : JSDate :=
  let ym := y + Int.fdiv m0 12
  let mn := Int.fmod m0 12
  let days := daysFromCivil ym (mn + 1) 1 + (d - 1)
  let secs := days * 86400 + hr * 3600 + mi * 60 + se
  let dayN := Int.fdiv secs 86400
  let rem := Int.fmod secs 86400
  let c := civilFromDays dayN
  ⟨c.1, c.2.1, c.2.2, Int.fdiv rem 3600, Int.fmod (Int.fdiv rem 60) 60, Int.fmod rem 60⟩

/-- Decimal digits of a natural number, padded on the left with zeros. -/
def padNum (w : Nat) (n : Int) : Str :=
  let ds := (toString n.natAbs).data
  List.replicate (w - ds.length) '0' ++ ds

/-! ## The contact model -/

/-- A stored telephone entry. -/
structure TelEntry where
  phone : Str
  ext : Str
  type : List Str
  pref : Bool
deriving DecidableEq, Repr

/-- A stored email entry. -/
structure EmailEntry where
  email : Str
  pref : Bool
deriving DecidableEq, Repr

/-- A stored instant-message entry. -/
structure ImppEntry where
  imurl : Str
  protocol : Str
  pref : Bool
deriving DecidableEq, Repr

/-- A stored address entry. -/
structure AddressEntry where
  street : Str
  city : Str
  state : Str
  zip : Str
  country : Str
  label : Str
deriving DecidableEq, Repr

/-- The VCard contact: the constructor initializes every field as shown. -/
structure VCard where
  specVersion : Nat := 4
  kind : Option Str := none
  name : List Str := []
  nickname : List Str := []
  photo : List Str := []
  bday : Option JSDate := none
  anniversary : Option JSDate := none
  gender : Option Str := none
  genderIdent : Option Str := none
  address : List AddressEntry := []
  tel : List TelEntry := []
  email : List EmailEntry := []
  impp : List ImppEntry := []
  title : List Str := []
  role : List Str := []
  logo : List Str := []
  org : List (List Str) := []
  note : List Str := []
  url : List Str := []
deriving DecidableEq, Repr

/-- A fresh contact as produced by the constructor. -/
def emptyVCard : VCard := {}

/-- The class constants for KIND values. -/
def kindValues : List Str := ["individual".data, "group".data, "org".data, "location".data]

/-- The class constants for GENDER values. -/
def genderValues : List Str := [['M'], ['F'], ['O'], ['N'], ['U']]

/-- The class constants for TEL type values. -/
def telTypeValues : List Str :=
  ["text".data, "voice".data, "fax".data, "cell".data, "video".data,
   "pager".data, "textphone".data]

/-- The class constants for IMPP protocol values. -/
def imProtocolValues : List Str :=
  ["sip".data, "xmpp".data, "irc".data, "ymsgr".data, "msn".data, "aim".data, "im".data]

/-! ## Setters

Each setter is modelled in statement order as a function from the contact to
the pair of the contact after the call (reflecting exactly the mutations
performed before any throw) and the optional error message thrown. -/

/-- Collapse every maximal whitespace run into a single space (the global
replacement of a whitespace-plus regex by a space); the flag records whether
the previous character was part of a run. -/
def collapseWsGo (prevWs : Bool) : Str → Str
  | [] => []
  | c :: t =>
    if jsWs c then
      if prevWs then collapseWsGo true t else ' ' :: collapseWsGo true t
    else c :: collapseWsGo false t

/-- The normalization applied by setName: whitespace runs collapsed to a
single space, then both ends trimmed. -/
def normalizeName (s : Str) : Str := trimStr (collapseWsGo false s)

/-- VCard.setVersion. -/
def setVersion (version : Nat) (c : VCard) : VCard × Option Str :=
  if version ≠ 3 ∧ version ≠ 4 then (c, some ("Unsupported version: ".data ++ (toString version).data))
  else ({ c with specVersion := version }, none)

/-- VCard.setNickname. -/
def setNickname (n : Str) (c : VCard) : VCard :=
  { c with nickname := c.nickname ++ [n] }

/-- VCard.setName. -/
def setName (n : Str) (c : VCard) : VCard :=
  { c with name := c.name ++ [normalizeName n] }

/-- VCard.setKind. -/
def setKind (kind : Str) (c : VCard) : VCard × Option Str :=
  let kind := lowerStr (trimStr kind)
  if kind ∉ kindValues then (c, some "Invalid Kind value.".data)
  else ({ c with kind := some kind }, none)

/-- VCard.setPhoto. -/
def setPhoto (dataURI : Str) (c : VCard) : VCard × Option Str :=
  if (dataUriMatch dataURI).isNone then (c, some "Invalid Image Data URI".data)
  else ({ c with photo := c.photo ++ [dataURI] }, none)

/-- VCard.setBday: the argument is typed as a Date, so the instanceof check
always passes in this embedding. -/
def setBday (d : JSDate) (c : VCard) : VCard :=
  { c with bday := some d }

/-- VCard.setAnniversary, with the same typing remark as setBday. -/
def setAnniversary (d : JSDate) (c : VCard) : VCard :=
  { c with anniversary := some d }

/-- VCard.setGender: a present, nonempty identity is trimmed and lowercased
before storage (an empty string is falsy in the source and is stored as is). -/
def setGender (gender : Str) (ident : Option Str) (c : VCard) : VCard × Option Str :=
  let ident := ident.map fun s => if s.isEmpty then s else lowerStr (trimStr s)
  if gender ∉ genderValues then (c, some "Invalid Gender value.".data)
  else ({ c with gender := some gender, genderIdent := ident }, none)

/-- VCard.setAddress. -/
def setAddress (street city state zip country label : Str) (c : VCard) : VCard :=
  { c with address := c.address ++ [⟨street, city, state, zip, country, label⟩] }

/-- VCard.setPhone: type values are validated first; on success a preferred
entry clears every earlier preferred flag before being appended. -/
def setPhone (phone ext : Str) (type : List Str) (pref : Bool) (c : VCard) :
    VCard × Option Str :=
  if ¬ (∀ t ∈ type, t ∈ telTypeValues) then (c, some "Invalid Type value.".data)
  else
    let c := if pref then { c with tel := c.tel.map fun e => { e with pref := false } } else c
    ({ c with tel := c.tel ++ [⟨phone, ext, type, pref⟩] }, none)

/-- VCard.setEmail: the lowercased address must match the email regex; a
preferred entry clears every earlier preferred flag. -/
def setEmail (email : Str) (pref : Bool) (c : VCard) : VCard × Option Str :=
  if ¬ emailTest (lowerStr email) then (c, some "Invalid Email value.".data)
  else
    let c := if pref then { c with email := c.email.map fun e => { e with pref := false } } else c
    ({ c with email := c.email ++ [⟨email, pref⟩] }, none)

/-- VCard.setIM. -/
def setIM (imurl protocol : Str) (pref : Bool) (c : VCard) : VCard × Option Str :=
  if protocol ∉ imProtocolValues then (c, some "Invalid Protocol value.".data)
  else
    let c := if pref then { c with impp := c.impp.map fun e => { e with pref := false } } else c
    ({ c with impp := c.impp ++ [⟨imurl, protocol, pref⟩] }, none)

/-- VCard.setTitle. -/
def setTitle (t : Str) (c : VCard) : VCard := { c with title := c.title ++ [t] }

/-- VCard.setRole. -/
def setRole (r : Str) (c : VCard) : VCard := { c with role := c.role ++ [r] }

/-- VCard.setLogo. -/
def setLogo (dataURI : Str) (c : VCard) : VCard × Option Str :=
  if (dataUriMatch dataURI).isNone then (c, some "Invalid Image Data URI".data)
  else ({ c with logo := c.logo ++ [dataURI] }, none)

/-- VCard.setOrg: the up to three arguments are pushed when truthy (a missing
argument and an empty string are both falsy). -/
def setOrg (org1 org2 org3 : Option Str) (c : VCard) : VCard :=
  let keep : Option Str → Option Str := fun o =>
    match o with
    | some s => if s.isEmpty then none else some s
    | none => none
  { c with org := c.org ++ [([keep org1, keep org2, keep org3]).filterMap id] }

/-- VCard.setNote. -/
def setNote (n : Str) (c : VCard) : VCard := { c with note := c.note ++ [n] }

/-- VCard.setURL. -/
def setURL (u : Str) (c : VCard) : VCard := { c with url := c.url ++ [u] }

/-! ## The renderer (VCard.render)

The render method pushes one string per logical line into a parts array and
joins the parts with newlines.  Each loop of the source becomes one parts
function below, in the same order. -/

/-- Truthiness of an optional string field (null and the empty string are
falsy in the source). -/
def optTruthy (o : Option Str) : Bool :=
  match o with
  | some s => !s.isEmpty
  | none => false

/-- VCard.formatDate: the ISO components of the date, compact under version
4 and dashed under version 3. -/
def formatDate (v : Nat) (d : JSDate) : Str :=
  if v = 4 then
    padNum 4 d.year ++ padNum 2 d.month ++ padNum 2 d.day ++ ['T'] ++
      padNum 2 d.hour ++ padNum 2 d.minute ++ padNum 2 d.second ++ ['Z']
  else
    padNum 4 d.year ++ ['-'] ++ padNum 2 d.month ++ ['-'] ++ padNum 2 d.day ++ ['T'] ++
      padNum 2 d.hour ++ [':'] ++ padNum 2 d.minute ++ [':'] ++ padNum 2 d.second ++ ['Z']

/-- The replacement of reserved characters by their placeholder tokens, done
before formatTextValue for PHOTO and LOGO payloads. -/
def tokenizeReserved (s : Str) : Str :=
  s.flatMap fun c =>
    if c = ':' then "%COL%".data
    else if c = ';' then "%SEM%".data
    else if c = ',' then "%COM%".data
    else if c = '\\' then "%BAC%".data
    else [c]

/-- The FN and N lines: one FN per name, and a derived N line after the
first FN, splitting the first name at its last space. -/
def nameParts (c : VCard) : List Str :=
  match c.name with
  | [] => []
  | n0 :: rest =>
    let ps := splitAllChar ' ' n0
    let given := ps.getLastD []
    let lastName := joinChar ' ' ps.dropLast
    let nVal := if !lastName.isEmpty then given ++ "%SEM%".data ++ lastName else given
    formatTextValue ("FN%COL%".data ++ n0) ::
      formatTextValue ("N%COL%".data ++ nVal) ::
      rest.map (fun n => formatTextValue ("FN%COL%".data ++ n))

/-- The NICKNAME lines: whitespace-only nicknames are skipped, and the
property name is prefixed outside formatTextValue. -/
def nicknameParts (c : VCard) : List Str :=
  c.nickname.filterMap fun n =>
    if (trimStr n).isEmpty then none
    else some ("NICKNAME:".data ++ formatTextValue n)

/-- Sequential traversal with failure: the model of calling a throwing
function on every element of an array in order. -/
def collectE {α β : Type} (f : α → Except Str β) : List α → Except Str (List β)
  | [] => .ok []
  | x :: t => do
    let y ← f x
    let r ← collectE f t
    pure (y :: r)

/-- The PHOTO lines; under version 3 a photo that fails the data URI match
makes the destructuring throw. -/
def photoParts (c : VCard) : Except Str (List Str) :=
  collectE (fun p =>
    if c.specVersion = 4 then
      .ok (formatTextValue ("PHOTO%COL%".data ++ tokenizeReserved p))
    else
      match dataUriMatch p with
      | none => .error "TypeError".data
      | some (ty, data) =>
          .ok (formatTextValue ("PHOTO%SEM%ENCODING=b%SEM%TYPE=".data ++ upperStr ty ++
              "%COL%".data ++ tokenizeReserved data))) c.photo

/-- The LOGO lines, identical in shape to the PHOTO lines. -/
def logoParts (c : VCard) : Except Str (List Str) :=
  collectE (fun p =>
    if c.specVersion = 4 then
      .ok (formatTextValue ("LOGO%COL%".data ++ tokenizeReserved p))
    else
      match dataUriMatch p with
      | none => .error "TypeError".data
      | some (ty, data) =>
          .ok (formatTextValue ("LOGO%SEM%ENCODING=b%SEM%TYPE=".data ++ upperStr ty ++
              "%COL%".data ++ tokenizeReserved data))) c.logo

/-- The ADR lines, with the synthetic item group and companion X-ABLabel
line under version 3 and the LABEL parameter under version 4. -/
def addressParts (c : VCard) : List Str :=
  (c.address.enum.map fun (i, a) =>
    let group : Str := if c.specVersion = 3 then "item".data ++ (toString (i + 1)).data ++ ['.'] else []
    let adr0 := group ++ "ADR".data
    let adr1 := if c.specVersion = 4 ∧ ¬ a.label.isEmpty then adr0 ++ "%SEM%LABEL=".data ++ a.label else adr0
    let adr := adr1 ++ "%COL%%SEM%%SEM%".data ++ a.street ++ "%SEM%".data ++ a.city ++
      "%SEM%".data ++ a.state ++ "%SEM%".data ++ a.zip ++ "%SEM%".data ++ a.country
    if c.specVersion = 3 then
      [formatTextValue adr, formatTextValue (group ++ "X-ABLabel%COL%".data ++ a.label)]
    else
      [formatTextValue adr]).flatten

/-- The fixed version-3 phone type translation table (unknown and empty
results are filtered out). -/
def phoneTypeMap (t : Str) : Str :=
  if t = "text".data then "cell".data
  else if t = "voice".data then "voice".data
  else if t = "fax".data then "fax".data
  else if t = "cell".data then "cell".data
  else if t = "video".data then "video".data
  else if t = "pager".data then "pager".data
  else []

/-- The TEL lines. -/
def telParts (c : VCard) : List Str :=
  c.tel.map fun t =>
    let s0 : Str := "TEL".data
    let s1 := if c.specVersion = 4 then
        (if t.pref then s0 ++ "%SEM%VALUE=uri".data ++ "%SEM%PREF=1".data
         else s0 ++ "%SEM%VALUE=uri".data)
      else s0
    let s2 := if !t.type.isEmpty then
        let ty := if c.specVersion = 3 then
            let mapped := (t.type.map phoneTypeMap).filter (fun x => !x.isEmpty)
            if t.pref then mapped ++ ["pref".data] else mapped
          else t.type
        s1 ++ "%SEM%TYPE=".data ++ joinCommaTok ty
      else s1
    let ds := (t.phone.filter Char.isDigit).take 10
    let p1 := ds.take 3
    let p2 := (ds.drop 3).take 3
    let p3 := (ds.drop 6).take 4
    let num := "+1-".data ++ p1 ++ ['-'] ++ p2 ++ ['-'] ++ p3
    let s3 := if c.specVersion = 4 then s2 ++ "%COL%tel%COL%".data ++ num
      else s2 ++ "%COL%".data ++ num
    let s4 := if c.specVersion = 4 ∧ ¬ t.ext.isEmpty then s3 ++ "%SEM%ext=".data ++ t.ext else s3
    formatTextValue s4
where
  /-- Join of parameter values with the literal token of a comma. -/
  joinCommaTok : List Str → Str
    | [] => []
    | [x] => x
    | x :: y :: rest => x ++ "%COM%".data ++ joinCommaTok (y :: rest)

/-- The EMAIL lines. -/
def emailParts (c : VCard) : List Str :=
  c.email.map fun e =>
    let s0 : Str := "EMAIL".data
    let s1 := if c.specVersion = 4 then
        (if e.pref then s0 ++ "%SEM%PREF=1".data else s0)
      else
        (if e.pref then s0 ++ "%SEM%TYPE=internet".data ++ "%COM%pref".data
         else s0 ++ "%SEM%TYPE=internet".data)
    formatTextValue (s1 ++ "%COL%".data ++ e.email)

/-- The IMPP lines, emitted only under version 4. -/
def imppParts (c : VCard) : List Str :=
  if c.specVersion = 4 then
    c.impp.map fun e =>
      let s0 : Str := if e.pref then "IMPP".data ++ "%SEM%PREF=1".data else "IMPP".data
      formatTextValue (s0 ++ "%COL%".data ++ e.protocol ++ "%COL%".data ++ e.imurl)
  else []

/-- The BDAY line. -/
def bdayParts (c : VCard) : List Str :=
  match c.bday with
  | some d => ["BDAY:".data ++ formatDate c.specVersion d]
  | none => []

/-- The ANNIVERSARY line, version 4 only. -/
def anniversaryParts (c : VCard) : List Str :=
  if c.specVersion = 4 then
    match c.anniversary with
    | some d => ["ANNIVERSARY:".data ++ formatDate c.specVersion d]
    | none => []
  else []

/-- The GENDER line, version 4 only; a truthy identity is appended after a
semicolon token. -/
def genderParts (c : VCard) : List Str :=
  if c.specVersion = 4 then
    if optTruthy c.gender then
      let g := c.gender.getD []
      let gv := if optTruthy c.genderIdent then g ++ "%SEM%".data ++ c.genderIdent.getD [] else g
      [formatTextValue ("GENDER%COL%".data ++ gv)]
    else []
  else []

/-- The KIND line, version 4 only. -/
def kindParts (c : VCard) : List Str :=
  if c.specVersion = 4 then ["KIND:".data ++ c.kind.getD []] else []

/-- The TITLE lines. -/
def titleParts (c : VCard) : List Str :=
  c.title.map fun t => formatTextValue ("TITLE%COL%".data ++ t)

/-- The ROLE lines. -/
def roleParts (c : VCard) : List Str :=
  c.role.map fun r => formatTextValue ("ROLE%COL%".data ++ r)

/-- The ORG lines: components joined with semicolon tokens. -/
def orgParts (c : VCard) : List Str :=
  c.org.map fun o => formatTextValue ("ORG%COL%".data ++ joinSemTok o)
where
  /-- Join of organization components with the literal token of a semicolon. -/
  joinSemTok : List Str → Str
    | [] => []
    | [x] => x
    | x :: y :: rest => x ++ "%SEM%".data ++ joinSemTok (y :: rest)

/-- The NOTE lines. -/
def noteParts (c : VCard) : List Str :=
  c.note.map fun n => formatTextValue ("NOTE%COL%".data ++ n)

/-- The URL lines, emitted raw without escaping or folding. -/
def urlParts (c : VCard) : List Str :=
  c.url.map fun u => "URL:".data ++ u

/-- The first error message of render. -/
def missingKindMsg : Str := "Missing Kind property (Required in Version 4)".data

/-- The second error message of render. -/
def missingNameMsg : Str := "Missing Name property.".data

/-- VCard.render before the final join: the validity checks followed by the
parts array, in source order. -/
def renderParts (c : VCard) : Except Str (List Str) :=
  if c.specVersion = 4 ∧ ¬ optTruthy c.kind then .error missingKindMsg
  else if c.name.isEmpty then .error missingNameMsg
  else do
  let photos ← photoParts c
  let logos ← logoParts c
  pure (["BEGIN:VCARD".data, "VERSION:".data ++ (toString c.specVersion).data ++ ".0".data] ++
    kindParts c ++ nameParts c ++ nicknameParts c ++ photos ++ bdayParts c ++
    anniversaryParts c ++ genderParts c ++ addressParts c ++ telParts c ++
    emailParts c ++ imppParts c ++ titleParts c ++ roleParts c ++ logos ++
    orgParts c ++ noteParts c ++ urlParts c ++ ["END:VCARD".data])

/-- VCard.render: the parts joined with newlines. -/
def render (c : VCard) : Except Str Str :=
  (renderParts c).map (joinChar '\n')

/-! ## The tokenizer (VCardParser.tokenizeVcardString) -/

/-- One parameter of a token. -/
structure Param where
  property : Str
  values : List Str
deriving DecidableEq, Repr

/-- One tokenized logical line. -/
structure Token where
  key : Str
  props : List Param
  values : List Str
deriving DecidableEq, Repr

/-- Model of the global match of the regex pair backslash-dot or
not-the-delimiter, one or more times: the chunks between unescaped delimiter
characters, where a backslash consumes the following character (a backslash
before a newline or at the end matches alone, since dot excludes newlines).
The first argument accumulates the chunk being built. -/
def lineMatchGo (d : Char) (cur : Str) : Str → List Str
  | [] => if cur.isEmpty then [] else [cur]
  | [c] =>
    if c = d then (if cur.isEmpty then [] else [cur])
    else [cur ++ [c]]
  | c :: c2 :: t =>
    if c = d then
      if cur.isEmpty then lineMatchGo d [] (c2 :: t) else cur :: lineMatchGo d [] (c2 :: t)
    else if c = '\\' then
      if c2 = '\n' then lineMatchGo d (cur ++ ['\\']) (c2 :: t)
      else lineMatchGo d (cur ++ ['\\', c2]) t
    else lineMatchGo d (cur ++ [c]) (c2 :: t)

/-- The list of matches of the escaped-segment regex for delimiter d; an
empty list models a null match result. -/
def lineMatch (d : Char) (s : Str) : List Str := lineMatchGo d [] s

/-- One parameter segment: split at the first unescaped equals sign; a
missing value side makes the later match call throw. -/
def parseParamSeg (seg : Str) : Except Str Param :=
  match lineMatch '=' seg with
  | [] => .error "TypeError".data
  | [_] => .error "TypeError".data
  | property :: v1 :: _ =>
    match lineMatch ',' v1 with
    | [] => .error "TypeError".data
    | vs => .ok ⟨unesc property, vs.map unesc⟩

/-- Tokenization of one logical line: split into key-plus-parameters and
values at unescaped colons (the value chunks rejoined with colons and then
split at unescaped semicolons), the key segment split at unescaped
semicolons, every piece unescaped. -/
def tokenizeLine (line : Str) : Except Str Token := do
  match lineMatch ':' line with
  | [] => throw "TypeError".data
  | keyProps :: vals =>
    let values := (lineMatch ';' (joinChar ':' vals)).map unesc
    match lineMatch ';' keyProps with
    | [] => throw "TypeError".data
    | key :: props =>
      let ps ← collectE parseParamSeg props
      pure ⟨unesc key, ps, values⟩

/-- Replacement of one element of a list at an index. -/
def modifyAt {α : Type} (f : α → α) : Nat → List α → List α
  | _, [] => []
  | 0, x :: t => f x :: t
  | n + 1, x :: t => x :: modifyAt f n t

/-- Lookup in the association list that models the label map object. -/
def labelLookup (l : Str) : List (Str × Nat) → Option Nat
  | [] => none
  | (k, v) :: t => if k = l then some v else labelLookup l t

/-- The group label and the bare name of a key: the first two pieces of the
split at dots. -/
def splitDot (k : Str) : Str × Str :=
  let ps := splitAllChar '.' k
  (ps.headD [], ps.getD 1 [])

/-- Append one folded-in parameter to a token. -/
def attachParam (p : Param) (t : Token) : Token := { t with props := t.props ++ [p] }

/-- The group-merging loop over the token array: the processed prefix is
carried explicitly (the source mutates the array in place, only ever at the
current index or at a remembered earlier index). -/
def mergeLoop (done : List Token) (lm : List (Str × Nat)) : List Token → List Token
  | [] => done
  | t :: rest =>
    if t.key.contains '.' then
      let lb := (splitDot t.key).1
      let bare := (splitDot t.key).2
      match labelLookup lb lm with
      | none => mergeLoop (done ++ [{ t with key := bare }]) ((lb, done.length) :: lm) rest
      | some j =>
        let bare2 := if bare = "X-ABLabel".data then "LABEL".data else bare
        mergeLoop (modifyAt (attachParam ⟨bare2, t.values⟩) j done ++ [t]) lm rest
    else mergeLoop (done ++ [t]) lm rest

/-- Group merging followed by the filter that removes every token whose key
still contains a dot. -/
def mergeGroups (ts : List Token) : List Token :=
  (mergeLoop [] [] ts).filter fun t => !t.key.contains '.'

/-- Model of split on a plus-quantified newline regex: single-character
split, with the empty chunks that sit strictly between two separators
removed (a maximal newline run is one separator), the boundary chunks kept. -/
def regexSplitNl (s : Str) : List Str :=
  match splitAllChar '\n' s with
  | [] => []
  | [x] => [x]
  | x :: rest => x :: ((rest.dropLast.filter fun l => !l.isEmpty) ++ [rest.getLastD []])

/-- VCardParser.tokenizeVcardString: unfold, split into logical lines,
tokenize each line, merge groups. -/
def tokenizeVcardString (s : Str) : Except Str (List Token) := do
  let lines := regexSplitNl (stripFolds s)
  let toks ← collectE tokenizeLine lines
  pure (mergeGroups toks)

/-! ## The field mapper (VCardParser.parse) -/

/-- Lift of a pair-style setter result to a result type (a thrown error
aborts the whole decode, so the partial state is discarded). -/
def toE (r : VCard × Option Str) : Except Str VCard :=
  match r with
  | (c, none) => .ok c
  | (_, some e) => .error e

/-- Value of a digit string as a natural number. -/
def natOfDigits (s : Str) : Nat := s.foldl (fun a c => a * 10 + (c.toNat - 48)) 0

/-- The first parameter with the given uppercased name, as its value list. -/
def propValues (name : Str) (t : Token) : Option (List Str) :=
  match t.props.filter (fun p => upperStr p.property = name) with
  | [] => none
  | p :: _ => some p.values

/-- VCardParser.parseBDayToken and parseAnniversaryToken share this: strip
non-digits, demand fourteen leading digits, and build the UTC date (a failed
match is a TypeError on destructuring). -/
def parseDateValue (v0 : Str) : Except Str JSDate :=
  let ds := v0.filter Char.isDigit
  if ds.length < 14 then .error "TypeError".data
  else
    let y := natOfDigits (ds.take 4)
    let mo := natOfDigits ((ds.drop 4).take 2)
    let d := natOfDigits ((ds.drop 6).take 2)
    let hr := natOfDigits ((ds.drop 8).take 2)
    let mi := natOfDigits ((ds.drop 10).take 2)
    let se := natOfDigits ((ds.drop 12).take 2)
    .ok (dateUTC (Int.ofNat y) (Int.ofNat mo - 1) (Int.ofNat d) (Int.ofNat hr)
      (Int.ofNat mi) (Int.ofNat se))

/-- VCardParser.parsePhoneToken. -/
def parsePhoneToken (t : Token) (c : VCard) : Except Str VCard :=
  let digits := (t.values.headD []).filter Char.isDigit
  let phone := if digits.length = 11 ∧ digits.headD ' ' = '1' then digits.drop 1 else digits
  if c.specVersion = 3 then
    let tys := (propValues "TYPE".data t).getD []
    let pref := tys.any fun v => v = "pref".data
    let type := tys.filter fun v => v ≠ "pref".data
    toE (setPhone phone [] type pref c)
  else
    let type := (propValues "TYPE".data t).getD []
    let pref := (propValues "PREF".data t).isSome
    let ext := if t.values.length > 1 then (t.values.getD 1 []).filter Char.isDigit else []
    toE (setPhone phone ext type pref c)

/-- VCardParser.parseEmailToken. -/
def parseEmailToken (t : Token) (c : VCard) : Except Str VCard :=
  let pref := if c.specVersion = 3 then
      ((propValues "TYPE".data t).getD []).any fun v => v = "pref".data
    else (propValues "PREF".data t).isSome
  toE (setEmail (t.values.headD []) pref c)

/-- VCardParser.parseIMToken: the single value split at colons, the first
two pieces used (a missing second piece is undefined, which interpolates as
the text undefined downstream). -/
def parseIMToken (t : Token) (c : VCard) : Except Str VCard :=
  let pref := (propValues "PREF".data t).isSome
  let parts := splitAllChar ':' (t.values.headD [])
  let protocol := parts.headD []
  let imurl := match parts.getD 1 [] with
    | v => if parts.length ≥ 2 then v else "undefined".data
  toE (setIM imurl protocol pref c)

/-- VCardParser.parsePhotoToken. -/
def parsePhotoToken (t : Token) (c : VCard) : Except Str VCard :=
  if c.specVersion = 3 then
    match propValues "TYPE".data t with
    | none => .error "Invalid vCard (Missing encoding)".data
    | some tys =>
      match tys with
      | [] => .error "Invalid vCard (Missing encoding)".data
      | ty :: _ =>
        toE (setPhoto ("data:image/".data ++ lowerStr ty ++ ";base64,".data ++
          t.values.headD []) c)
  else toE (setPhoto (joinChar ';' t.values) c)

/-- VCardParser.parseLogoToken. -/
def parseLogoToken (t : Token) (c : VCard) : Except Str VCard :=
  if c.specVersion = 3 then
    match propValues "TYPE".data t with
    | none => .error "Invalid vCard (Missing encoding)".data
    | some tys =>
      match tys with
      | [] => .error "Invalid vCard (Missing encoding)".data
      | ty :: _ =>
        toE (setLogo ("data:image/".data ++ lowerStr ty ++ ";base64,".data ++
          t.values.headD []) c)
  else toE (setLogo (joinChar ';' t.values) c)

/-- VCardParser.parseAddressToken: positional values with the label prop
appended as the final argument of the spread call. -/
def parseAddressToken (t : Token) (c : VCard) : Except Str VCard :=
  let label := match propValues "LABEL".data t with
    | some (v :: _) => v
    | _ => []
  let args := t.values ++ [label]
  .ok (setAddress (args.getD 0 []) (args.getD 1 []) (args.getD 2 []) (args.getD 3 [])
    (args.getD 4 []) (args.getD 5 []) c)

/-- VCardParser.parseVersionToken. -/
def parseVersionToken (t : Token) (c : VCard) : Except Str VCard :=
  if t.values.headD [] = "3.0".data then toE (setVersion 3 c)
  else if t.values.headD [] = "4.0".data then toE (setVersion 4 c)
  else .error "Invalid or incompatible vCard version.".data

/-- VCardParser.parseToken: the shared non-emptiness check followed by the
dispatch on the uppercased key; unrecognized keys are ignored. -/
def parseToken (t : Token) (c : VCard) : Except Str VCard :=
  if t.key.isEmpty ∨ t.values.isEmpty then .error "Invalid vCard (Invalid token)".data
  else
    let k := upperStr t.key
    if k = "VERSION".data then parseVersionToken t c
    else if k = "N".data then .ok c
    else if k = "FN".data then .ok (setName (t.values.headD []) c)
    else if k = "KIND".data then toE (setKind (t.values.headD []) c)
    else if k = "NICKNAME".data then .ok (t.values.foldl (fun c n => setNickname n c) c)
    else if k = "PHOTO".data then parsePhotoToken t c
    else if k = "BDAY".data then do
      let d ← parseDateValue (t.values.headD [])
      pure (setBday d c)
    else if k = "ANNIVERSARY".data then do
      let d ← parseDateValue (t.values.headD [])
      pure (setAnniversary d c)
    else if k = "GENDER".data then
      toE (setGender (t.values.headD []) (t.values.get? 1) c)
    else if k = "ADR".data then parseAddressToken t c
    else if k = "TEL".data then parsePhoneToken t c
    else if k = "EMAIL".data then parseEmailToken t c
    else if k = "IMPP".data then parseIMToken t c
    else if k = "TITLE".data then .ok (setTitle (t.values.headD []) c)
    else if k = "ROLE".data then .ok (setRole (t.values.headD []) c)
    else if k = "LOGO".data then parseLogoToken t c
    else if k = "ORG".data then .ok (setOrg (t.values.get? 0) (t.values.get? 1) (t.values.get? 2) c)
    else if k = "NOTE".data then .ok (t.values.foldl (fun c n => setNote n c) c)
    else if k = "URL".data then .ok (t.values.foldl (fun c u => setURL u c) c)
    else .ok c

/-- The BEGIN and END bracket check shared by parse. -/
def bracketOk (t : Token) (word : Str) : Bool :=
  upperStr t.key = word &&
    (match t.values.head? with
     | some v => !v.isEmpty && upperStr v = "VCARD".data
     | none => false)

/-- The dispatch loop over the remaining tokens, in order. -/
def foldTokens : List Token → VCard → Except Str VCard
  | [], c => .ok c
  | t :: ts, c => do
    let c2 ← parseToken t c
    foldTokens ts c2

/-- VCardParser.parse: tokenize, strip and check BEGIN and END, demand a
leading VERSION token, and fold the field dispatch over the remaining
tokens (property access on a missing token is a TypeError). -/
def parserParse (text : Str) (v : VCard) : Except Str VCard := do
  let tokens ← tokenizeVcardString text
  match tokens with
  | [] => throw "TypeError".data
  | begin :: rest =>
    if ¬ bracketOk begin "BEGIN".data then throw "Invalid vCard".data
    else
      match rest.getLast? with
      | none => throw "TypeError".data
      | some endTok =>
        if ¬ bracketOk endTok "END".data then throw "Invalid vCard".data
        else
          let ts := rest.dropLast
          match ts with
          | [] => throw "TypeError".data
          | t0 :: _ =>
            if upperStr t0.key ≠ "VERSION".data then
              throw "Version missing or out of place.".data
            else foldTokens ts v

/-- Modelled from the spec: the decode entry point accepts raw document text
and returns a populated Contact.  The constructor wiring that hands the text
and a fresh contact to VCardParser is not under src, so it is modelled as
running VCardParser.parse on a fresh default contact. -/
def decode (text : Str) : Except Str VCard := parserParse text emptyVCard

/-- The encode-decode-encode pipeline used by the round-trip property. -/
def roundTrip (c : VCard) : Except Str (Str × Str) := do
  let t ← render c
  let c2 ← decode t
  let t2 ← render c2
  pure (t, t2)

/-! ## Lemmas about replace2 -/

theorem replace2_cons_ne (a b : Char) (r : Str) (x : Char) (L : Str) (h : x ≠ a) :
    replace2 a b r (x :: L) = x :: replace2 a b r L := by
  cases L <;> simp [replace2, h]

theorem replace2_cons2_ne (a b : Char) (r : Str) (y : Char) (L : Str) (h : y ≠ b) :
    replace2 a b r (a :: y :: L) = a :: replace2 a b r (y :: L) := by
  simp [replace2, h]

theorem replace2_cons2_eq (a b : Char) (r : Str) (L : Str) :
    replace2 a b r (a :: b :: L) = r ++ replace2 a b r L := by
  simp [replace2]

/-- A string whose characters all differ from the first pattern character is
untouched by replace2. -/
theorem replace2_of_not_mem (a b : Char) (r : Str) (L : Str) (h : a ∉ L) :
    replace2 a b r L = L := by
  induction L with
  | nil => rfl
  | cons x t ih =>
    have hx : x ≠ a := fun hxa => h (hxa ▸ List.mem_cons_self x t)
    rw [replace2_cons_ne a b r x t hx, ih (fun hm => h (List.mem_cons_of_mem x hm))]

/-! ## The unescape function inverts the escaper

The five global replacements of unesc are applied in sequence; each stage is
described by a character-level map of the partially unescaped stream. -/

/-- Stream after the first replacement: commas unescaped. -/
def stage1 (c : Char) : Str := if c = ',' then [','] else escUnit c

/-- Stream after the second replacement: semicolons unescaped too. -/
def stage2 (c : Char) : Str := if c = ';' then [';'] else stage1 c

/-- Stream after the third replacement: colons unescaped too. -/
def stage3 (c : Char) : Str := if c = ':' then [':'] else stage2 c

/-- Stream after the fourth replacement: backslash pairs collapsed. -/
def stage4 (c : Char) : Str := if c = '\\' then ['\\'] else stage3 c

/-- The escape map alone, without the placeholder tokens of units (the
escaping of a string containing no percent sign). -/
def escF (s : Str) : Str := s.flatMap escUnit

/-- No literal backslash is immediately followed by a literal letter n. -/
def noBackslashN : Str → Bool
  | [] => true
  | [_] => true
  | x :: y :: t => !(x = '\\' && y = 'n') && noBackslashN (y :: t)

/-- The pattern a a with the tail not continuing the pattern is passed
through unchanged. -/
theorem replace2_aa (a b : Char) (r : Str) (L : Str) (hab : a ≠ b)
    (hL : ∀ y t, L = y :: t → y ≠ b) :
    replace2 a b r (a :: a :: L) = a :: a :: replace2 a b r L := by
  rw [replace2_cons2_ne a b r a L (fun h => hab h)]
  cases L with
  | nil => simp [replace2]
  | cons y t => rw [replace2_cons2_ne a b r y t (hL y t rfl)]

theorem escUnit_ne_nil (c : Char) : escUnit c ≠ [] := by
  unfold escUnit
  split
  · simp
  split
  · simp
  split
  · simp
  split
  · simp
  split
  · simp
  · simp

/-- The head character of an escaped unit: a backslash, or the character
itself when it is not reserved. -/
theorem escUnit_head (c y : Char) (r : Str) (h : escUnit c = y :: r) :
    y = '\\' ∨ (y = c ∧ c ≠ ',' ∧ c ≠ ';' ∧ c ≠ ':' ∧ c ≠ '\\' ∧ c ≠ '\n') := by
  unfold escUnit at h
  split at h
  · exact Or.inl (by injection h with h1 _; exact h1.symm)
  · split at h
    · exact Or.inl (by injection h with h1 _; exact h1.symm)
    · split at h
      · exact Or.inl (by injection h with h1 _; exact h1.symm)
      · split at h
        · exact Or.inl (by injection h with h1 _; exact h1.symm)
        · split at h
          · exact Or.inl (by injection h with h1 _; exact h1.symm)
          · injection h with h1 _
            refine Or.inr ⟨h1.symm, ?_, ?_, ?_, ?_, ?_⟩ <;> assumption

theorem stage1_head (c y : Char) (r : Str) (h : stage1 c = y :: r) :
    y = '\\' ∨ y = ',' ∨ (y = c ∧ c ≠ ',' ∧ c ≠ ';' ∧ c ≠ ':' ∧ c ≠ '\\' ∧ c ≠ '\n') := by
  unfold stage1 at h
  split at h
  · exact Or.inr (Or.inl (by injection h with h1 _; exact h1.symm))
  · rcases escUnit_head c y r h with h1 | h2
    · exact Or.inl h1
    · exact Or.inr (Or.inr h2)

theorem stage2_head (c y : Char) (r : Str) (h : stage2 c = y :: r) :
    y = '\\' ∨ y = ',' ∨ y = ';' ∨
      (y = c ∧ c ≠ ',' ∧ c ≠ ';' ∧ c ≠ ':' ∧ c ≠ '\\' ∧ c ≠ '\n') := by
  unfold stage2 at h
  split at h
  · exact Or.inr (Or.inr (Or.inl (by injection h with h1 _; exact h1.symm)))
  · rcases stage1_head c y r h with h1 | h2 | h3
    · exact Or.inl h1
    · exact Or.inr (Or.inl h2)
    · exact Or.inr (Or.inr (Or.inr h3))

theorem stage3_head (c y : Char) (r : Str) (h : stage3 c = y :: r) :
    y = '\\' ∨ y = ',' ∨ y = ';' ∨ y = ':' ∨
      (y = c ∧ c ≠ ',' ∧ c ≠ ';' ∧ c ≠ ':' ∧ c ≠ '\\' ∧ c ≠ '\n') := by
  unfold stage3 at h
  split at h
  · exact Or.inr (Or.inr (Or.inr (Or.inl (by injection h with h1 _; exact h1.symm))))
  · rcases stage2_head c y r h with h1 | h2 | h3 | h4
    · exact Or.inl h1
    · exact Or.inr (Or.inl h2)
    · exact Or.inr (Or.inr (Or.inl h3))
    · exact Or.inr (Or.inr (Or.inr (Or.inr h4)))

theorem stage4_head (c y : Char) (r : Str) (h : stage4 c = y :: r) :
    y = '\\' ∨ y = ',' ∨ y = ';' ∨ y = ':' ∨
      (y = c ∧ c ≠ ',' ∧ c ≠ ';' ∧ c ≠ ':' ∧ c ≠ '\\' ∧ c ≠ '\n') := by
  unfold stage4 at h
  split at h
  · exact Or.inl (by injection h with h1 _; exact h1.symm)
  · exact stage3_head c y r h

/-- The head of a flatMap over a nonempty list comes from the first unit. -/
theorem flatMap_head (f : Char → Str) (c2 : Char) (t2 : List Char) (y : Char) (r : Str)
    (hne : f c2 ≠ []) (h : (c2 :: t2).flatMap f = y :: r) :
    ∃ r2, f c2 = y :: r2 := by
  cases hf : f c2 with
  | nil => exact absurd hf hne
  | cons a as =>
    rw [List.flatMap_cons, hf] at h
    injection h with h1 _
    subst h1
    exact ⟨as, rfl⟩

theorem stage1_of_escF (s : Str) :
    replace2 '\\' ',' [','] (escF s) = s.flatMap stage1 := by
  induction s with
  | nil => rfl
  | cons c t ih =>
    have key : replace2 '\\' ',' [','] (escUnit c ++ escF t) = stage1 c ++ t.flatMap stage1 := by
      have hhead : ∀ y r, escF t = y :: r → y ≠ ',' := by
        intro y r he
        cases t with
        | nil => simp [escF] at he
        | cons c2 t2 =>
          obtain ⟨r2, h2⟩ := flatMap_head escUnit c2 t2 y r (escUnit_ne_nil c2) he
          rcases escUnit_head c2 y r2 h2 with h3 | h4
          · rw [h3]; decide
          · rw [h4.1]; exact h4.2.1
      by_cases h1 : c = ','
      · subst h1
        show replace2 '\\' ',' [','] ('\\' :: ',' :: escF t) = _
        rw [replace2_cons2_eq, ih]; simp [stage1]
      · by_cases h4 : c = '\\'
        · subst h4
          show replace2 '\\' ',' [','] ('\\' :: '\\' :: escF t) = _
          rw [replace2_aa _ _ _ _ (by decide) hhead, ih]
          simp [stage1, escUnit]
        · by_cases h2 : c = ';'
          · subst h2
            show replace2 '\\' ',' [','] ('\\' :: ';' :: escF t) = _
            rw [replace2_cons2_ne _ _ _ _ _ (by decide),
              replace2_cons_ne _ _ _ _ _ (by decide), ih]
            simp [stage1, escUnit]
          · by_cases h3 : c = ':'
            · subst h3
              show replace2 '\\' ',' [','] ('\\' :: ':' :: escF t) = _
              rw [replace2_cons2_ne _ _ _ _ _ (by decide),
                replace2_cons_ne _ _ _ _ _ (by decide), ih]
              simp [stage1, escUnit]
            · by_cases h5 : c = '\n'
              · subst h5
                show replace2 '\\' ',' [','] ('\\' :: 'n' :: escF t) = _
                rw [replace2_cons2_ne _ _ _ _ _ (by decide),
                  replace2_cons_ne _ _ _ _ _ (by decide), ih]
                simp [stage1, escUnit]
              · have hu : escUnit c = [c] := by simp [escUnit, h1, h2, h3, h4, h5]
                rw [hu]
                show replace2 '\\' ',' [','] (c :: escF t) = _
                rw [replace2_cons_ne _ _ _ _ _ h4, ih]
                simp [stage1, hu, h1]
    exact key

theorem stage1_ne_nil (c : Char) : stage1 c ≠ [] := by
  unfold stage1
  split
  · simp
  · exact escUnit_ne_nil c

theorem stage2_ne_nil (c : Char) : stage2 c ≠ [] := by
  unfold stage2
  split
  · simp
  · exact stage1_ne_nil c

theorem stage3_ne_nil (c : Char) : stage3 c ≠ [] := by
  unfold stage3
  split
  · simp
  · exact stage2_ne_nil c

theorem stage4_ne_nil (c : Char) : stage4 c ≠ [] := by
  unfold stage4
  split
  · simp
  · exact stage3_ne_nil c

theorem stage2_of_stage1 (s : Str) :
    replace2 '\\' ';' [';'] (s.flatMap stage1) = s.flatMap stage2 := by
  induction s with
  | nil => rfl
  | cons c t ih =>
    rw [List.flatMap_cons, List.flatMap_cons]
    have hhead : ∀ y r, t.flatMap stage1 = y :: r → y ≠ ';' := by
      intro y r he
      cases t with
      | nil => simp at he
      | cons c2 t2 =>
        obtain ⟨r2, h2⟩ := flatMap_head stage1 c2 t2 y r (stage1_ne_nil c2) he
        rcases stage1_head c2 y r2 h2 with h3 | h3 | h3
        · rw [h3]; decide
        · rw [h3]; decide
        · rw [h3.1]; exact h3.2.2.1
    by_cases h1 : c = ','
    · subst h1
      rw [show stage1 ',' = [','] from rfl, List.singleton_append,
        replace2_cons_ne _ _ _ _ _ (by decide), ih]
      rfl
    · by_cases h2 : c = ';'
      · subst h2
        rw [show stage1 ';' = ['\\', ';'] from rfl]
        rw [List.cons_append, List.cons_append, List.nil_append, replace2_cons2_eq, ih]
        rfl
      · by_cases h4 : c = '\\'
        · subst h4
          rw [show stage1 '\\' = ['\\', '\\'] from rfl]
          rw [List.cons_append, List.cons_append, List.nil_append,
            replace2_aa _ _ _ _ (by decide) hhead, ih]
          rfl
        · by_cases h3 : c = ':'
          · subst h3
            rw [show stage1 ':' = ['\\', ':'] from rfl]
            rw [List.cons_append, List.cons_append, List.nil_append,
              replace2_cons2_ne _ _ _ _ _ (by decide),
              replace2_cons_ne _ _ _ _ _ (by decide), ih]
            rfl
          · by_cases h5 : c = '\n'
            · subst h5
              rw [show stage1 '\n' = ['\\', 'n'] from rfl]
              rw [List.cons_append, List.cons_append, List.nil_append,
                replace2_cons2_ne _ _ _ _ _ (by decide),
                replace2_cons_ne _ _ _ _ _ (by decide), ih]
              rfl
            · have hu : stage1 c = [c] := by simp [stage1, escUnit, h1, h2, h3, h4, h5]
              rw [hu, List.singleton_append, replace2_cons_ne _ _ _ _ _ h4, ih]
              have hu2 : stage2 c = [c] := by simp [stage2, hu, h2]
              rw [hu2]
              rfl

theorem stage3_of_stage2 (s : Str) :
    replace2 '\\' ':' [':'] (s.flatMap stage2) = s.flatMap stage3 := by
  induction s with
  | nil => rfl
  | cons c t ih =>
    rw [List.flatMap_cons, List.flatMap_cons]
    have hhead : ∀ y r, t.flatMap stage2 = y :: r → y ≠ ':' := by
      intro y r he
      cases t with
      | nil => simp at he
      | cons c2 t2 =>
        obtain ⟨r2, h2⟩ := flatMap_head stage2 c2 t2 y r (stage2_ne_nil c2) he
        rcases stage2_head c2 y r2 h2 with h3 | h3 | h3 | h3
        · rw [h3]; decide
        · rw [h3]; decide
        · rw [h3]; decide
        · rw [h3.1]; exact h3.2.2.2.1
    by_cases h1 : c = ','
    · subst h1
      rw [show stage2 ',' = [','] from rfl, List.singleton_append,
        replace2_cons_ne _ _ _ _ _ (by decide), ih]
      rfl
    · by_cases h2 : c = ';'
      · subst h2
        rw [show stage2 ';' = [';'] from rfl, List.singleton_append,
          replace2_cons_ne _ _ _ _ _ (by decide), ih]
        rfl
      · by_cases h4 : c = '\\'
        · subst h4
          rw [show stage2 '\\' = ['\\', '\\'] from rfl]
          rw [List.cons_append, List.cons_append, List.nil_append,
            replace2_aa _ _ _ _ (by decide) hhead, ih]
          rfl
        · by_cases h3 : c = ':'
          · subst h3
            rw [show stage2 ':' = ['\\', ':'] from rfl]
            rw [List.cons_append, List.cons_append, List.nil_append, replace2_cons2_eq, ih]
            rfl
          · by_cases h5 : c = '\n'
            · subst h5
              rw [show stage2 '\n' = ['\\', 'n'] from rfl]
              rw [List.cons_append, List.cons_append, List.nil_append,
                replace2_cons2_ne _ _ _ _ _ (by decide),
                replace2_cons_ne _ _ _ _ _ (by decide), ih]
              rfl
            · have hu : stage2 c = [c] := by simp [stage2, stage1, escUnit, h1, h2, h3, h4, h5]
              rw [hu, List.singleton_append, replace2_cons_ne _ _ _ _ _ h4, ih]
              have hu2 : stage3 c = [c] := by simp [stage3, hu, h3]
              rw [hu2]
              rfl

theorem stage4_of_stage3 (s : Str) :
    replace2 '\\' '\\' ['\\'] (s.flatMap stage3) = s.flatMap stage4 := by
  induction s with
  | nil => rfl
  | cons c t ih =>
    rw [List.flatMap_cons, List.flatMap_cons]
    by_cases h1 : c = ','
    · subst h1
      rw [show stage3 ',' = [','] from rfl, List.singleton_append,
        replace2_cons_ne _ _ _ _ _ (by decide), ih]
      rfl
    · by_cases h2 : c = ';'
      · subst h2
        rw [show stage3 ';' = [';'] from rfl, List.singleton_append,
          replace2_cons_ne _ _ _ _ _ (by decide), ih]
        rfl
      · by_cases h3 : c = ':'
        · subst h3
          rw [show stage3 ':' = [':'] from rfl, List.singleton_append,
            replace2_cons_ne _ _ _ _ _ (by decide), ih]
          rfl
        · by_cases h4 : c = '\\'
          · subst h4
            rw [show stage3 '\\' = ['\\', '\\'] from rfl]
            rw [List.cons_append, List.cons_append, List.nil_append, replace2_cons2_eq, ih]
            rfl
          · by_cases h5 : c = '\n'
            · subst h5
              rw [show stage3 '\n' = ['\\', 'n'] from rfl]
              rw [List.cons_append, List.cons_append, List.nil_append,
                replace2_cons2_ne _ _ _ _ _ (by decide),
                replace2_cons_ne _ _ _ _ _ (by decide), ih]
              rfl
            · have hu : stage3 c = [c] := by
                simp [stage3, stage2, stage1, escUnit, h1, h2, h3, h4, h5]
              rw [hu, List.singleton_append, replace2_cons_ne _ _ _ _ _ h4, ih]
              have hu2 : stage4 c = [c] := by simp [stage4, hu, h4]
              rw [hu2]
              rfl

theorem noBackslashN_tail (c : Char) (t : Str) (h : noBackslashN (c :: t)) :
    noBackslashN t = true := by
  cases t with
  | nil => rfl
  | cons y r =>
    unfold noBackslashN at h
    exact (Bool.and_eq_true _ _ |>.mp h).2

theorem noBackslashN_head (c2 : Char) (t2 : Str) (h : noBackslashN ('\\' :: c2 :: t2)) :
    c2 ≠ 'n' := by
  unfold noBackslashN at h
  have := (Bool.and_eq_true _ _ |>.mp h).1
  simp at this
  exact this

theorem unesc_stage4 (s : Str) (h : noBackslashN s) :
    replace2 '\\' 'n' ['\n'] (s.flatMap stage4) = s := by
  induction s with
  | nil => rfl
  | cons c t ih =>
    rw [List.flatMap_cons]
    have iht := ih (noBackslashN_tail c t h)
    by_cases h1 : c = ','
    · subst h1
      rw [show stage4 ',' = [','] from rfl, List.singleton_append,
        replace2_cons_ne _ _ _ _ _ (by decide), iht]
    · by_cases h2 : c = ';'
      · subst h2
        rw [show stage4 ';' = [';'] from rfl, List.singleton_append,
          replace2_cons_ne _ _ _ _ _ (by decide), iht]
      · by_cases h3 : c = ':'
        · subst h3
          rw [show stage4 ':' = [':'] from rfl, List.singleton_append,
            replace2_cons_ne _ _ _ _ _ (by decide), iht]
        · by_cases h5 : c = '\n'
          · subst h5
            rw [show stage4 '\n' = ['\\', 'n'] from rfl]
            rw [List.cons_append, List.cons_append, List.nil_append, replace2_cons2_eq, iht]
            rfl
          · by_cases h4 : c = '\\'
            · subst h4
              rw [show stage4 '\\' = ['\\'] from rfl, List.singleton_append]
              cases t with
              | nil => rfl
              | cons c2 t2 =>
                have hc2 : c2 ≠ 'n' := noBackslashN_head c2 t2 h
                cases he : (c2 :: t2).flatMap stage4 with
                | nil =>
                  exact absurd he (by
                    rw [List.flatMap_cons]
                    intro hx
                    exact stage4_ne_nil c2 (List.append_eq_nil.mp hx).1)
                | cons y r =>
                  have hy : y ≠ 'n' := by
                    obtain ⟨r2, hr2⟩ := flatMap_head stage4 c2 t2 y r (stage4_ne_nil c2) he
                    rcases stage4_head c2 y r2 hr2 with h6 | h6 | h6 | h6 | h6
                    · rw [h6]; decide
                    · rw [h6]; decide
                    · rw [h6]; decide
                    · rw [h6]; decide
                    · rw [h6.1]; exact hc2
                  rw [replace2_cons2_ne _ _ _ _ _ hy, ← he, iht]
            · have hu : stage4 c = [c] := by
                simp [stage4, stage3, stage2, stage1, escUnit, h1, h2, h3, h4, h5]
              rw [hu, List.singleton_append, replace2_cons_ne _ _ _ _ _ h4, iht]

/-- The unescape function of the tokenizer inverts the character escaping of
the renderer on every string in which no literal backslash is immediately
followed by a literal letter n. -/
theorem unesc_escF (s : Str) (h : noBackslashN s) : unesc (escF s) = s := by
  unfold unesc
  rw [stage1_of_escF, stage2_of_stage1, stage3_of_stage2, stage4_of_stage3, unesc_stage4 s h]

theorem units_cons_of_ne (c : Char) (t : Str) (hc : c ≠ '%') :
    units (c :: t) = escUnit c :: units t := by
  rcases t with _ | ⟨c1, t1⟩
  · simp [units, hc]
  rcases t1 with _ | ⟨c2, t2⟩
  · simp [units, hc]
  rcases t2 with _ | ⟨c3, t3⟩
  · simp [units, hc]
  rcases t3 with _ | ⟨c4, t4⟩
  · simp [units, hc]
  · simp [units, hc]

theorem units_of_no_pct (s : Str) (h : '%' ∉ s) : units s = s.map escUnit := by
  induction s with
  | nil => rfl
  | cons c t ih =>
    have hc : c ≠ '%' := fun he => h (he ▸ List.mem_cons_self c t)
    rw [units_cons_of_ne c t hc, List.map_cons, ih (fun hm => h (List.mem_cons_of_mem c hm))]

theorem flatten_map_eq_flatMap (f : Char → Str) (s : Str) :
    (s.map f).flatten = s.flatMap f := by
  induction s with
  | nil => rfl
  | cons c t ih => simp [ih]

/-- On percent-free strings the escaping phase of formatTextValue is the
plain character escaping, and unescaping inverts it whenever no backslash is
immediately followed by a letter n. -/
theorem unesc_escapeStr (s : Str) (hp : '%' ∉ s) (h : noBackslashN s) :
    unesc (escapeStr s) = s := by
  unfold escapeStr
  rw [units_of_no_pct s hp, flatten_map_eq_flatMap]
  exact unesc_escF s h

/-- The five reserved characters of the escaper. -/
def reservedChars : List Char := [',', ';', ':', '\\', '\n']

/-- C2: for every string composed of any mixture of the five reserved
characters (comma, semicolon, colon, backslash, newline), applying the
unescape function of the tokenizer to the escaping phase of the renderer
returns the string itself: unescape is an exact left inverse of escape on
such strings. -/
theorem C2_unescape_escape_inverse (s : Str) (h : ∀ c ∈ s, c ∈ reservedChars) :
    unesc (escapeStr s) = s := by
  have hp : '%' ∉ s := fun hm => by
    have := h '%' hm
    simp [reservedChars] at this
  have hb : noBackslashN s := by
    induction s with
    | nil => rfl
    | cons c t ih =>
      have ht : noBackslashN t := ih
        (fun x hx => h x (List.mem_cons_of_mem c hx))
        (fun hm => hp (List.mem_cons_of_mem c hm))
      cases t with
      | nil => rfl
      | cons y r =>
        have hy : y ∈ reservedChars := h y (by simp)
        unfold noBackslashN
        rw [ht]
        have : ¬(c = '\\' ∧ y = 'n') := by
          rintro ⟨_, hy2⟩
          rw [hy2] at hy
          simp [reservedChars] at hy
        simp only [Bool.and_eq_true, decide_eq_true_eq]
        simp [this]
        exact not_and_or.mp this
  exact unesc_escapeStr s hp hb

/-- Witness for C2 at a concrete string holding all five reserved
characters. -/
theorem C2_witness :
    (∀ c ∈ ([',', ';', ':', '\\', '\n', ',', '\\', '\\', ';'] : Str), c ∈ reservedChars) ∧
      unesc (escapeStr [',', ';', ':', '\\', '\n', ',', '\\', '\\', ';']) =
        [',', ';', ':', '\\', '\n', ',', '\\', '\\', ';'] :=
  ⟨by decide, C2_unescape_escape_inverse _ (by decide)⟩

/-! ## Folding lemmas -/

/-- The catch-all equation of units. -/
theorem units_cons_eq (c : Char) (rest : Str)
    (h1 : ∀ t, c = '%' → rest = 'C' :: 'O' :: 'M' :: '%' :: t → False)
    (h2 : ∀ t, c = '%' → rest = 'S' :: 'E' :: 'M' :: '%' :: t → False)
    (h3 : ∀ t, c = '%' → rest = 'C' :: 'O' :: 'L' :: '%' :: t → False)
    (h4 : ∀ t, c = '%' → rest = 'B' :: 'A' :: 'C' :: '%' :: t → False) :
    units (c :: rest) = escUnit c :: units rest := by
  by_cases hc : c = '%'
  · subst hc
    rcases rest with _ | ⟨c1, _ | ⟨c2, _ | ⟨c3, _ | ⟨c4, t5⟩⟩⟩⟩
    · simp [units, escUnit]
    · simp [units, escUnit]
    · simp [units, escUnit]
    · simp [units, escUnit]
    · by_cases e1 : c1 = 'C' ∧ c2 = 'O' ∧ c3 = 'M' ∧ c4 = '%'
      · obtain ⟨r1, r2, r3, r4⟩ := e1; subst r1; subst r2; subst r3; subst r4
        exact (h1 t5 rfl rfl).elim
      · by_cases e2 : c1 = 'S' ∧ c2 = 'E' ∧ c3 = 'M' ∧ c4 = '%'
        · obtain ⟨r1, r2, r3, r4⟩ := e2; subst r1; subst r2; subst r3; subst r4
          exact (h2 t5 rfl rfl).elim
        · by_cases e3 : c1 = 'C' ∧ c2 = 'O' ∧ c3 = 'L' ∧ c4 = '%'
          · obtain ⟨r1, r2, r3, r4⟩ := e3; subst r1; subst r2; subst r3; subst r4
            exact (h3 t5 rfl rfl).elim
          · by_cases e4 : c1 = 'B' ∧ c2 = 'A' ∧ c3 = 'C' ∧ c4 = '%'
            · obtain ⟨r1, r2, r3, r4⟩ := e4; subst r1; subst r2; subst r3; subst r4
              exact (h4 t5 rfl rfl).elim
            · simp [units, escUnit, e1, e2, e3, e4]
  · exact units_cons_of_ne c rest hc

theorem byteSize_le_four (c : Char) : byteSize c ≤ 4 := by
  unfold byteSize
  split
  · omega
  split
  · omega
  split
  · omega
  · omega

theorem byteLen_append (a b : Str) : byteLen (a ++ b) = byteLen a + byteLen b := by
  unfold byteLen
  rw [List.map_append, List.sum_append]

theorem escUnit_small (c : Char) : byteLen (escUnit c) ≤ 4 ∧ '\n' ∉ escUnit c := by
  unfold escUnit
  split
  · exact ⟨by decide, by decide⟩
  split
  · exact ⟨by decide, by decide⟩
  split
  · exact ⟨by decide, by decide⟩
  split
  · exact ⟨by decide, by decide⟩
  split
  · exact ⟨by decide, by decide⟩
  · rename_i n1 n2 n3 n4 n5
    constructor
    · show byteLen [c] ≤ 4
      unfold byteLen
      simp [byteSize_le_four c]
    · simp
      intro hcn
      exact n5 hcn.symm

/-- Every unit of the escaped stream is at most four bytes and contains no
newline. -/
theorem units_small (s : Str) : ∀ u ∈ units s, byteLen u ≤ 4 ∧ '\n' ∉ u := by
  induction s using units.induct with
  | case1 => intro u hu; simp [units] at hu
  | case2 t ih =>
    intro u hu
    rw [show units ('%' :: 'C' :: 'O' :: 'M' :: '%' :: t) = [','] :: units t from rfl] at hu
    rcases List.mem_cons.mp hu with h | h
    · subst h; exact ⟨by decide, by decide⟩
    · exact ih u h
  | case3 t ih =>
    intro u hu
    rw [show units ('%' :: 'S' :: 'E' :: 'M' :: '%' :: t) = [';'] :: units t from rfl] at hu
    rcases List.mem_cons.mp hu with h | h
    · subst h; exact ⟨by decide, by decide⟩
    · exact ih u h
  | case4 t ih =>
    intro u hu
    rw [show units ('%' :: 'C' :: 'O' :: 'L' :: '%' :: t) = [':'] :: units t from rfl] at hu
    rcases List.mem_cons.mp hu with h | h
    · subst h; exact ⟨by decide, by decide⟩
    · exact ih u h
  | case5 t ih =>
    intro u hu
    rw [show units ('%' :: 'B' :: 'A' :: 'C' :: '%' :: t) = ['\\'] :: units t from rfl] at hu
    rcases List.mem_cons.mp hu with h | h
    · subst h; exact ⟨by decide, by decide⟩
    · exact ih u h
  | case6 c rest h1 h2 h3 h4 ih =>
    intro u hu
    rw [units_cons_eq c rest h1 h2 h3 h4] at hu
    rcases List.mem_cons.mp hu with h | h
    · subst h; exact escUnit_small c
    · exact ih u h

/-- Every physical line produced by the folding loop stays within 75 bytes,
as long as the line being built does. -/
theorem foldGo_line_bytes (us : List Str) (curr : Str) (bytes : Nat)
    (hc : byteLen curr = bytes) (hb : bytes ≤ 75) (hu : ∀ u ∈ us, byteLen u ≤ 4) :
    ∀ l ∈ foldGo curr bytes us, byteLen l ≤ 75 := by
  induction us generalizing curr bytes with
  | nil =>
    intro l hl
    rw [show foldGo curr bytes [] = [curr] from rfl] at hl
    rcases List.mem_cons.mp hl with h | h
    · subst h; rw [hc]; exact hb
    · simp at h
  | cons u us ih =>
    intro l hl
    have hu0 : byteLen u ≤ 4 := hu u (by simp)
    have hus : ∀ x ∈ us, byteLen x ≤ 4 := fun x hx => hu x (List.mem_cons_of_mem u hx)
    unfold foldGo at hl
    by_cases hcase : bytes + byteLen u > 75
    · rw [if_pos hcase] at hl
      rcases List.mem_cons.mp hl with h | h
      · subst h; rw [hc]; exact hb
      · refine ih (' ' :: u) (1 + byteLen u) ?_ (by omega) hus l h
        show byteLen ([' '] ++ u) = 1 + byteLen u
        rw [byteLen_append]
        rfl
    · rw [if_neg hcase] at hl
      refine ih (curr ++ u) (bytes + byteLen u) ?_ (by omega) hus l hl
      rw [byteLen_append, hc]

theorem foldGo_ne_nil (us : List Str) (curr : Str) (bytes : Nat) :
    foldGo curr bytes us ≠ [] := by
  induction us generalizing curr bytes with
  | nil => simp [foldGo]
  | cons u us ih =>
    unfold foldGo
    by_cases hcase : bytes + byteLen u > 75
    · rw [if_pos hcase]; simp
    · rw [if_neg hcase]; exact ih _ _

theorem foldGo_no_nl (us : List Str) (curr : Str) (bytes : Nat)
    (hcur : '\n' ∉ curr) (hus : ∀ u ∈ us, '\n' ∉ u) :
    ∀ l ∈ foldGo curr bytes us, '\n' ∉ l := by
  induction us generalizing curr bytes with
  | nil =>
    intro l hl
    rw [show foldGo curr bytes [] = [curr] from rfl] at hl
    rcases List.mem_cons.mp hl with h | h
    · subst h; exact hcur
    · simp at h
  | cons u us ih =>
    intro l hl
    have hu0 : '\n' ∉ u := hus u (by simp)
    have hus2 : ∀ x ∈ us, '\n' ∉ x := fun x hx => hus x (List.mem_cons_of_mem u hx)
    unfold foldGo at hl
    by_cases hcase : bytes + byteLen u > 75
    · rw [if_pos hcase] at hl
      rcases List.mem_cons.mp hl with h | h
      · subst h; exact hcur
      · refine ih (' ' :: u) (1 + byteLen u) ?_ hus2 l h
        intro hm
        rcases List.mem_cons.mp hm with h2 | h2
        · exact absurd h2.symm (by decide)
        · exact hu0 h2
    · rw [if_neg hcase] at hl
      refine ih (curr ++ u) (bytes + byteLen u) ?_ hus2 l hl
      intro hm
      rcases List.mem_append.mp hm with h2 | h2
      · exact hcur h2
      · exact hu0 h2

theorem splitAllChar_ne_nil (d : Char) (s : Str) : splitAllChar d s ≠ [] := by
  cases s with
  | nil => simp [splitAllChar]
  | cons c t =>
    unfold splitAllChar
    by_cases hc : c = d
    · rw [if_pos hc]; simp
    · rw [if_neg hc]
      cases h : splitAllChar d t with
      | nil => simp
      | cons x r => simp

theorem splitAllChar_sep_cons (d : Char) (t : Str) :
    splitAllChar d (d :: t) = [] :: splitAllChar d t := by
  conv_lhs => rw [splitAllChar.eq_def]
  simp

theorem splitAllChar_cons_ne (d c : Char) (t : Str) (hc : c ≠ d) :
    splitAllChar d (c :: t) =
      (c :: (splitAllChar d t).headD []) :: (splitAllChar d t).tail := by
  conv_lhs => rw [splitAllChar.eq_def]
  simp only [hc, if_false]
  cases h : splitAllChar d t with
  | nil => exact absurd h (splitAllChar_ne_nil d t)
  | cons x r => simp

theorem splitAllChar_of_not_mem (d : Char) (s : Str) (h : d ∉ s) :
    splitAllChar d s = [s] := by
  induction s with
  | nil => rfl
  | cons c t ih =>
    have hc : c ≠ d := fun he => h (he ▸ List.mem_cons_self c t)
    rw [splitAllChar_cons_ne d c t hc, ih (fun hm => h (List.mem_cons_of_mem c hm))]
    simp

theorem splitAllChar_append_sep (d : Char) (a b : Str) (h : d ∉ a) :
    splitAllChar d (a ++ d :: b) = a :: splitAllChar d b := by
  induction a with
  | nil => simpa using splitAllChar_sep_cons d b
  | cons c t ih =>
    have hc : c ≠ d := fun he => h (he ▸ List.mem_cons_self c t)
    show splitAllChar d (c :: (t ++ d :: b)) = (c :: t) :: splitAllChar d b
    rw [splitAllChar_cons_ne d c _ hc, ih (fun hm => h (List.mem_cons_of_mem c hm))]
    simp

/-- Splitting the join of newline-free lines recovers the lines. -/
theorem physLines_joinChar (ls : List Str) (hne : ls ≠ [])
    (h : ∀ l ∈ ls, '\n' ∉ l) : physLines (joinChar '\n' ls) = ls := by
  induction ls with
  | nil => exact absurd rfl hne
  | cons l ls ih =>
    cases ls with
    | nil =>
      show physLines (joinChar '\n' [l]) = [l]
      unfold physLines
      rw [show joinChar '\n' [l] = l from rfl]
      exact splitAllChar_of_not_mem '\n' l (h l (by simp))
    | cons l2 ls2 =>
      show physLines (joinChar '\n' (l :: l2 :: ls2)) = l :: l2 :: ls2
      unfold physLines
      rw [show joinChar '\n' (l :: l2 :: ls2) = l ++ '\n' :: joinChar '\n' (l2 :: ls2) from rfl]
      rw [splitAllChar_append_sep '\n' l _ (h l (by simp))]
      have := ih (by simp) (fun x hx => h x (List.mem_cons_of_mem l hx))
      unfold physLines at this
      rw [this]

theorem stripF_of_no_nl (a : Str) (h : '\n' ∉ a) : stripFolds a = a :=
  replace2_of_not_mem '\n' ' ' [] a h

theorem stripF_append (a b : Str) (h : '\n' ∉ a) :
    stripFolds (a ++ b) = a ++ stripFolds b := by
  induction a with
  | nil => rfl
  | cons c t ih =>
    have hc : c ≠ '\n' := fun he => h (he ▸ List.mem_cons_self c t)
    show stripFolds (c :: (t ++ b)) = c :: (t ++ stripFolds b)
    unfold stripFolds
    rw [replace2_cons_ne _ _ _ _ _ hc]
    unfold stripFolds at ih
    rw [ih (fun hm => h (List.mem_cons_of_mem c hm))]

theorem stripF_cons_ne (c : Char) (t : Str) (h : c ≠ '\n') :
    stripFolds (c :: t) = c :: stripFolds t :=
  replace2_cons_ne _ _ _ _ _ h

/-- The join of the folded lines begins with the line being built. -/
theorem foldGo_join_first (us : List Str) (curr : Str) (bytes : Nat) :
    ∃ t, joinChar '\n' (foldGo curr bytes us) = curr ++ t := by
  induction us generalizing curr bytes with
  | nil => exact ⟨[], by simp [foldGo, joinChar]⟩
  | cons u us ih =>
    unfold foldGo
    by_cases hcase : bytes + byteLen u > 75
    · rw [if_pos hcase]
      cases hrest : foldGo (' ' :: u) (1 + byteLen u) us with
      | nil => exact absurd hrest (foldGo_ne_nil _ _ _)
      | cons r0 rs =>
        refine ⟨'\n' :: joinChar '\n' (r0 :: rs), ?_⟩
        rfl
    · rw [if_neg hcase]
      obtain ⟨t, ht⟩ := ih (curr ++ u) (bytes + byteLen u)
      exact ⟨u ++ t, by rw [ht, List.append_assoc]⟩

/-- Stripping the folding markers from the joined folded lines recovers the
unfolded text. -/
theorem strip_foldGo (us : List Str) (curr : Str) (bytes : Nat)
    (hcur : '\n' ∉ curr) (hus : ∀ u ∈ us, '\n' ∉ u) :
    stripFolds (joinChar '\n' (foldGo curr bytes us)) = curr ++ us.flatten := by
  induction us generalizing curr bytes with
  | nil =>
    show stripFolds (joinChar '\n' [curr]) = curr ++ []
    rw [show joinChar '\n' [curr] = curr from rfl, stripF_of_no_nl curr hcur, List.append_nil]
  | cons u us ih =>
    have hu0 : '\n' ∉ u := hus u (by simp)
    have hus2 : ∀ x ∈ us, '\n' ∉ x := fun x hx => hus x (List.mem_cons_of_mem u hx)
    unfold foldGo
    by_cases hcase : bytes + byteLen u > 75
    · rw [if_pos hcase]
      have hrec := ih (' ' :: u) (1 + byteLen u)
        (by
          intro hm
          rcases List.mem_cons.mp hm with h2 | h2
          · exact absurd h2.symm (by decide)
          · exact hu0 h2)
        hus2
      obtain ⟨t, ht⟩ := foldGo_join_first us (' ' :: u) (1 + byteLen u)
      cases hrest : foldGo (' ' :: u) (1 + byteLen u) us with
      | nil => exact absurd hrest (foldGo_ne_nil _ _ _)
      | cons r0 rs =>
        rw [show joinChar '\n' (curr :: r0 :: rs) = curr ++ '\n' :: joinChar '\n' (r0 :: rs)
          from rfl]
        rw [stripF_append _ _ hcur]
        rw [hrest] at ht hrec
        rw [ht]
        rw [ht] at hrec
        show curr ++ stripFolds ('\n' :: (' ' :: u) ++ t) = curr ++ (u ++ us.flatten)
        have hstep : stripFolds ('\n' :: (' ' :: u) ++ t) = stripFolds (u ++ t) := by
          show replace2 '\n' ' ' [] ('\n' :: ' ' :: (u ++ t)) = _
          rw [replace2_cons2_eq]
          rfl
        rw [hstep]
        have hcons : stripFolds ((' ' :: u) ++ t) = ' ' :: stripFolds (u ++ t) := by
          show stripFolds (' ' :: (u ++ t)) = ' ' :: stripFolds (u ++ t)
          exact stripF_cons_ne ' ' (u ++ t) (by decide)
        rw [hcons] at hrec
        have hcut : stripFolds (u ++ t) = u ++ us.flatten := by
          have h2 := hrec
          injection h2 with _ h3
        rw [hcut]
    · rw [if_neg hcase]
      have := ih (curr ++ u) (bytes + byteLen u)
        (by
          intro hm
          rcases List.mem_append.mp hm with h2 | h2
          · exact hcur h2
          · exact hu0 h2)
        hus2
      rw [this, List.append_assoc]
      rfl

/-- Every physical line of formatTextValue stays within 75 bytes, and
stripping the continuation markers recovers the escaped logical line. -/
theorem formatTextValue_folding (s : Str) :
    (∀ l ∈ physLines (formatTextValue s), byteLen l ≤ 75) ∧
      stripFolds (formatTextValue s) = escapeStr s := by
  have hus : ∀ u ∈ units s, byteLen u ≤ 4 := fun u hu => (units_small s u hu).1
  have husn : ∀ u ∈ units s, '\n' ∉ u := fun u hu => (units_small s u hu).2
  constructor
  · intro l hl
    unfold formatTextValue at hl
    rw [physLines_joinChar _ (foldGo_ne_nil _ _ _)
      (foldGo_no_nl _ _ _ (by simp) husn)] at hl
    exact foldGo_line_bytes (units s) [] 0 rfl (by omega) hus l hl
  · unfold formatTextValue escapeStr
    rw [strip_foldGo (units s) [] 0 (by simp) husn]
    rfl

/-! ## Claim C3 -/

/-- A contact built through successful setter calls whose rendering violates
the 75-byte bound: the NICKNAME property name is prefixed outside the
folding function. -/
def c3bad : VCard :=
  setNickname (List.replicate 75 'a') (setName "Bob".data (setVersion 3 emptyVCard).1)

/-- Whether every physical line of a text is within 75 UTF-8 bytes. -/
def allLinesLe75 (t : Str) : Bool := (physLines t).all fun l => byteLen l ≤ 75

/-- C3 counterexample: the claim says no physical line of the rendered
output exceeds 75 UTF-8 bytes, but rendering a contact with a 75-byte
nickname produces a NICKNAME line of 84 bytes, because render prefixes the
property name outside formatTextValue. -/
theorem C3_counterexample :
    (setVersion 3 emptyVCard).2 = none ∧
      (render c3bad).map allLinesLe75 = Except.ok false := ⟨rfl, by decide⟩

/-- C3 amended: for every input string, no physical line of the
formatTextValue output exceeds 75 UTF-8 bytes, and removing each
newline-plus-single-space continuation marker from the folded output
reconstructs the escaped logical line exactly; lines assembled outside
formatTextValue (such as NICKNAME and URL lines) can exceed the bound. -/
theorem C3_folding_amended (s : Str) :
    (∀ l ∈ physLines (formatTextValue s), byteLen l ≤ 75) ∧
      stripFolds (formatTextValue s) = escapeStr s :=
  formatTextValue_folding s

/-! ## Claim C4: preferred-entry exclusivity -/

/-- The arguments of one setPhone call. -/
structure PhoneCall where
  phone : Str
  ext : Str
  type : List Str
  pref : Bool
deriving DecidableEq, Repr

/-- The arguments of one setEmail call. -/
structure EmailCall where
  email : Str
  pref : Bool
deriving DecidableEq, Repr

/-- A sequence of setPhone calls applied to a contact. -/
def runPhones (calls : List PhoneCall) (c : VCard) : VCard :=
  calls.foldl (fun c p => (setPhone p.phone p.ext p.type p.pref c).1) c

/-- A sequence of setEmail calls applied to a contact. -/
def runEmails (calls : List EmailCall) (c : VCard) : VCard :=
  calls.foldl (fun c e => (setEmail e.email e.pref c).1) c

/-- The default telephone entry used by positional lookups. -/
def telDflt : TelEntry := ⟨[], [], [], false⟩

/-- The default email entry used by positional lookups. -/
def emailDflt : EmailEntry := ⟨[], false⟩

theorem getD_append_lt {α : Type} (l l' : List α) (d : α) (i : Nat) (h : i < l.length) :
    (l ++ l').getD i d = l.getD i d := by
  induction l generalizing i with
  | nil => simp at h
  | cons x t ih =>
    cases i with
    | zero => rfl
    | succ n =>
      show (t ++ l').getD n d = t.getD n d
      exact ih n (by simpa using h)

theorem getD_append_len {α : Type} (l : List α) (x : α) (l' : List α) (d : α) :
    (l ++ x :: l').getD l.length d = x := by
  induction l with
  | nil => rfl
  | cons y t ih => exact ih

theorem getD_map_clear_tel (l : List TelEntry) (i : Nat) (h : i < l.length) :
    ((l.map fun e => { e with pref := false }).getD i telDflt).pref = false := by
  induction l generalizing i with
  | nil => simp at h
  | cons x t ih =>
    cases i with
    | zero => rfl
    | succ n => exact ih n (by simpa using h)

theorem getD_map_clear_email (l : List EmailEntry) (i : Nat) (h : i < l.length) :
    ((l.map fun e => { e with pref := false }).getD i emailDflt).pref = false := by
  induction l generalizing i with
  | nil => simp at h
  | cons x t ih =>
    cases i with
    | zero => rfl
    | succ n => exact ih n (by simpa using h)

theorem countP_clear_tel (l : List TelEntry) :
    (l.map fun e => { e with pref := false }).countP (fun e => e.pref) = 0 := by
  induction l with
  | nil => rfl
  | cons x t ih => simp [List.countP_cons, ih]

theorem countP_clear_email (l : List EmailEntry) :
    (l.map fun e => { e with pref := false }).countP (fun e => e.pref) = 0 := by
  induction l with
  | nil => rfl
  | cons x t ih => simp [List.countP_cons, ih]

/-- The default phone call used by positional lookups. -/
def phoneDflt : PhoneCall := ⟨[], [], [], false⟩

/-- The default email call used by positional lookups. -/
def emailCallDflt : EmailCall := ⟨[], false⟩

/-- The telephone list after a sequence of valid setPhone calls: one entry
per call, exactly one preferred entry when some call was preferred, and the
preferred entry is the one added by the last preferred call. -/
theorem runPhones_spec : ∀ pcs : List PhoneCall,
    (∀ p ∈ pcs, ∀ t ∈ p.type, t ∈ telTypeValues) →
    (runPhones pcs emptyVCard).tel.length = pcs.length ∧
    ((∃ p ∈ pcs, p.pref = true) →
      (runPhones pcs emptyVCard).tel.countP (fun e => e.pref) = 1) ∧
    (∀ i, i < pcs.length →
      (((runPhones pcs emptyVCard).tel.getD i telDflt).pref = true ↔
        ((pcs.getD i phoneDflt).pref = true ∧
          ∀ j, i < j → j < pcs.length → (pcs.getD j phoneDflt).pref = false))) := by
  intro pcs
  induction pcs using List.reverseRecOn with
  | nil =>
    intro _
    refine ⟨rfl, ?_, ?_⟩
    · rintro ⟨p, hp, _⟩; simp at hp
    · intro i hi; simp at hi
  | append_singleton cs p ih =>
    intro hv
    have hvcs : ∀ q ∈ cs, ∀ t ∈ q.type, t ∈ telTypeValues :=
      fun q hq => hv q (List.mem_append_left _ hq)
    have hvp : ∀ t ∈ p.type, t ∈ telTypeValues := hv p (List.mem_append_right _ (by simp))
    obtain ⟨ihlen, ihcnt, ihpt⟩ := ih hvcs
    have key : (runPhones (cs ++ [p]) emptyVCard).tel =
        (if p.pref then
          (runPhones cs emptyVCard).tel.map (fun e => { e with pref := false })
         else (runPhones cs emptyVCard).tel) ++ [⟨p.phone, p.ext, p.type, p.pref⟩] := by
      have h0 : runPhones (cs ++ [p]) emptyVCard =
          (setPhone p.phone p.ext p.type p.pref (runPhones cs emptyVCard)).1 := by
        unfold runPhones
        rw [List.foldl_append]
        rfl
      rw [h0]
      unfold setPhone
      rw [if_neg (not_not_intro hvp)]
      by_cases hp : p.pref
      · simp [hp]
      · simp [hp]
    have hlen2 : ∀ l : List TelEntry,
        (if p.pref then l.map (fun e => { e with pref := false }) else l).length = l.length := by
      intro l
      by_cases hp : p.pref
      · rw [if_pos hp]; simp
      · rw [if_neg hp]
    refine ⟨?_, ?_, ?_⟩
    · rw [key, List.length_append, hlen2, ihlen]
      simp
    · intro _
      rw [key, List.countP_append]
      by_cases hp : p.pref
      · rw [if_pos hp]
        rw [countP_clear_tel]
        simp [List.countP_cons, hp]
      · have hpf : p.pref = false := by simpa using hp
        rw [if_neg hp]
        have hex : ∃ q ∈ cs, q.pref = true := by
          rename_i hexall
          obtain ⟨q, hq, hqp⟩ := hexall
          rcases List.mem_append.mp hq with h | h
          · exact ⟨q, h, hqp⟩
          · simp at h
            subst h
            rw [hpf] at hqp
            exact absurd hqp (by simp)
        rw [ihcnt hex]
        simp [List.countP_cons, hpf]
    · intro i hi
      rw [key]
      simp only [List.length_append, List.length_singleton] at hi ⊢
      by_cases hic : i < cs.length
      · have hic2 : i < (if p.pref then
            (runPhones cs emptyVCard).tel.map (fun e => { e with pref := false })
          else (runPhones cs emptyVCard).tel).length := by rw [hlen2, ihlen]; exact hic
        rw [getD_append_lt _ _ _ _ hic2, getD_append_lt _ _ _ _ hic]
        by_cases hp : p.pref
        · rw [if_pos hp]
          rw [getD_map_clear_tel _ _ (by rw [ihlen]; exact hic)]
          constructor
          · intro hfalse; exact absurd hfalse (by simp)
          · rintro ⟨_, hall⟩
            have := hall cs.length hic (by omega)
            rw [getD_append_len] at this
            rw [hp] at this
            exact absurd this (by simp)
        · have hpf : p.pref = false := by simpa using hp
          rw [if_neg hp]
          rw [ihpt i hic]
          constructor
          · rintro ⟨h1, hall⟩
            refine ⟨h1, ?_⟩
            intro j hij hj
            by_cases hjc : j < cs.length
            · rw [getD_append_lt _ _ _ _ hjc]
              exact hall j hij hjc
            · have : j = cs.length := by omega
              subst this
              rw [getD_append_len]
              exact hpf
          · rintro ⟨h1, hall⟩
            refine ⟨h1, ?_⟩
            intro j hij hj
            have := hall j hij (by omega)
            rwa [getD_append_lt _ _ _ _ hj] at this
      · have hie : i = cs.length := by omega
        subst hie
        have hie2 : (if p.pref then
            (runPhones cs emptyVCard).tel.map (fun e => { e with pref := false })
          else (runPhones cs emptyVCard).tel).length = cs.length := by rw [hlen2, ihlen]
        rw [← hie2]
        rw [getD_append_len]
        rw [hie2, getD_append_len]
        constructor
        · intro h1
          refine ⟨h1, ?_⟩
          intro j hij hj
          omega
        · rintro ⟨h1, _⟩
          exact h1

/-- The email list after a sequence of valid setEmail calls, with the same
exclusivity behavior as the telephone list. -/
theorem runEmails_spec : ∀ ecs : List EmailCall,
    (∀ e ∈ ecs, emailTest (lowerStr e.email) = true) →
    (runEmails ecs emptyVCard).email.length = ecs.length ∧
    ((∃ e ∈ ecs, e.pref = true) →
      (runEmails ecs emptyVCard).email.countP (fun e => e.pref) = 1) ∧
    (∀ i, i < ecs.length →
      (((runEmails ecs emptyVCard).email.getD i emailDflt).pref = true ↔
        ((ecs.getD i emailCallDflt).pref = true ∧
          ∀ j, i < j → j < ecs.length → (ecs.getD j emailCallDflt).pref = false))) := by
  intro ecs
  induction ecs using List.reverseRecOn with
  | nil =>
    intro _
    refine ⟨rfl, ?_, ?_⟩
    · rintro ⟨e, he, _⟩; simp at he
    · intro i hi; simp at hi
  | append_singleton cs p ih =>
    intro hv
    have hvcs : ∀ q ∈ cs, emailTest (lowerStr q.email) = true :=
      fun q hq => hv q (List.mem_append_left _ hq)
    have hvp : emailTest (lowerStr p.email) = true := hv p (List.mem_append_right _ (by simp))
    obtain ⟨ihlen, ihcnt, ihpt⟩ := ih hvcs
    have key : (runEmails (cs ++ [p]) emptyVCard).email =
        (if p.pref then
          (runEmails cs emptyVCard).email.map (fun e => { e with pref := false })
         else (runEmails cs emptyVCard).email) ++ [⟨p.email, p.pref⟩] := by
      have h0 : runEmails (cs ++ [p]) emptyVCard =
          (setEmail p.email p.pref (runEmails cs emptyVCard)).1 := by
        unfold runEmails
        rw [List.foldl_append]
        rfl
      rw [h0]
      unfold setEmail
      rw [if_neg (not_not_intro (by simpa using hvp))]
      by_cases hp : p.pref
      · simp [hp]
      · simp [hp]
    have hlen2 : ∀ l : List EmailEntry,
        (if p.pref then l.map (fun e => { e with pref := false }) else l).length = l.length := by
      intro l
      by_cases hp : p.pref
      · rw [if_pos hp]; simp
      · rw [if_neg hp]
    refine ⟨?_, ?_, ?_⟩
    · rw [key, List.length_append, hlen2, ihlen]
      simp
    · intro _
      rw [key, List.countP_append]
      by_cases hp : p.pref
      · rw [if_pos hp]
        rw [countP_clear_email]
        simp [List.countP_cons, hp]
      · have hpf : p.pref = false := by simpa using hp
        rw [if_neg hp]
        have hex : ∃ q ∈ cs, q.pref = true := by
          rename_i hexall
          obtain ⟨q, hq, hqp⟩ := hexall
          rcases List.mem_append.mp hq with h | h
          · exact ⟨q, h, hqp⟩
          · simp at h
            subst h
            rw [hpf] at hqp
            exact absurd hqp (by simp)
        rw [ihcnt hex]
        simp [List.countP_cons, hpf]
    · intro i hi
      rw [key]
      simp only [List.length_append, List.length_singleton] at hi ⊢
      by_cases hic : i < cs.length
      · have hic2 : i < (if p.pref then
            (runEmails cs emptyVCard).email.map (fun e => { e with pref := false })
          else (runEmails cs emptyVCard).email).length := by rw [hlen2, ihlen]; exact hic
        rw [getD_append_lt _ _ _ _ hic2, getD_append_lt _ _ _ _ hic]
        by_cases hp : p.pref
        · rw [if_pos hp]
          rw [getD_map_clear_email _ _ (by rw [ihlen]; exact hic)]
          constructor
          · intro hfalse; exact absurd hfalse (by simp)
          · rintro ⟨_, hall⟩
            have := hall cs.length hic (by omega)
            rw [getD_append_len] at this
            rw [hp] at this
            exact absurd this (by simp)
        · have hpf : p.pref = false := by simpa using hp
          rw [if_neg hp]
          rw [ihpt i hic]
          constructor
          · rintro ⟨h1, hall⟩
            refine ⟨h1, ?_⟩
            intro j hij hj
            by_cases hjc : j < cs.length
            · rw [getD_append_lt _ _ _ _ hjc]
              exact hall j hij hjc
            · have : j = cs.length := by omega
              subst this
              rw [getD_append_len]
              exact hpf
          · rintro ⟨h1, hall⟩
            refine ⟨h1, ?_⟩
            intro j hij hj
            have := hall j hij (by omega)
            rwa [getD_append_lt _ _ _ _ hj] at this
      · have hie : i = cs.length := by omega
        subst hie
        have hie2 : (if p.pref then
            (runEmails cs emptyVCard).email.map (fun e => { e with pref := false })
          else (runEmails cs emptyVCard).email).length = cs.length := by rw [hlen2, ihlen]
        rw [← hie2]
        rw [getD_append_len]
        rw [hie2, getD_append_len]
        constructor
        · intro h1
          refine ⟨h1, ?_⟩
          intro j hij hj
          omega
        · rintro ⟨h1, _⟩
          exact h1

/-- C4: after any sequence of valid setPhone calls in which at least one
call passes pref true, exactly one stored phone entry is preferred, namely
the entry added by the last preferred call; and the same exclusivity holds
for email entries under setEmail. -/
theorem C4_pref_exclusivity (pcs : List PhoneCall) (ecs : List EmailCall)
    (hpv : ∀ p ∈ pcs, ∀ t ∈ p.type, t ∈ telTypeValues)
    (hpp : ∃ p ∈ pcs, p.pref = true)
    (hev : ∀ e ∈ ecs, emailTest (lowerStr e.email) = true)
    (hep : ∃ e ∈ ecs, e.pref = true) :
    ((runPhones pcs emptyVCard).tel.countP (fun e => e.pref) = 1 ∧
      (runPhones pcs emptyVCard).tel.length = pcs.length ∧
      (∀ i, i < pcs.length →
        (((runPhones pcs emptyVCard).tel.getD i telDflt).pref = true ↔
          ((pcs.getD i phoneDflt).pref = true ∧
            ∀ j, i < j → j < pcs.length → (pcs.getD j phoneDflt).pref = false)))) ∧
    ((runEmails ecs emptyVCard).email.countP (fun e => e.pref) = 1 ∧
      (runEmails ecs emptyVCard).email.length = ecs.length ∧
      (∀ i, i < ecs.length →
        (((runEmails ecs emptyVCard).email.getD i emailDflt).pref = true ↔
          ((ecs.getD i emailCallDflt).pref = true ∧
            ∀ j, i < j → j < ecs.length → (ecs.getD j emailCallDflt).pref = false)))) := by
  obtain ⟨pl, pc, pp⟩ := runPhones_spec pcs hpv
  obtain ⟨el, ec, ep⟩ := runEmails_spec ecs hev
  exact ⟨⟨pc hpp, pl, pp⟩, ⟨ec hep, el, ep⟩⟩

/-- Witness for C4 at two concrete call sequences, each with two preferred
calls. -/
theorem C4_witness :
    ((runPhones [⟨"1".data, [], ["cell".data], true⟩, ⟨"2".data, [], [], true⟩]
        emptyVCard).tel.countP (fun e => e.pref) = 1 ∧
      (runEmails [⟨"a@b.co".data, true⟩, ⟨"c@d.co".data, true⟩]
        emptyVCard).email.countP (fun e => e.pref) = 1) ∧
      ((runPhones [⟨"1".data, [], ["cell".data], true⟩, ⟨"2".data, [], [], true⟩]
          emptyVCard).tel.getD 1 telDflt).pref = true := by
  have h := C4_pref_exclusivity
    [⟨"1".data, [], ["cell".data], true⟩, ⟨"2".data, [], [], true⟩]
    [⟨"a@b.co".data, true⟩, ⟨"c@d.co".data, true⟩]
    (by decide) (by decide) (by decide) (by decide)
  refine ⟨⟨h.1.1, h.2.1⟩, ?_⟩
  exact (h.1.2.2 1 (by decide)).mpr
    ⟨by decide, fun j h1 h2 => absurd h2 (by simp only [List.length_cons, List.length_nil]; omega)⟩

/-! ## Claim C5: mandatory-field enforcement at encode time -/

theorem collectE_error_mem {α β : Type} (f : α → Except Str β) (l : List α) (e : Str)
    (h : collectE f l = .error e) : ∃ x ∈ l, f x = .error e := by
  induction l with
  | nil => simp [collectE] at h
  | cons x t ih =>
    unfold collectE at h
    cases hfx : f x with
    | error e2 =>
      rw [hfx] at h
      simp only [bind, Except.bind] at h
      injection h with h2
      exact ⟨x, by simp, by rw [hfx, h2]⟩
    | ok y =>
      rw [hfx] at h
      simp only [bind, Except.bind] at h
      cases hr : collectE f t with
      | error e2 =>
        rw [hr] at h
        simp only [bind, Except.bind] at h
        injection h with h2
        obtain ⟨z, hz, hze⟩ := ih (by rw [hr, h2])
        exact ⟨z, List.mem_cons_of_mem x hz, hze⟩
      | ok r =>
        rw [hr] at h
        simp [bind, Except.bind, pure, Except.pure] at h

/-- A failing photoParts always fails with the TypeError of the destructured
null match. -/
theorem photoParts_error (c : VCard) (e : Str) (h : photoParts c = .error e) :
    e = "TypeError".data := by
  obtain ⟨p, _, hp⟩ := collectE_error_mem _ _ _ h
  by_cases hv : c.specVersion = 4
  · rw [if_pos hv] at hp
    simp at hp
  · rw [if_neg hv] at hp
    cases hm : dataUriMatch p with
    | none => rw [hm] at hp; injection hp with h2; exact h2.symm
    | some td => rw [hm] at hp; simp at hp

/-- A failing logoParts always fails with the TypeError of the destructured
null match. -/
theorem logoParts_error (c : VCard) (e : Str) (h : logoParts c = .error e) :
    e = "TypeError".data := by
  obtain ⟨p, _, hp⟩ := collectE_error_mem _ _ _ h
  by_cases hv : c.specVersion = 4
  · rw [if_pos hv] at hp
    simp at hp
  · rw [if_neg hv] at hp
    cases hm : dataUriMatch p with
    | none => rw [hm] at hp; injection hp with h2; exact h2.symm
    | some td => rw [hm] at hp; simp at hp

/-- C5: render fails with an error whenever the contact holds no name,
regardless of the version; when the version is 4 and the kind is unset it
fails with the missing-kind error; and a contact holding a name (and a
truthy kind when the version is 4) passes both mandatory checks, meaning
render never returns either of the two check errors for it. -/
theorem C5_mandatory_checks (c : VCard) :
    (c.name = [] → ∃ e, render c = .error e) ∧
    (c.specVersion = 4 → c.kind = none → render c = .error missingKindMsg) ∧
    (c.name ≠ [] → (c.specVersion = 4 → optTruthy c.kind = true) →
      render c ≠ .error missingNameMsg ∧ render c ≠ .error missingKindMsg) := by
  refine ⟨?_, ?_, ?_⟩
  · intro hn
    unfold render renderParts
    by_cases h1 : c.specVersion = 4 ∧ ¬ optTruthy c.kind
    · rw [if_pos h1]
      exact ⟨missingKindMsg, rfl⟩
    · rw [if_neg h1, if_pos (by rw [hn]; rfl)]
      exact ⟨missingNameMsg, rfl⟩
  · intro hv hk
    unfold render renderParts
    rw [if_pos ⟨hv, by rw [hk]; simp [optTruthy]⟩]
    rfl
  · intro hn hk
    have h1 : ¬ (c.specVersion = 4 ∧ ¬ optTruthy c.kind) := by
      rintro ⟨hv, hnk⟩
      exact hnk (hk hv)
    have h2 : c.name.isEmpty = false := by
      cases hcn : c.name with
      | nil => exact absurd hcn hn
      | cons a b => rfl
    unfold render renderParts
    rw [if_neg h1, if_neg (by rw [h2]; simp)]
    cases hp : photoParts c with
    | error e =>
      have he := photoParts_error c e hp
      simp only [bind, Except.bind]
      subst he
      constructor
      · intro hcontra
        simp only [Except.map] at hcontra
        injection hcontra with h3
        exact absurd h3 (by decide)
      · intro hcontra
        simp only [Except.map] at hcontra
        injection hcontra with h3
        exact absurd h3 (by decide)
    | ok photos =>
      simp only [bind, Except.bind]
      cases hl : logoParts c with
      | error e =>
        have he := logoParts_error c e hl
        simp only [bind, Except.bind]
        subst he
        constructor
        · intro hcontra
          simp only [Except.map] at hcontra
          injection hcontra with h3
          exact absurd h3 (by decide)
        · intro hcontra
          simp only [Except.map] at hcontra
          injection hcontra with h3
          exact absurd h3 (by decide)
      | ok logos =>
        simp only [bind, Except.bind]
        constructor
        · intro hcontra
          simp only [Except.map] at hcontra
          injection hcontra
        · intro hcontra
          simp only [Except.map] at hcontra
          injection hcontra

/-- Witness for C5 at concrete contacts: an empty version 3 contact, an
empty version 4 contact, and a version 4 contact with a name and a kind. -/
theorem C5_witness :
    (∃ e, render { emptyVCard with specVersion := 3 } = .error e) ∧
    (render emptyVCard = .error missingKindMsg) ∧
    (render (setName "Bob".data ((setKind "org".data emptyVCard).1)) ≠
      .error missingNameMsg) := by
  refine ⟨(C5_mandatory_checks _).1 rfl, (C5_mandatory_checks _).2.1 rfl rfl, ?_⟩
  exact ((C5_mandatory_checks _).2.2 (by decide) (fun _ => by decide)).1

/-! ## Claim C7: validation rejection without mutation -/

/-- C7: each of the five invalid setter calls of the claim throws its
validation error and returns the contact with every field exactly as it was
(the pair carries the state as mutated up to the throw point, which for
these setters is the untouched input). -/
theorem C7_validation_rejection (n : Str) (ident : Option Str) (c : VCard) :
    setGender "boy".data ident c = (c, some "Invalid Gender value.".data) ∧
    setKind "animal".data c = (c, some "Invalid Kind value.".data) ∧
    setPhone n [] ["phone".data] false c = (c, some "Invalid Type value.".data) ∧
    setEmail "not an email".data false c = (c, some "Invalid Email value.".data) ∧
    setPhoto "photo.jpg".data c = (c, some "Invalid Image Data URI".data) := by
  refine ⟨?_, ?_, ?_, ?_, ?_⟩
  · unfold setGender
    rw [if_pos (by decide)]
  · unfold setKind
    rw [if_pos (by decide)]
  · unfold setPhone
    rw [if_pos (by decide)]
  · unfold setEmail
    rw [if_pos (by decide)]
  · unfold setPhoto
    rw [if_pos (by decide)]

/-! ## Claim C9: name normalization -/

theorem dropWhile_head_not (p : Char → Bool) (l : Str) (h0 : Char) (t : Str)
    (h : l.dropWhile p = h0 :: t) : p h0 = false := by
  induction l with
  | nil => simp at h
  | cons c r ih =>
    rw [List.dropWhile_cons] at h
    by_cases hc : p c
    · rw [if_pos hc] at h
      exact ih h
    · rw [if_neg hc] at h
      injection h with h1 _
      rw [← h1]
      simpa using hc

theorem dropWhile_chain (p : Char → Bool) (R : Char → Char → Prop) (l : Str)
    (h : List.Chain' R l) : List.Chain' R (l.dropWhile p) := by
  induction l with
  | nil => simpa using h
  | cons c r ih =>
    rw [List.dropWhile_cons]
    by_cases hc : p c
    · rw [if_pos hc]
      exact ih h.tail
    · rw [if_neg hc]
      exact h

theorem dropTrailingWs_head (l : Str) (h0 : Char) (t : Str)
    (h : dropTrailingWs l = h0 :: t) : l.head? = some h0 := by
  induction l generalizing h0 t with
  | nil => simp [dropTrailingWs] at h
  | cons c r ih =>
    unfold dropTrailingWs at h
    by_cases hr : (dropTrailingWs r).isEmpty
    · rw [if_pos hr] at h
      by_cases hc : jsWs c
      · rw [if_pos hc] at h; simp at h
      · rw [if_neg hc] at h
        injection h with h1 _
        rw [h1]
        rfl
    · rw [if_neg hr] at h
      injection h with h1 _
      rw [h1]
      rfl

theorem dropTrailingWs_last (l : Str) (h0 : Char) (hl : (dropTrailingWs l).getLast? = some h0) :
    jsWs h0 = false := by
  induction l generalizing h0 with
  | nil => simp [dropTrailingWs] at hl
  | cons c r ih =>
    unfold dropTrailingWs at hl
    by_cases hr : (dropTrailingWs r).isEmpty
    · rw [if_pos hr] at hl
      by_cases hc : jsWs c
      · rw [if_pos hc] at hl; simp at hl
      · rw [if_neg hc] at hl
        simp at hl
        rw [← hl]
        simpa using hc
    · rw [if_neg hr] at hl
      cases hdr : dropTrailingWs r with
      | nil => rw [hdr] at hr; simp at hr
      | cons x y =>
        rw [hdr] at hl
        rw [List.getLast?_cons_cons] at hl
        exact ih h0 (by rw [hdr]; exact hl)

theorem dropTrailingWs_chain (R : Char → Char → Prop) (l : Str)
    (h : List.Chain' R l) : List.Chain' R (dropTrailingWs l) := by
  induction l with
  | nil => simpa [dropTrailingWs] using h
  | cons c r ih =>
    unfold dropTrailingWs
    by_cases hr : (dropTrailingWs r).isEmpty
    · rw [if_pos hr]
      by_cases hc : jsWs c
      · rw [if_pos hc]; exact List.chain'_nil
      · rw [if_neg hc]; exact List.chain'_singleton c
    · rw [if_neg hr]
      rw [List.chain'_cons']
      refine ⟨?_, ih h.tail⟩
      intro b hb
      cases hdr : dropTrailingWs r with
      | nil => rw [hdr] at hr; simp at hr
      | cons x y =>
        rw [hdr] at hb
        simp at hb
        have hx : r.head? = some b := by
          have h2 := dropTrailingWs_head r x y hdr
          rw [← hb]
          exact h2
        rcases List.chain'_cons'.mp h with ⟨hrel, _⟩
        exact hrel b hx

/-- The collapse loop in the skipping state begins with a non-whitespace
character when nonempty. -/
theorem collapseWsGo_true_head (t : Str) (h0 : Char) (r : Str)
    (h : collapseWsGo true t = h0 :: r) : jsWs h0 = false := by
  induction t generalizing h0 r with
  | nil => simp [collapseWsGo] at h
  | cons c u ih =>
    unfold collapseWsGo at h
    by_cases hc : jsWs c
    · rw [if_pos hc, if_pos rfl] at h
      exact ih h0 r h
    · rw [if_neg hc] at h
      injection h with h1 _
      rw [← h1]
      simpa using hc

/-- The collapse loop never produces two adjacent whitespace characters. -/
theorem collapseWsGo_chain (b : Bool) (s : Str) :
    List.Chain' (fun a c => ¬(jsWs a = true ∧ jsWs c = true)) (collapseWsGo b s) := by
  induction s generalizing b with
  | nil => simp [collapseWsGo]
  | cons c t ih =>
    unfold collapseWsGo
    by_cases hc : jsWs c
    · rw [if_pos hc]
      by_cases hb : b
      · rw [if_pos hb]
        exact ih true
      · rw [if_neg hb]
        rw [List.chain'_cons']
        refine ⟨?_, ih true⟩
        intro y hy
        cases hcol : collapseWsGo true t with
        | nil => rw [hcol] at hy; simp at hy
        | cons x r =>
          rw [hcol] at hy
          simp at hy
          rintro ⟨_, hy2⟩
          rw [← hy] at hy2
          rw [collapseWsGo_true_head t x r hcol] at hy2
          exact absurd hy2 (by simp)
    · rw [if_neg hc]
      rw [List.chain'_cons']
      refine ⟨?_, ih false⟩
      intro y _
      rintro ⟨hc2, _⟩
      rw [hc2] at hc
      exact hc (by simp)

/-- The final name list after a sequence of setName calls. -/
theorem foldl_setName_name (ns : List Str) (c : VCard) :
    (ns.foldl (fun c n => setName n c) c).name = c.name ++ ns.map normalizeName := by
  induction ns generalizing c with
  | nil => simp
  | cons n t ih =>
    rw [List.foldl_cons, ih]
    show (setName n c).name ++ _ = _
    unfold setName
    simp

/-- C9: every name stored by setName is whitespace-normalized: no stored
name entry contains two adjacent whitespace characters, and none begins or
ends with whitespace. -/
theorem C9_names_normalized (ns : List Str) (entry : Str)
    (h : entry ∈ (ns.foldl (fun c n => setName n c) emptyVCard).name) :
    List.Chain' (fun a b => ¬(jsWs a = true ∧ jsWs b = true)) entry ∧
    (∀ h0, entry.head? = some h0 → jsWs h0 = false) ∧
    (∀ h0, entry.getLast? = some h0 → jsWs h0 = false) := by
  rw [foldl_setName_name] at h
  simp only [emptyVCard] at h
  rw [List.nil_append] at h
  obtain ⟨n, _, hn⟩ := List.mem_map.mp h
  subst hn
  unfold normalizeName trimStr
  refine ⟨?_, ?_, ?_⟩
  · exact dropTrailingWs_chain _ _ (dropWhile_chain _ _ _ (collapseWsGo_chain false n))
  · intro h0 hh
    cases hd : dropTrailingWs ((collapseWsGo false n).dropWhile (fun c => jsWs c)) with
    | nil => rw [hd] at hh; simp at hh
    | cons x y =>
      rw [hd] at hh
      simp at hh
      have hhead := dropTrailingWs_head _ x y hd
      cases hdw : (collapseWsGo false n).dropWhile (fun c => jsWs c) with
      | nil => rw [hdw] at hhead; simp at hhead
      | cons a b =>
        rw [hdw] at hhead
        simp at hhead
        rw [← hh, ← hhead]
        exact dropWhile_head_not _ _ _ _ hdw
  · intro h0 hh
    exact dropTrailingWs_last _ _ hh

/-- Witness for C9 at a concrete name with tabs and duplicated spaces. -/
theorem C9_witness :
    "a b".data ∈ (["  a \t  b ".data].foldl (fun c n => setName n c) emptyVCard).name ∧
    List.Chain' (fun a b => ¬(jsWs a = true ∧ jsWs b = true)) "a b".data :=
  ⟨by decide, (C9_names_normalized ["  a \t  b ".data] "a b".data (by decide)).1⟩

/-! ## Claim C10: gender validation and identity normalization -/

/-- C10: setGender succeeds exactly when the gender code is one of the five
uppercase letters of genderValues (so lowercase codes are rejected), and on
success the stored identity is the trimmed, lowercased argument, a missing
identity staying absent. -/
theorem C10_gender_stored (g : Str) (ident : Option Str) (c : VCard) :
    ((setGender g ident c).2 = none ↔ g ∈ genderValues) ∧
    ((setGender g ident c).2 = none →
      (setGender g ident c).1.gender = some g ∧
      (setGender g ident c).1.genderIdent = ident.map (fun s => lowerStr (trimStr s))) := by
  have hident : (ident.map fun s => if s.isEmpty then s else lowerStr (trimStr s)) =
      ident.map (fun s => lowerStr (trimStr s)) := by
    cases ident with
    | none => rfl
    | some s =>
      cases s with
      | nil => rfl
      | cons a b => rfl
  constructor
  · constructor
    · intro h
      by_contra hg
      unfold setGender at h
      rw [if_pos hg] at h
      simp at h
    · intro hg
      unfold setGender
      rw [if_neg (by simpa using hg)]
  · intro h
    by_cases hg : g ∈ genderValues
    · unfold setGender
      rw [if_neg (by simpa using hg)]
      exact ⟨rfl, hident⟩
    · unfold setGender at h
      rw [if_pos hg] at h
      simp at h

/-- Witness for C10: the uppercase code M succeeds and stores the
normalized identity, while the lowercase code m is rejected. -/
theorem C10_witness :
    (setGender "M".data (some " Funky Chicken ".data) emptyVCard).1.genderIdent =
      some "funky chicken".data ∧
    (setGender "m".data none emptyVCard).2 ≠ none := by
  constructor
  · have h := (C10_gender_stored "M".data (some " Funky Chicken ".data) emptyVCard).2 (by decide)
    rw [h.2]
    decide
  · intro hcontra
    have h := (C10_gender_stored "m".data none emptyVCard).1.mp hcontra
    exact absurd h (by decide)

/-! ## Claim C6: version gating of ANNIVERSARY, GENDER and IMPP -/

/-- Boolean test that one string begins with another. -/
def strStarts (pre s : Str) : Bool := pre.isPrefixOf s

theorem foldGo_cons_le (curr : Str) (bytes : Nat) (u : Str) (us : List Str)
    (h : ¬ bytes + byteLen u > 75) :
    foldGo curr bytes (u :: us) = foldGo (curr ++ u) (bytes + byteLen u) us := by
  conv_lhs => rw [foldGo.eq_def]
  simp only [if_neg h]

theorem strStarts_append (pre t : Str) : strStarts pre (pre ++ t) = true := by
  induction pre with
  | nil => simp [strStarts]
  | cons c r ih => simpa [strStarts, List.isPrefixOf] using ih

theorem strStarts_cons_ne (a : Char) (pre : Str) (h0 : Char) (t : Str) (h : a ≠ h0) :
    strStarts (a :: pre) (h0 :: t) = false := by
  simp [strStarts, List.isPrefixOf, h]

/-- A character that escapes to itself and starts no placeholder token. -/
def plainChar (c : Char) : Prop :=
  c ≠ '%' ∧ c ≠ ',' ∧ c ≠ ';' ∧ c ≠ ':' ∧ c ≠ '\\' ∧ c ≠ '\n'

instance (c : Char) : Decidable (plainChar c) := by
  unfold plainChar
  infer_instance

theorem escUnit_plain (c : Char) (h : plainChar c) : escUnit c = [c] := by
  simp [escUnit, h.2.1, h.2.2.1, h.2.2.2.1, h.2.2.2.2.1, h.2.2.2.2.2]

theorem units_append_plain (pre r : Str) (h : ∀ c ∈ pre, plainChar c) :
    units (pre ++ r) = pre.map (fun c => [c]) ++ units r := by
  induction pre with
  | nil => rfl
  | cons c t ih =>
    have hc := h c (by simp)
    show units (c :: (t ++ r)) = _
    rw [units_cons_of_ne c _ hc.1, escUnit_plain c hc,
      ih (fun x hx => h x (List.mem_cons_of_mem c hx))]
    rfl

theorem foldGo_plain_units (pre : Str) (us : List Str) (curr : Str) (bytes : Nat)
    (hb : bytes + byteLen pre ≤ 75) :
    foldGo curr bytes (pre.map (fun c => [c]) ++ us) =
      foldGo (curr ++ pre) (bytes + byteLen pre) us := by
  induction pre generalizing curr bytes with
  | nil => simp [byteLen]
  | cons c t ih =>
    have hc1 : byteLen [c] = byteSize c := by simp [byteLen]
    have hct : byteLen (c :: t) = byteSize c + byteLen t := by
      simp [byteLen]
    show foldGo curr bytes ([c] :: (t.map (fun c => [c]) ++ us)) = _
    rw [foldGo_cons_le curr bytes [c] _ (by rw [hc1]; omega)]
    rw [hc1, ih (curr ++ [c]) (bytes + byteSize c) (by omega)]
    rw [List.append_assoc]
    have hby : bytes + byteSize c + byteLen t = bytes + byteLen (c :: t) := by rw [hct]; omega
    rw [hby]
    rfl

/-- The folded text of a string beginning with short plain characters
begins with those characters. -/
theorem formatTextValue_plain_head (pre r : Str) (hp : ∀ c ∈ pre, plainChar c)
    (hb : byteLen pre ≤ 75) :
    ∃ t, formatTextValue (pre ++ r) = pre ++ t := by
  unfold formatTextValue
  rw [units_append_plain pre r hp, foldGo_plain_units pre (units r) [] 0 (by omega)]
  simpa using foldGo_join_first (units r) pre (0 + byteLen pre)

theorem collectE_ok_mem {α β : Type} (f : α → Except Str β) (l : List α) (ys : List β)
    (h : collectE f l = .ok ys) : ∀ y ∈ ys, ∃ x ∈ l, f x = .ok y := by
  induction l generalizing ys with
  | nil =>
    unfold collectE at h
    injection h with h2
    subst h2
    intro y hy
    simp at hy
  | cons x t ih =>
    unfold collectE at h
    cases hfx : f x with
    | error e => rw [hfx] at h; simp [bind, Except.bind] at h
    | ok y0 =>
      rw [hfx] at h
      simp only [bind, Except.bind] at h
      cases hr : collectE f t with
      | error e => rw [hr] at h; simp at h
      | ok r =>
        rw [hr] at h
        simp [pure, Except.pure] at h
        subst h
        intro y hy
        rcases List.mem_cons.mp hy with h2 | h2
        · exact ⟨x, by simp, by rw [hfx, h2]⟩
        · obtain ⟨z, hz, hze⟩ := ih r hr y h2
          exact ⟨z, List.mem_cons_of_mem x hz, hze⟩

/-- The folded text of a string starting with one short plain character
starts with that character. -/
theorem ftv_head_char (a : Char) (rest : Str) (ha : plainChar a) (hb : byteSize a ≤ 75) :
    ∃ t, formatTextValue (a :: rest) = a :: t := by
  have h := formatTextValue_plain_head [a] rest
    (by intro c hc; simp at hc; subst hc; exact ha)
    (by simp [byteLen]; omega)
  simpa using h

/-- Head shape of one part: the first character of the input. -/
theorem part_head_of_eq (p : Str) (a : Char) (x : Str) (h : p = a :: x) :
    ∃ t, p = a :: t := ⟨x, h⟩

theorem nameParts_heads (c : VCard) (p : Str) (hp : p ∈ nameParts c) :
    (∃ t, p = 'F' :: t) ∨ (∃ t, p = 'N' :: t) := by
  unfold nameParts at hp
  cases hn : c.name with
  | nil => rw [hn] at hp; simp at hp
  | cons n0 rest =>
    rw [hn] at hp
    have hfn : ∀ n : Str, ∃ t, formatTextValue ("FN%COL%".data ++ n) = 'F' :: t := by
      intro n
      rw [show "FN%COL%".data ++ n = 'F' :: ("N%COL%".data ++ n) from rfl]
      exact ftv_head_char 'F' _ (by decide) (by decide)
    rcases List.mem_cons.mp hp with h | h
    · exact Or.inl (h ▸ hfn n0)
    rcases List.mem_cons.mp h with h2 | h2
    · right
      rw [h2]
      rw [show "N%COL%".data ++ _ = 'N' :: ("%COL%".data ++ _) from rfl]
      exact ftv_head_char 'N' _ (by decide) (by decide)
    · obtain ⟨n, _, hn2⟩ := List.mem_map.mp h2
      exact Or.inl (hn2 ▸ hfn n)

theorem nicknameParts_heads (c : VCard) (p : Str) (hp : p ∈ nicknameParts c) :
    ∃ t, p = 'N' :: t := by
  unfold nicknameParts at hp
  obtain ⟨n, _, hn⟩ := List.mem_filterMap.mp hp
  by_cases ht : (trimStr n).isEmpty
  · rw [if_pos ht] at hn; simp at hn
  · rw [if_neg ht] at hn
    injection hn with hn2
    exact ⟨_, hn2.symm⟩

theorem photoParts_heads_v3 (c : VCard) (hv : c.specVersion ≠ 4) (ys : List Str)
    (hok : photoParts c = .ok ys) (p : Str) (hp : p ∈ ys) :
    ∃ t, p = 'P' :: t := by
  obtain ⟨x, _, hx⟩ := collectE_ok_mem _ _ _ hok p hp
  rw [if_neg hv] at hx
  cases hm : dataUriMatch x with
  | none => rw [hm] at hx; simp at hx
  | some td =>
    rw [hm] at hx
    injection hx with hx2
    rw [← hx2]
    rw [show "PHOTO%SEM%ENCODING=b%SEM%TYPE=".data ++ upperStr td.1 ++ "%COL%".data ++
      tokenizeReserved td.2 = 'P' :: ("HOTO%SEM%ENCODING=b%SEM%TYPE=".data ++ upperStr td.1 ++
      "%COL%".data ++ tokenizeReserved td.2) from by simp]
    exact ftv_head_char 'P' _ (by decide) (by decide)

theorem logoParts_heads_v3 (c : VCard) (hv : c.specVersion ≠ 4) (ys : List Str)
    (hok : logoParts c = .ok ys) (p : Str) (hp : p ∈ ys) :
    ∃ t, p = 'L' :: t := by
  obtain ⟨x, _, hx⟩ := collectE_ok_mem _ _ _ hok p hp
  rw [if_neg hv] at hx
  cases hm : dataUriMatch x with
  | none => rw [hm] at hx; simp at hx
  | some td =>
    rw [hm] at hx
    injection hx with hx2
    rw [← hx2]
    rw [show "LOGO%SEM%ENCODING=b%SEM%TYPE=".data ++ upperStr td.1 ++ "%COL%".data ++
      tokenizeReserved td.2 = 'L' :: ("OGO%SEM%ENCODING=b%SEM%TYPE=".data ++ upperStr td.1 ++
      "%COL%".data ++ tokenizeReserved td.2) from by simp]
    exact ftv_head_char 'L' _ (by decide) (by decide)

theorem bdayParts_heads (c : VCard) (p : Str) (hp : p ∈ bdayParts c) :
    ∃ t, p = 'B' :: t := by
  unfold bdayParts at hp
  cases hb : c.bday with
  | none => rw [hb] at hp; simp at hp
  | some d =>
    rw [hb] at hp
    simp at hp
    exact ⟨_, hp⟩

/-- The folded text of a string whose head is definitionally a short plain
character starts with that character. -/
theorem ftv_head_char2 (a : Char) (s : Str) (ha : plainChar a) (hb : byteSize a ≤ 75)
    (hs : ∃ x, s = a :: x) : ∃ t, formatTextValue s = a :: t := by
  obtain ⟨x, hx⟩ := hs
  rw [hx]
  exact ftv_head_char a x ha hb

theorem addressParts_heads_v3 (c : VCard) (hv : c.specVersion = 3) (p : Str)
    (hp : p ∈ addressParts c) :
    ∃ t, p = 'i' :: t := by
  unfold addressParts at hp
  rw [List.mem_flatten] at hp
  obtain ⟨l, hl, hpl⟩ := hp
  obtain ⟨⟨i, a⟩, _, hfa⟩ := List.mem_map.mp hl
  rw [← hfa] at hpl
  simp only [hv] at hpl
  simp at hpl
  rcases hpl with h | h <;>
    (rw [h]; exact ftv_head_char2 'i' _ (by decide) (by decide) ⟨_, rfl⟩)

theorem telParts_heads (c : VCard) (p : Str) (hp : p ∈ telParts c) :
    ∃ t, p = 'T' :: t := by
  unfold telParts at hp
  obtain ⟨e, _, he⟩ := List.mem_map.mp hp
  rw [← he]
  by_cases h4 : c.specVersion = 4 <;> by_cases hty : e.type.isEmpty <;>
    by_cases hpr : e.pref <;> by_cases hext : e.ext.isEmpty <;>
    simp only [h4, hty, hpr, hext] <;>
    exact ftv_head_char2 'T' _ (by decide) (by decide) ⟨_, rfl⟩

theorem emailParts_heads (c : VCard) (p : Str) (hp : p ∈ emailParts c) :
    ∃ t, p = 'E' :: t := by
  unfold emailParts at hp
  obtain ⟨e, _, he⟩ := List.mem_map.mp hp
  rw [← he]
  by_cases h4 : c.specVersion = 4 <;> by_cases hpr : e.pref <;>
    simp only [h4, hpr] <;>
    exact ftv_head_char2 'E' _ (by decide) (by decide) ⟨_, rfl⟩

theorem imppParts_heads (c : VCard) (p : Str) (hp : p ∈ imppParts c) :
    ∃ t, p = 'I' :: t := by
  unfold imppParts at hp
  by_cases h4 : c.specVersion = 4
  · rw [if_pos h4] at hp
    obtain ⟨e, _, he⟩ := List.mem_map.mp hp
    rw [← he]
    by_cases hpr : e.pref <;> simp only [hpr] <;>
      exact ftv_head_char2 'I' _ (by decide) (by decide) ⟨_, rfl⟩
  · rw [if_neg h4] at hp
    simp at hp

theorem titleParts_heads (c : VCard) (p : Str) (hp : p ∈ titleParts c) :
    ∃ t, p = 'T' :: t := by
  unfold titleParts at hp
  obtain ⟨e, _, he⟩ := List.mem_map.mp hp
  rw [← he]
  exact ftv_head_char2 'T' _ (by decide) (by decide) ⟨_, rfl⟩

theorem roleParts_heads (c : VCard) (p : Str) (hp : p ∈ roleParts c) :
    ∃ t, p = 'R' :: t := by
  unfold roleParts at hp
  obtain ⟨e, _, he⟩ := List.mem_map.mp hp
  rw [← he]
  exact ftv_head_char2 'R' _ (by decide) (by decide) ⟨_, rfl⟩

theorem orgParts_heads (c : VCard) (p : Str) (hp : p ∈ orgParts c) :
    ∃ t, p = 'O' :: t := by
  unfold orgParts at hp
  obtain ⟨e, _, he⟩ := List.mem_map.mp hp
  rw [← he]
  exact ftv_head_char2 'O' _ (by decide) (by decide) ⟨_, rfl⟩

theorem noteParts_heads (c : VCard) (p : Str) (hp : p ∈ noteParts c) :
    ∃ t, p = 'N' :: t := by
  unfold noteParts at hp
  obtain ⟨e, _, he⟩ := List.mem_map.mp hp
  rw [← he]
  exact ftv_head_char2 'N' _ (by decide) (by decide) ⟨_, rfl⟩

theorem urlParts_heads (c : VCard) (p : Str) (hp : p ∈ urlParts c) :
    ∃ t, p = 'U' :: t := by
  unfold urlParts at hp
  obtain ⟨e, _, he⟩ := List.mem_map.mp hp
  exact ⟨_, he.symm⟩

theorem genderParts_head_v4 (c : VCard) (h4 : c.specVersion = 4)
    (hg : optTruthy c.gender = true) :
    ∃ p ∈ genderParts c, strStarts "GENDER".data p = true := by
  have hgp : genderParts c = [formatTextValue ("GENDER%COL%".data ++
      (if optTruthy c.genderIdent = true then
        c.gender.getD [] ++ "%SEM%".data ++ c.genderIdent.getD []
      else c.gender.getD []))] := by
    unfold genderParts
    rw [if_pos h4, if_pos hg]
  rw [hgp]
  refine ⟨_, List.mem_cons_self _ _, ?_⟩
  obtain ⟨t, ht⟩ := formatTextValue_plain_head "GENDER".data ("%COL%".data ++
    (if optTruthy c.genderIdent = true then
      c.gender.getD [] ++ "%SEM%".data ++ c.genderIdent.getD []
    else c.gender.getD [])) (by decide) (by decide)
  rw [show "GENDER%COL%".data ++ (if optTruthy c.genderIdent = true then
      c.gender.getD [] ++ "%SEM%".data ++ c.genderIdent.getD []
    else c.gender.getD []) = "GENDER".data ++ ("%COL%".data ++
    (if optTruthy c.genderIdent = true then
      c.gender.getD [] ++ "%SEM%".data ++ c.genderIdent.getD []
    else c.gender.getD [])) from by rw [← List.append_assoc]; rfl]
  rw [ht]
  exact strStarts_append _ _

theorem anniversaryParts_head_v4 (c : VCard) (h4 : c.specVersion = 4) (d : JSDate)
    (hd : c.anniversary = some d) :
    ∃ p ∈ anniversaryParts c, strStarts "ANNIVERSARY:".data p = true := by
  unfold anniversaryParts
  rw [if_pos h4, hd]
  exact ⟨_, List.mem_cons_self _ _, strStarts_append _ _⟩

theorem imppParts_head_v4 (c : VCard) (h4 : c.specVersion = 4) (hne : c.impp ≠ []) :
    ∃ p ∈ imppParts c, strStarts "IMPP".data p = true := by
  unfold imppParts
  rw [if_pos h4]
  cases hi : c.impp with
  | nil => exact absurd hi hne
  | cons e r =>
    refine ⟨formatTextValue ((if e.pref = true then "IMPP".data ++ "%SEM%PREF=1".data
      else "IMPP".data) ++ "%COL%".data ++ e.protocol ++ "%COL%".data ++ e.imurl),
      List.mem_cons_self _ _, ?_⟩
    by_cases hpr : e.pref = true
    · rw [if_pos hpr]
      obtain ⟨t, ht⟩ := formatTextValue_plain_head "IMPP".data
        ("%SEM%PREF=1".data ++ "%COL%".data ++ e.protocol ++ "%COL%".data ++ e.imurl)
        (by decide) (by decide)
      rw [show "IMPP".data ++ "%SEM%PREF=1".data ++ "%COL%".data ++ e.protocol ++
        "%COL%".data ++ e.imurl = "IMPP".data ++ ("%SEM%PREF=1".data ++ "%COL%".data ++
        e.protocol ++ "%COL%".data ++ e.imurl) from by simp [List.append_assoc]]
      rw [ht]
      exact strStarts_append _ _
    · rw [if_neg hpr]
      obtain ⟨t, ht⟩ := formatTextValue_plain_head "IMPP".data
        ("%COL%".data ++ e.protocol ++ "%COL%".data ++ e.imurl)
        (by decide) (by decide)
      rw [show "IMPP".data ++ "%COL%".data ++ e.protocol ++ "%COL%".data ++ e.imurl =
        "IMPP".data ++ ("%COL%".data ++ e.protocol ++ "%COL%".data ++ e.imurl) from by
          simp [List.append_assoc]]
      rw [ht]
      exact strStarts_append _ _

theorem strStarts_mono (a b s : Str) (h : strStarts (a ++ b) s = true) :
    strStarts a s = true := by
  induction a generalizing s with
  | nil => cases s <;> rfl
  | cons c t ih =>
    cases s with
    | nil => exact absurd h (by simp [strStarts, List.isPrefixOf])
    | cons s0 s1 =>
      simp only [strStarts, List.cons_append, List.isPrefixOf, Bool.and_eq_true] at h ⊢
      exact ⟨h.1, ih s1 h.2⟩

/-- A part whose first character is none of A, G and I starts with none of
the three version-gated property names. -/
theorem head_not_agi (p : Str) (c0 : Char) (t : Str) (hp : p = c0 :: t)
    (hA : c0 ≠ 'A') (hG : c0 ≠ 'G') (hI : c0 ≠ 'I') :
    strStarts "ANNIVERSARY".data p = false ∧ strStarts "GENDER".data p = false ∧
      strStarts "IMPP".data p = false := by
  subst hp
  exact ⟨strStarts_cons_ne 'A' "NNIVERSARY".data c0 t (fun h => hA h.symm),
    strStarts_cons_ne 'G' "ENDER".data c0 t (fun h => hG h.symm),
    strStarts_cons_ne 'I' "MPP".data c0 t (fun h => hI h.symm)⟩

/-- Inversion of a successful renderParts call: both image collections
succeed and the result is the concatenation of the sections in source
order. -/
theorem renderParts_ok_shape (c : VCard) (ps : List Str) (h : renderParts c = .ok ps) :
    ∃ photos logos, photoParts c = .ok photos ∧ logoParts c = .ok logos ∧
      ps = ["BEGIN:VCARD".data,
          "VERSION:".data ++ (toString c.specVersion).data ++ ".0".data] ++
        kindParts c ++ nameParts c ++ nicknameParts c ++ photos ++ bdayParts c ++
        anniversaryParts c ++ genderParts c ++ addressParts c ++ telParts c ++
        emailParts c ++ imppParts c ++ titleParts c ++ roleParts c ++ logos ++
        orgParts c ++ noteParts c ++ urlParts c ++ ["END:VCARD".data] := by
  unfold renderParts at h
  by_cases h1 : c.specVersion = 4 ∧ ¬ optTruthy c.kind = true
  · rw [if_pos h1] at h
    exact absurd h (by simp)
  rw [if_neg h1] at h
  by_cases h2 : c.name.isEmpty = true
  · rw [if_pos h2] at h
    exact absurd h (by simp)
  rw [if_neg h2] at h
  cases hph : photoParts c with
  | error e =>
    rw [hph] at h
    simp [bind, Except.bind] at h
  | ok photos =>
    rw [hph] at h
    simp only [bind, Except.bind] at h
    cases hlg : logoParts c with
    | error e =>
      rw [hlg] at h
      simp at h
    | ok logos =>
      rw [hlg] at h
      simp only [pure, Except.pure, Except.ok.injEq] at h
      exact ⟨photos, logos, rfl, rfl, h.symm⟩

/-- C6: every successful version-3 rendering of any contact contains no
part starting with ANNIVERSARY, GENDER or IMPP, while a successful
version-4 rendering of the same contact contains such a part for each
populated field among the anniversary, a truthy gender and the
instant-message entries. -/
theorem C6_version_gated_fields (c : VCard) :
    (∀ ps, renderParts { c with specVersion := 3 } = .ok ps →
      ∀ p ∈ ps, strStarts "ANNIVERSARY".data p = false ∧
        strStarts "GENDER".data p = false ∧ strStarts "IMPP".data p = false) ∧
    (∀ ps, renderParts { c with specVersion := 4 } = .ok ps →
      (∀ d, c.anniversary = some d → ∃ p ∈ ps, strStarts "ANNIVERSARY".data p = true) ∧
      (optTruthy c.gender = true → ∃ p ∈ ps, strStarts "GENDER".data p = true) ∧
      (c.impp ≠ [] → ∃ p ∈ ps, strStarts "IMPP".data p = true)) := by
  constructor
  · intro ps hps p hp
    obtain ⟨photos, logos, hph, hlg, hsh⟩ := renderParts_ok_shape _ ps hps
    have h3 : ({ c with specVersion := 3 } : VCard).specVersion = 3 := rfl
    have hk : kindParts { c with specVersion := 3 } = [] := by
      unfold kindParts
      rw [if_neg (by rw [h3]; decide)]
    have ha0 : anniversaryParts { c with specVersion := 3 } = [] := by
      unfold anniversaryParts
      rw [if_neg (by rw [h3]; decide)]
    have hg0 : genderParts { c with specVersion := 3 } = [] := by
      unfold genderParts
      rw [if_neg (by rw [h3]; decide)]
    have hi0 : imppParts { c with specVersion := 3 } = [] := by
      unfold imppParts
      rw [if_neg (by rw [h3]; decide)]
    rw [hsh, hk, ha0, hg0, hi0] at hp
    simp only [List.append_nil, List.mem_append, List.mem_cons, List.not_mem_nil,
      or_false, or_assoc] at hp
    rcases hp with h | h | h | h | h | h | h | h | h | h | h | h | h | h | h | h
    · exact head_not_agi p 'B' _ h (by decide) (by decide) (by decide)
    · exact head_not_agi p 'V' _ h (by decide) (by decide) (by decide)
    · rcases nameParts_heads _ p h with ⟨t, ht⟩ | ⟨t, ht⟩
      · exact head_not_agi p 'F' t ht (by decide) (by decide) (by decide)
      · exact head_not_agi p 'N' t ht (by decide) (by decide) (by decide)
    · obtain ⟨t, ht⟩ := nicknameParts_heads _ p h
      exact head_not_agi p 'N' t ht (by decide) (by decide) (by decide)
    · obtain ⟨t, ht⟩ := photoParts_heads_v3 _ (by rw [h3]; decide) photos hph p h
      exact head_not_agi p 'P' t ht (by decide) (by decide) (by decide)
    · obtain ⟨t, ht⟩ := bdayParts_heads _ p h
      exact head_not_agi p 'B' t ht (by decide) (by decide) (by decide)
    · obtain ⟨t, ht⟩ := addressParts_heads_v3 _ h3 p h
      exact head_not_agi p 'i' t ht (by decide) (by decide) (by decide)
    · obtain ⟨t, ht⟩ := telParts_heads _ p h
      exact head_not_agi p 'T' t ht (by decide) (by decide) (by decide)
    · obtain ⟨t, ht⟩ := emailParts_heads _ p h
      exact head_not_agi p 'E' t ht (by decide) (by decide) (by decide)
    · obtain ⟨t, ht⟩ := titleParts_heads _ p h
      exact head_not_agi p 'T' t ht (by decide) (by decide) (by decide)
    · obtain ⟨t, ht⟩ := roleParts_heads _ p h
      exact head_not_agi p 'R' t ht (by decide) (by decide) (by decide)
    · obtain ⟨t, ht⟩ := logoParts_heads_v3 _ (by rw [h3]; decide) logos hlg p h
      exact head_not_agi p 'L' t ht (by decide) (by decide) (by decide)
    · obtain ⟨t, ht⟩ := orgParts_heads _ p h
      exact head_not_agi p 'O' t ht (by decide) (by decide) (by decide)
    · obtain ⟨t, ht⟩ := noteParts_heads _ p h
      exact head_not_agi p 'N' t ht (by decide) (by decide) (by decide)
    · obtain ⟨t, ht⟩ := urlParts_heads _ p h
      exact head_not_agi p 'U' t ht (by decide) (by decide) (by decide)
    · exact head_not_agi p 'E' _ h (by decide) (by decide) (by decide)
  · intro ps hps
    obtain ⟨photos, logos, hph, hlg, hsh⟩ := renderParts_ok_shape _ ps hps
    subst hsh
    refine ⟨?_, ?_, ?_⟩
    · intro d hann
      obtain ⟨pa, hpa, hpa2⟩ :=
        anniversaryParts_head_v4 { c with specVersion := 4 } rfl d hann
      exact ⟨pa, (List.mem_append_left _ (List.mem_append_left _ (List.mem_append_left _ (List.mem_append_left _ (List.mem_append_left _ (List.mem_append_left _ (List.mem_append_left _ (List.mem_append_left _ (List.mem_append_left _ (List.mem_append_left _ (List.mem_append_left _ (List.mem_append_left _ (List.mem_append_right _ hpa))))))))))))),
        strStarts_mono "ANNIVERSARY".data [':'] pa hpa2⟩
    · intro hg
      obtain ⟨pg, hpg, hpg2⟩ := genderParts_head_v4 { c with specVersion := 4 } rfl hg
      exact ⟨pg, (List.mem_append_left _ (List.mem_append_left _ (List.mem_append_left _ (List.mem_append_left _ (List.mem_append_left _ (List.mem_append_left _ (List.mem_append_left _ (List.mem_append_left _ (List.mem_append_left _ (List.mem_append_left _ (List.mem_append_left _ (List.mem_append_right _ hpg)))))))))))), hpg2⟩
    · intro him
      obtain ⟨pi, hpi, hpi2⟩ := imppParts_head_v4 { c with specVersion := 4 } rfl him
      exact ⟨pi, (List.mem_append_left _ (List.mem_append_left _ (List.mem_append_left _ (List.mem_append_left _ (List.mem_append_left _ (List.mem_append_left _ (List.mem_append_left _ (List.mem_append_right _ hpi)))))))), hpi2⟩

/-- The concrete anniversary date of the gating witness contact. -/
def dw6 : JSDate := ⟨2000, 5, 17, 0, 0, 0⟩

/-- A concrete contact with a name, a kind, an anniversary, a gender and
one instant-message entry. -/
def cw6 : VCard :=
  { emptyVCard with
    name := ["Bob".data]
    kind := some "individual".data
    anniversary := some dw6
    gender := some ['M']
    impp := [⟨"someuser".data, "skype".data, false⟩] }

/-- A concrete contact holding only a gender among the three gated fields. -/
def cw6g : VCard :=
  { emptyVCard with
    name := ["Bob".data]
    kind := some "group".data
    gender := some ['F'] }

/-- The gating theorem holds at concrete contacts whose renderings
succeed: one holding all three fields, and one holding only a gender. -/
theorem C6_witness :
    cw6.anniversary = some dw6 ∧ optTruthy cw6.gender = true ∧ cw6.impp ≠ [] ∧
    (∃ ps3 ps4, renderParts { cw6 with specVersion := 3 } = .ok ps3 ∧
      renderParts { cw6 with specVersion := 4 } = .ok ps4 ∧
      (∀ p ∈ ps3, strStarts "ANNIVERSARY".data p = false ∧
        strStarts "GENDER".data p = false ∧ strStarts "IMPP".data p = false) ∧
      (∃ p ∈ ps4, strStarts "ANNIVERSARY".data p = true) ∧
      (∃ p ∈ ps4, strStarts "GENDER".data p = true) ∧
      (∃ p ∈ ps4, strStarts "IMPP".data p = true)) ∧
    optTruthy cw6g.gender = true ∧
    (∃ ps5, renderParts { cw6g with specVersion := 4 } = .ok ps5 ∧
      ∃ p ∈ ps5, strStarts "GENDER".data p = true) := by
  refine ⟨rfl, by decide, by decide, ?_, by decide, ?_⟩
  · have h := C6_version_gated_fields cw6
    exact ⟨_, _, rfl, rfl, h.1 _ rfl, (h.2 _ rfl).1 dw6 rfl, (h.2 _ rfl).2.1 (by decide),
      (h.2 _ rfl).2.2 (by decide)⟩
  · have h := C6_version_gated_fields cw6g
    exact ⟨_, rfl, (h.2 _ rfl).2.1 (by decide)⟩

/-! ## Claim C8: group merging -/

/-- Claim wording: the renaming applied to a folded-in bare key. -/
def bareRename (b : Str) : Str := if b = "X-ABLabel".data then "LABEL".data else b

/-- Claim wording: the parameters attached to a canonical group token, one
for each later line sharing its group label, in original order, each named
by its own bare key. -/
def attachmentsFor (lb : Str) (ts : List Token) : List Param :=
  (ts.filter fun t => t.key.contains '.' && decide ((splitDot t.key).1 = lb)).map
    fun t => ⟨bareRename (splitDot t.key).2, t.values⟩

/-- Claim wording: the walk over the token list carrying the group labels
already seen; the first dotted line of a label becomes the canonical token
with its bare property name as key and the later same-label lines attached
as parameters; a dotted line of a seen label is dropped; other lines are
kept, all in original order. -/
def specMergeGo (seen : List Str) : List Token → List Token
  | [] => []
  | t :: rest =>
    if t.key.contains '.' then
      if (splitDot t.key).1 ∈ seen then specMergeGo seen rest
      else
        { t with
          key := (splitDot t.key).2
          props := t.props ++ attachmentsFor (splitDot t.key).1 rest } ::
          specMergeGo ((splitDot t.key).1 :: seen) rest
    else t :: specMergeGo seen rest

/-- Claim wording: the merged token list, starting from no seen labels. -/
def specMerge (ts : List Token) : List Token := specMergeGo [] ts

/-- Application to the processed prefix of every parameter attachment that
a run of the merging loop performs at remembered indices. -/
def attachAll (lm : List (Str × Nat)) (done : List Token) : List Token → List Token
  | [] => done
  | t :: rest =>
    if t.key.contains '.' then
      match labelLookup (splitDot t.key).1 lm with
      | some j =>
        attachAll lm
          (modifyAt (attachParam ⟨bareRename (splitDot t.key).2, t.values⟩) j done) rest
      | none => attachAll lm done rest
    else attachAll lm done rest

theorem modifyAt_length {α : Type} (f : α → α) (n : Nat) (l : List α) :
    (modifyAt f n l).length = l.length := by
  induction l generalizing n with
  | nil => cases n <;> rfl
  | cons x t ih => cases n with
    | zero => rfl
    | succ m => simp [modifyAt, ih]

theorem modifyAt_append_lt {α : Type} (f : α → α) (n : Nat) (l1 l2 : List α)
    (h : n < l1.length) :
    modifyAt f n (l1 ++ l2) = modifyAt f n l1 ++ l2 := by
  induction l1 generalizing n with
  | nil => simp at h
  | cons x t ih =>
    cases n with
    | zero => rfl
    | succ m =>
      have hm : m < t.length := by simpa using h
      simp [modifyAt, ih m hm]

theorem modifyAt_append_self {α : Type} (f : α → α) (l1 : List α) (x : α) :
    modifyAt f l1.length (l1 ++ [x]) = l1 ++ [f x] := by
  induction l1 with
  | nil => rfl
  | cons y t ih => simp [modifyAt, ih]

theorem labelLookup_mem (lb : Str) (lm : List (Str × Nat)) (j : Nat)
    (h : labelLookup lb lm = some j) : (lb, j) ∈ lm := by
  induction lm with
  | nil => simp [labelLookup] at h
  | cons p t ih =>
    obtain ⟨k, v⟩ := p
    by_cases hk : k = lb
    · simp only [labelLookup, if_pos hk] at h
      injection h with h2
      subst hk
      subst h2
      exact List.mem_cons_self _ _
    · simp only [labelLookup, if_neg hk] at h
      exact List.mem_cons_of_mem _ (ih h)

theorem labelLookup_none_not_mem (lb : Str) (lm : List (Str × Nat))
    (h : labelLookup lb lm = none) : lb ∉ lm.map Prod.fst := by
  induction lm with
  | nil => simp
  | cons p t ih =>
    obtain ⟨k, v⟩ := p
    by_cases hk : k = lb
    · simp [labelLookup, hk] at h
    · simp only [labelLookup, if_neg hk] at h
      intro hm
      simp only [List.map_cons, List.mem_cons] at hm
      rcases hm with h2 | h2
      · exact hk h2.symm
      · exact ih h h2

theorem labelLookup_some_mem_fst (lb : Str) (lm : List (Str × Nat)) (j : Nat)
    (h : labelLookup lb lm = some j) : lb ∈ lm.map Prod.fst := by
  have := labelLookup_mem lb lm j h
  exact List.mem_map.mpr ⟨(lb, j), this, rfl⟩

theorem contains_false_of_not_mem (a : Char) (l : Str) (h : a ∉ l) :
    l.contains a = false := by
  induction l with
  | nil => rfl
  | cons c t ih =>
    have h1 : a ≠ c := fun he => h (he ▸ List.mem_cons_self c t)
    have h2 : a ∉ t := fun hm => h (List.mem_cons_of_mem c hm)
    simp only [List.contains_cons, ih h2, Bool.or_false]
    exact beq_eq_false_iff_ne.mpr h1

theorem contains_true_of_mem (a : Char) (l : Str) (h : a ∈ l) : l.contains a = true := by
  induction l with
  | nil => cases h
  | cons c t ih =>
    rcases List.mem_cons.mp h with h2 | h2
    · simp [List.contains_cons, h2]
    · simp [List.contains_cons, ih h2, h2]

theorem splitAllChar_pieces_not_mem (d : Char) (s : Str) :
    ∀ p ∈ splitAllChar d s, d ∉ p := by
  induction s with
  | nil =>
    intro p hp
    simp [splitAllChar] at hp
    subst hp
    simp
  | cons c t ih =>
    intro p hp
    by_cases hc : c = d
    · subst hc
      rw [splitAllChar_sep_cons] at hp
      rcases List.mem_cons.mp hp with h | h
      · subst h
        simp
      · exact ih p h
    · rw [splitAllChar_cons_ne d c t hc] at hp
      rcases List.mem_cons.mp hp with h | h
      · subst h
        intro him
        rcases List.mem_cons.mp him with h2 | h2
        · exact hc h2.symm
        · cases hsp : splitAllChar d t with
          | nil => exact absurd hsp (splitAllChar_ne_nil d t)
          | cons x r =>
            rw [hsp] at h2
            simp only [List.headD_cons] at h2
            exact ih x (by rw [hsp]; exact List.mem_cons_self x r) h2
      · cases hsp : splitAllChar d t with
        | nil => exact absurd hsp (splitAllChar_ne_nil d t)
        | cons x r =>
          rw [hsp] at h
          simp only [List.tail_cons] at h
          exact ih p (by rw [hsp]; exact List.mem_cons_of_mem x h)

theorem splitDot_bare_nodot (k : Str) : (splitDot k).2.contains '.' = false := by
  unfold splitDot
  have hall := splitAllChar_pieces_not_mem '.' k
  cases hsp : splitAllChar '.' k with
  | nil => simp
  | cons x r =>
    cases r with
    | nil => simp
    | cons y r2 =>
      simp only [List.getD_cons_succ, List.getD_cons_zero]
      exact contains_false_of_not_mem '.' y
        (hall y (by rw [hsp]; exact List.mem_cons_of_mem x (List.mem_cons_self y r2)))

theorem attachAll_cons_some (lm : List (Str × Nat)) (done : List Token) (t : Token)
    (rest : List Token) (j : Nat) (hd : t.key.contains '.' = true)
    (hl : labelLookup (splitDot t.key).1 lm = some j) :
    attachAll lm done (t :: rest) =
      attachAll lm
        (modifyAt (attachParam ⟨bareRename (splitDot t.key).2, t.values⟩) j done) rest := by
  simp only [attachAll]
  rw [if_pos hd, hl]

theorem attachAll_cons_none (lm : List (Str × Nat)) (done : List Token) (t : Token)
    (rest : List Token) (hd : t.key.contains '.' = true)
    (hl : labelLookup (splitDot t.key).1 lm = none) :
    attachAll lm done (t :: rest) = attachAll lm done rest := by
  simp only [attachAll]
  rw [if_pos hd, hl]

theorem attachAll_cons_plain (lm : List (Str × Nat)) (done : List Token) (t : Token)
    (rest : List Token) (hd : t.key.contains '.' = false) :
    attachAll lm done (t :: rest) = attachAll lm done rest := by
  simp only [attachAll]
  rw [if_neg (by rw [hd]; exact Bool.false_ne_true)]

theorem attachmentsFor_cons_match (lb : Str) (t : Token) (rest : List Token)
    (hd : t.key.contains '.' = true) (hlb : (splitDot t.key).1 = lb) :
    attachmentsFor lb (t :: rest) =
      ⟨bareRename (splitDot t.key).2, t.values⟩ :: attachmentsFor lb rest := by
  unfold attachmentsFor
  rw [List.filter_cons]
  rw [show (t.key.contains '.' && decide ((splitDot t.key).1 = lb)) = true from by
    rw [hd, hlb]
    simp]
  simp

theorem attachmentsFor_cons_skip (lb : Str) (t : Token) (rest : List Token)
    (h : t.key.contains '.' = false ∨ (splitDot t.key).1 ≠ lb) :
    attachmentsFor lb (t :: rest) = attachmentsFor lb rest := by
  unfold attachmentsFor
  rw [List.filter_cons]
  rw [show (t.key.contains '.' && decide ((splitDot t.key).1 = lb)) = false from by
    rcases h with h | h
    · rw [h]
      rfl
    · rw [decide_eq_false h]
      simp]
  simp

theorem mergeLoop_cons_plain (done : List Token) (lm : List (Str × Nat)) (t : Token)
    (rest : List Token) (hd : t.key.contains '.' = false) :
    mergeLoop done lm (t :: rest) = mergeLoop (done ++ [t]) lm rest := by
  simp only [mergeLoop]
  rw [if_neg (by rw [hd]; exact Bool.false_ne_true)]

theorem mergeLoop_cons_new (done : List Token) (lm : List (Str × Nat)) (t : Token)
    (rest : List Token) (hd : t.key.contains '.' = true)
    (hl : labelLookup (splitDot t.key).1 lm = none) :
    mergeLoop done lm (t :: rest) =
      mergeLoop (done ++ [{ t with key := (splitDot t.key).2 }])
        (((splitDot t.key).1, done.length) :: lm) rest := by
  simp only [mergeLoop]
  rw [if_pos hd, hl]

theorem mergeLoop_cons_seen (done : List Token) (lm : List (Str × Nat)) (t : Token)
    (rest : List Token) (j : Nat) (hd : t.key.contains '.' = true)
    (hl : labelLookup (splitDot t.key).1 lm = some j) :
    mergeLoop done lm (t :: rest) =
      mergeLoop
        (modifyAt (attachParam ⟨bareRename (splitDot t.key).2, t.values⟩) j done ++ [t])
        lm rest := by
  simp only [mergeLoop]
  rw [if_pos hd, hl]
  rfl

theorem specMergeGo_cons_plain (seen : List Str) (t : Token) (rest : List Token)
    (hd : t.key.contains '.' = false) :
    specMergeGo seen (t :: rest) = t :: specMergeGo seen rest := by
  simp only [specMergeGo]
  rw [if_neg (by rw [hd]; exact Bool.false_ne_true)]

theorem specMergeGo_cons_seen (seen : List Str) (t : Token) (rest : List Token)
    (hd : t.key.contains '.' = true) (hs : (splitDot t.key).1 ∈ seen) :
    specMergeGo seen (t :: rest) = specMergeGo seen rest := by
  simp only [specMergeGo]
  rw [if_pos hd, if_pos hs]

theorem specMergeGo_cons_new (seen : List Str) (t : Token) (rest : List Token)
    (hd : t.key.contains '.' = true) (hs : (splitDot t.key).1 ∉ seen) :
    specMergeGo seen (t :: rest) =
      { t with
        key := (splitDot t.key).2
        props := t.props ++ attachmentsFor (splitDot t.key).1 rest } ::
        specMergeGo ((splitDot t.key).1 :: seen) rest := by
  simp only [specMergeGo]
  rw [if_pos hd, if_neg hs]

theorem attachAll_append (lm : List (Str × Nat)) (rest : List Token) :
    ∀ done extra, (∀ p ∈ lm, p.2 < done.length) →
    attachAll lm (done ++ extra) rest = attachAll lm done rest ++ extra := by
  induction rest with
  | nil =>
    intro done extra h
    rfl
  | cons t r ih =>
    intro done extra h
    by_cases hd : t.key.contains '.' = true
    · cases hl : labelLookup (splitDot t.key).1 lm with
      | some j =>
        have hj : j < done.length := h _ (labelLookup_mem _ _ _ hl)
        rw [attachAll_cons_some _ _ _ _ _ hd hl, attachAll_cons_some _ _ _ _ _ hd hl]
        rw [modifyAt_append_lt _ _ _ _ hj]
        exact ih _ extra (fun p hp => by rw [modifyAt_length]; exact h p hp)
      | none =>
        rw [attachAll_cons_none _ _ _ _ hd hl, attachAll_cons_none _ _ _ _ hd hl]
        exact ih done extra h
    · have hd2 : t.key.contains '.' = false := by
        cases h2 : t.key.contains '.' with
        | false => rfl
        | true => exact absurd h2 hd
      rw [attachAll_cons_plain _ _ _ _ hd2, attachAll_cons_plain _ _ _ _ hd2]
      exact ih done extra h

theorem attachAll_fresh (lb : Str) (lm : List (Str × Nat))
    (hlb : labelLookup lb lm = none) (rest : List Token) :
    ∀ done t0, (∀ p ∈ lm, p.2 < done.length) →
    attachAll ((lb, done.length) :: lm) (done ++ [t0]) rest =
      attachAll lm done rest ++ [{ t0 with props := t0.props ++ attachmentsFor lb rest }] := by
  induction rest with
  | nil =>
    intro done t0 h
    simp [attachAll, attachmentsFor]
  | cons u r ih =>
    intro done t0 h
    by_cases hd : u.key.contains '.' = true
    · by_cases hlbu : (splitDot u.key).1 = lb
      · have hl1 : labelLookup (splitDot u.key).1 ((lb, done.length) :: lm) =
            some done.length := by
          show (if lb = (splitDot u.key).1 then some done.length
            else labelLookup (splitDot u.key).1 lm) = some done.length
          rw [if_pos hlbu.symm]
        have hl2 : labelLookup (splitDot u.key).1 lm = none := by
          rw [hlbu]
          exact hlb
        rw [attachAll_cons_some _ _ _ _ _ hd hl1, attachAll_cons_none _ _ _ _ hd hl2]
        rw [modifyAt_append_self]
        rw [attachmentsFor_cons_match lb u r hd hlbu]
        rw [ih done (attachParam ⟨bareRename (splitDot u.key).2, u.values⟩ t0) h]
        simp [attachParam]
      · cases hl : labelLookup (splitDot u.key).1 lm with
        | some j =>
          have hj : j < done.length := h _ (labelLookup_mem _ _ _ hl)
          have hl1 : labelLookup (splitDot u.key).1 ((lb, done.length) :: lm) = some j := by
            show (if lb = (splitDot u.key).1 then some done.length
              else labelLookup (splitDot u.key).1 lm) = some j
            rw [if_neg (fun he => hlbu he.symm)]
            exact hl
          rw [attachAll_cons_some _ _ _ _ _ hd hl1, attachAll_cons_some _ _ _ _ _ hd hl]
          rw [modifyAt_append_lt _ _ _ _ hj]
          rw [attachmentsFor_cons_skip lb u r (Or.inr hlbu)]
          rw [show done.length =
            (modifyAt (attachParam ⟨bareRename (splitDot u.key).2, u.values⟩) j done).length
            from (modifyAt_length _ _ _).symm]
          exact ih _ t0 (fun p hp => by rw [modifyAt_length]; exact h p hp)
        | none =>
          have hl1 : labelLookup (splitDot u.key).1 ((lb, done.length) :: lm) = none := by
            show (if lb = (splitDot u.key).1 then some done.length
              else labelLookup (splitDot u.key).1 lm) = none
            rw [if_neg (fun he => hlbu he.symm)]
            exact hl
          rw [attachAll_cons_none _ _ _ _ hd hl1, attachAll_cons_none _ _ _ _ hd hl]
          rw [attachmentsFor_cons_skip lb u r (Or.inr hlbu)]
          exact ih done t0 h
    · have hd2 : u.key.contains '.' = false := by
        cases h2 : u.key.contains '.' with
        | false => rfl
        | true => exact absurd h2 hd
      rw [attachAll_cons_plain _ _ _ _ hd2, attachAll_cons_plain _ _ _ _ hd2]
      rw [attachmentsFor_cons_skip lb u r (Or.inl hd2)]
      exact ih done t0 h

theorem mergeLoop_spec (ts : List Token) :
    ∀ done lm, (∀ p ∈ lm, p.2 < done.length) →
    (mergeLoop done lm ts).filter (fun t => !t.key.contains '.') =
      (attachAll lm done ts).filter (fun t => !t.key.contains '.') ++
        specMergeGo (lm.map Prod.fst) ts := by
  induction ts with
  | nil =>
    intro done lm h
    simp [mergeLoop, attachAll, specMergeGo]
  | cons t rest ih =>
    intro done lm h
    by_cases hd : t.key.contains '.' = true
    · cases hl : labelLookup (splitDot t.key).1 lm with
      | none =>
        rw [mergeLoop_cons_new _ _ _ _ hd hl, attachAll_cons_none _ _ _ _ hd hl]
        rw [specMergeGo_cons_new _ _ _ hd (labelLookup_none_not_mem _ _ hl)]
        rw [ih (done ++ [({ t with key := (splitDot t.key).2 } : Token)])
          (((splitDot t.key).1, done.length) :: lm)
          (by
            intro p hp
            rcases List.mem_cons.mp hp with h2 | h2
            · subst h2
              simp
            · have := h p h2
              simp
              omega)]
        rw [attachAll_fresh (splitDot t.key).1 lm hl rest done
          { t with key := (splitDot t.key).2 } h]
        rw [List.filter_append]
        have hb : ((splitDot t.key).2.contains '.') = false := splitDot_bare_nodot t.key
        have hnb : '.' ∉ (splitDot t.key).2 := fun hm => by
          rw [contains_true_of_mem _ _ hm] at hb
          exact absurd hb (by decide)
        simp [hnb, List.append_assoc]
      | some j =>
        rw [mergeLoop_cons_seen _ _ _ _ _ hd hl, attachAll_cons_some _ _ _ _ _ hd hl]
        rw [specMergeGo_cons_seen _ _ _ hd (labelLookup_some_mem_fst _ _ _ hl)]
        rw [ih (modifyAt (attachParam ⟨bareRename (splitDot t.key).2, t.values⟩) j done ++ [t])
          lm (by
            intro p hp
            have := h p hp
            rw [List.length_append, modifyAt_length]
            omega)]
        rw [attachAll_append lm rest _ [t]
          (fun p hp => by rw [modifyAt_length]; exact h p hp)]
        rw [List.filter_append]
        have hmem : '.' ∈ t.key := by
          by_contra hnm
          rw [contains_false_of_not_mem _ _ hnm] at hd
          exact Bool.false_ne_true hd
        simp [hmem]
    · have hd2 : t.key.contains '.' = false := by
        cases h2 : t.key.contains '.' with
        | false => rfl
        | true => exact absurd h2 hd
      rw [mergeLoop_cons_plain _ _ _ _ hd2, attachAll_cons_plain _ _ _ _ hd2]
      rw [specMergeGo_cons_plain _ _ _ hd2]
      rw [ih (done ++ [t]) lm (by
        intro p hp
        have := h p hp
        simp
        omega)]
      rw [attachAll_append lm rest done [t] h]
      rw [List.filter_append]
      have hnm : '.' ∉ t.key := fun hm => by
        rw [contains_true_of_mem '.' t.key hm] at hd2
        exact absurd hd2 (by decide)
      simp [hnm, List.append_assoc]

theorem attachAll_nil_lm (ts : List Token) (done : List Token) :
    attachAll [] done ts = done := by
  induction ts with
  | nil => rfl
  | cons t rest ih =>
    by_cases hd : t.key.contains '.' = true
    · rw [attachAll_cons_none [] done t rest hd rfl]
      exact ih
    · have hd2 : t.key.contains '.' = false := by
        cases h2 : t.key.contains '.' with
        | false => rfl
        | true => exact absurd h2 hd
      rw [attachAll_cons_plain _ _ _ _ hd2]
      exact ih

/-- C8: the group-merging pass of the tokenizer equals the specification
walk: among dotted lines the first line per group label becomes the
canonical token with its bare property name as key, every later line of
the same label is attached to it as a parameter named by its own bare key
with X-ABLabel renamed to LABEL, the attached lines are removed, and the
remaining tokens keep their original order. -/
theorem C8_group_merging (ts : List Token) : mergeGroups ts = specMerge ts := by
  unfold mergeGroups specMerge
  rw [mergeLoop_spec ts [] [] (by simp)]
  rw [attachAll_nil_lm]
  simp

/-! ## Claim C1: the encode-decode round trip -/

/-- A contact built through successful validated setter calls whose render
output does not survive the round trip: the URL value holds a semicolon,
is rendered raw, and is split into two values on decode. -/
def cBad1 : VCard :=
  setURL "a;b".data (setName "Bob".data (setKind "individual".data emptyVCard).1)

/-- C1 counterexample: all setter calls on the contact succeed, the round
trip succeeds, but the re-rendered text differs from the original because
the raw URL value a;b is split at the unescaped semicolon during decode. -/
theorem C1_counterexample :
    (setKind "individual".data emptyVCard).2 = none ∧
      (roundTrip cBad1).map (fun p => decide (p.1 = p.2)) = Except.ok false :=
  ⟨rfl, by decide⟩

theorem flatten_map_single (n : Str) : (n.map (fun c => [c])).flatten = n := by
  induction n with
  | nil => rfl
  | cons c t ih => simp [ih]

theorem escapeStr_plain (n : Str) (h : ∀ c ∈ n, plainChar c) : escapeStr n = n := by
  unfold escapeStr
  have h2 := units_append_plain n [] h
  rw [List.append_nil] at h2
  rw [h2]
  rw [show units ([] : Str) = [] from rfl, List.append_nil]
  exact flatten_map_single n

theorem units_col_tok (t : Str) :
    units ('%' :: 'C' :: 'O' :: 'L' :: '%' :: t) = [':'] :: units t := rfl

theorem escapeStr_fn_col (n : Str) :
    escapeStr ("FN%COL%".data ++ n) = "FN:".data ++ escapeStr n := by
  show escapeStr ('F' :: 'N' :: '%' :: 'C' :: 'O' :: 'L' :: '%' :: n) = _
  unfold escapeStr
  rw [units_cons_of_ne 'F' _ (by decide), units_cons_of_ne 'N' _ (by decide), units_col_tok]
  rfl

theorem escapeStr_n_col (n : Str) :
    escapeStr ("N%COL%".data ++ n) = "N:".data ++ escapeStr n := by
  show escapeStr ('N' :: '%' :: 'C' :: 'O' :: 'L' :: '%' :: n) = _
  unfold escapeStr
  rw [units_cons_of_ne 'N' _ (by decide), units_col_tok]
  rfl

theorem unesc_of_no_bs (s : Str) (h : '\\' ∉ s) : unesc s = s := by
  unfold unesc
  rw [replace2_of_not_mem _ _ _ _ h, replace2_of_not_mem _ _ _ _ h,
    replace2_of_not_mem _ _ _ _ h, replace2_of_not_mem _ _ _ _ h,
    replace2_of_not_mem _ _ _ _ h]

theorem collapseWs_no_ws (n : Str) (h : ∀ c ∈ n, jsWs c = false) :
    collapseWsGo false n = n := by
  induction n with
  | nil => rfl
  | cons c t ih =>
    have hc := h c (List.mem_cons_self c t)
    simp [collapseWsGo, hc, ih (fun x hx => h x (List.mem_cons_of_mem c hx))]

theorem dropTrailingWs_no_ws (n : Str) (h : ∀ c ∈ n, jsWs c = false) :
    dropTrailingWs n = n := by
  induction n with
  | nil => rfl
  | cons c t ih =>
    have hc := h c (List.mem_cons_self c t)
    have ht := ih (fun x hx => h x (List.mem_cons_of_mem c hx))
    cases t with
    | nil => simp [dropTrailingWs, hc]
    | cons y r =>
      unfold dropTrailingWs
      rw [ht]
      simp

theorem normalizeName_id (n : Str) (h : ∀ c ∈ n, jsWs c = false) :
    normalizeName n = n := by
  unfold normalizeName trimStr
  rw [collapseWs_no_ws n h]
  rw [show n.dropWhile (fun c => jsWs c) = n from by
    cases n with
    | nil => rfl
    | cons c t => simp [List.dropWhile_cons, h c (List.mem_cons_self c t)]]
  exact dropTrailingWs_no_ws n h

theorem mergeLoop_nodot (ts : List Token) (h : ∀ t ∈ ts, t.key.contains '.' = false) :
    ∀ done lm, mergeLoop done lm ts = done ++ ts := by
  induction ts with
  | nil =>
    intro done lm
    simp [mergeLoop]
  | cons t rest ih =>
    intro done lm
    rw [mergeLoop_cons_plain _ _ _ _ (h t (List.mem_cons_self t rest))]
    rw [ih (fun u hu => h u (List.mem_cons_of_mem t hu))]
    simp

theorem mergeGroups_nodot (ts : List Token) (h : ∀ t ∈ ts, t.key.contains '.' = false) :
    mergeGroups ts = ts := by
  unfold mergeGroups
  rw [mergeLoop_nodot ts h [] [], List.nil_append]
  apply List.filter_eq_self.mpr
  intro t ht
  have h2 := h t ht
  have hnm : '.' ∉ t.key := fun hm => by
    rw [contains_true_of_mem '.' t.key hm] at h2
    exact absurd h2 (by simp)
  simp [hnm]

theorem lineMatchGo_sep2 (d : Char) (cur : Str) (c2 : Char) (t : Str) :
    lineMatchGo d cur (d :: c2 :: t) =
      if cur.isEmpty then lineMatchGo d [] (c2 :: t)
      else cur :: lineMatchGo d [] (c2 :: t) := by
  simp [lineMatchGo]

theorem lineMatchGo_plain_step (d : Char) (cur : Str) (c c2 : Char) (t : Str)
    (hc : c ≠ d) (hb : c ≠ '\\') :
    lineMatchGo d cur (c :: c2 :: t) = lineMatchGo d (cur ++ [c]) (c2 :: t) := by
  simp [lineMatchGo, hc, hb]

theorem lineMatchGo_cons_plain (d : Char) (cur : Str) (c : Char) (t : Str)
    (hc : c ≠ d) (hb : c ≠ '\\') (ht : t ≠ []) :
    lineMatchGo d cur (c :: t) = lineMatchGo d (cur ++ [c]) t := by
  cases t with
  | nil => exact absurd rfl ht
  | cons c2 r => exact lineMatchGo_plain_step d cur c c2 r hc hb

theorem lineMatchGo_plain_all (d : Char) (s : Str)
    (hs : ∀ c ∈ s, c ≠ d ∧ c ≠ '\\') :
    ∀ cur, cur ++ s ≠ [] → lineMatchGo d cur s = [cur ++ s] := by
  induction s with
  | nil =>
    intro cur h
    rw [List.append_nil] at h ⊢
    have : cur.isEmpty = false := by
      cases cur with
      | nil => exact absurd rfl h
      | cons a b => rfl
    simp [lineMatchGo, this]
  | cons c rest ih =>
    intro cur h
    have hc := hs c (List.mem_cons_self c rest)
    cases rest with
    | nil =>
      show lineMatchGo d cur [c] = [cur ++ [c]]
      simp [lineMatchGo, hc.1]
    | cons c2 t =>
      rw [lineMatchGo_plain_step d cur c c2 t hc.1 hc.2]
      rw [ih (fun x hx => hs x (List.mem_cons_of_mem c hx)) (cur ++ [c]) (by simp)]
      simp

theorem lineMatchGo_split (d : Char) (a : Str) (ha : ∀ c ∈ a, c ≠ d ∧ c ≠ '\\')
    (b : Str) (hb : b ≠ []) :
    ∀ cur, cur ++ a ≠ [] →
    lineMatchGo d cur (a ++ d :: b) = (cur ++ a) :: lineMatchGo d [] b := by
  induction a with
  | nil =>
    intro cur h
    rw [List.append_nil] at h
    rw [List.nil_append]
    cases b with
    | nil => exact absurd rfl hb
    | cons x bt =>
      rw [lineMatchGo_sep2 d cur x bt]
      have : cur.isEmpty = false := by
        cases cur with
        | nil => exact absurd rfl h
        | cons a2 b2 => rfl
      rw [if_neg (by simp [this])]
      rw [List.append_nil]
  | cons c a2 ih =>
    intro cur h
    have hc := ha c (List.mem_cons_self c a2)
    show lineMatchGo d cur (c :: (a2 ++ d :: b)) = _
    rw [lineMatchGo_cons_plain d cur c _ hc.1 hc.2 (by simp)]
    rw [ih (fun x hx => ha x (List.mem_cons_of_mem c hx)) (cur ++ [c]) (by simp)]
    simp

theorem tokenizeLine_plain_val (key n : Str)
    (hkey : ∀ c ∈ key, c ≠ ':' ∧ c ≠ '\\') (hkey2 : key ≠ [])
    (hsemk : lineMatch ';' key = [key]) (huk : unesc key = key)
    (hn : n ≠ []) (hg : ∀ c ∈ n, c ≠ ':' ∧ c ≠ ';' ∧ c ≠ '\\') :
    tokenizeLine (key ++ ':' :: n) = .ok ⟨key, [], [n]⟩ := by
  have hbs : '\\' ∉ n := fun hm => (hg '\\' hm).2.2 rfl
  have hcol : lineMatch ':' (key ++ ':' :: n) = [key, n] := by
    unfold lineMatch
    rw [lineMatchGo_split ':' key hkey n hn [] (by simpa using hkey2)]
    rw [lineMatchGo_plain_all ':' n (fun c hc => ⟨(hg c hc).1, (hg c hc).2.2⟩) []
      (by simpa using hn)]
    rfl
  have hsemn : lineMatch ';' n = [n] := by
    unfold lineMatch
    rw [lineMatchGo_plain_all ';' n (fun c hc => ⟨(hg c hc).2.1, (hg c hc).2.2⟩) []
      (by simpa using hn)]
    rfl
  unfold tokenizeLine
  rw [hcol]
  show (let values := (lineMatch ';' (joinChar ':' [n])).map unesc
    match lineMatch ';' key with
    | [] => throw "TypeError".data
    | key :: props => do
      let ps ← collectE parseParamSeg props
      pure (Token.mk (unesc key) ps values)) = Except.ok (Token.mk key [] [n])
  rw [show joinChar ':' [n] = n from rfl]
  rw [hsemn, hsemk]
  show (do
    let ps ← collectE parseParamSeg []
    pure (Token.mk (unesc key) ps ([n].map unesc))) = Except.ok (Token.mk key [] [n])
  rw [show collectE parseParamSeg [] = Except.ok [] from rfl]
  simp [bind, Except.bind, pure, Except.pure, huk, unesc_of_no_bs n hbs]

theorem stripF_append_sep (b : Str) (hbh : b.headD ' ' ≠ ' ') :
    ∀ k a, a.length ≤ k → stripFolds (a ++ '\n' :: b) = stripFolds a ++ '\n' :: stripFolds b := by
  have hsep : stripFolds ('\n' :: b) = '\n' :: stripFolds b := by
    cases b with
    | nil => rfl
    | cons x bt =>
      have hx : x ≠ ' ' := by simpa using hbh
      exact replace2_cons2_ne '\n' ' ' [] x bt hx
  intro k
  induction k with
  | zero =>
    intro a ha
    obtain rfl := List.length_eq_zero.mp (Nat.le_zero.mp ha)
    simpa using hsep
  | succ m ihm =>
    intro a ha
    cases a with
    | nil => simpa using hsep
    | cons x t =>
      by_cases hx : x = '\n'
      · subst hx
        cases t with
        | nil =>
          show stripFolds ('\n' :: '\n' :: b) = stripFolds ['\n'] ++ '\n' :: stripFolds b
          rw [show stripFolds ['\n'] = ['\n'] from rfl]
          rw [show stripFolds ('\n' :: '\n' :: b) = '\n' :: stripFolds ('\n' :: b) from
            replace2_cons2_ne '\n' ' ' [] '\n' b (by decide)]
          rw [hsep]
          rfl
        | cons y r =>
          by_cases hy : y = ' '
          · subst hy
            show stripFolds ('\n' :: ' ' :: (r ++ '\n' :: b)) =
              stripFolds ('\n' :: ' ' :: r) ++ '\n' :: stripFolds b
            rw [show stripFolds ('\n' :: ' ' :: (r ++ '\n' :: b)) =
              [] ++ stripFolds (r ++ '\n' :: b) from replace2_cons2_eq '\n' ' ' [] _]
            rw [show stripFolds ('\n' :: ' ' :: r) = [] ++ stripFolds r from
              replace2_cons2_eq '\n' ' ' [] _]
            rw [ihm r (by simp at ha; omega)]
            rfl
          · show stripFolds ('\n' :: ((y :: r) ++ '\n' :: b)) =
              stripFolds ('\n' :: y :: r) ++ '\n' :: stripFolds b
            rw [show stripFolds ('\n' :: ((y :: r) ++ '\n' :: b)) =
              '\n' :: stripFolds ((y :: r) ++ '\n' :: b) from
              replace2_cons2_ne '\n' ' ' [] y _ hy]
            rw [show stripFolds ('\n' :: y :: r) = '\n' :: stripFolds (y :: r) from
              replace2_cons2_ne '\n' ' ' [] y r hy]
            rw [ihm (y :: r) (by simp at ha ⊢; omega)]
            rfl
      · show stripFolds (x :: (t ++ '\n' :: b)) = stripFolds (x :: t) ++ '\n' :: stripFolds b
        rw [stripF_cons_ne x _ hx, stripF_cons_ne x t hx]
        rw [ihm t (by simp at ha; omega)]
        rfl

theorem stripFolds_join_sep (a b : Str) (hbh : b.headD ' ' ≠ ' ') :
    stripFolds (a ++ '\n' :: b) = stripFolds a ++ '\n' :: stripFolds b :=
  stripF_append_sep b hbh a.length a (Nat.le_refl _)

theorem regexSplitNl_joinChar (ls : List Str) (hne : ls ≠ [])
    (hnl : ∀ l ∈ ls, '\n' ∉ l) (hns : ∀ l ∈ ls, l ≠ []) :
    regexSplitNl (joinChar '\n' ls) = ls := by
  unfold regexSplitNl
  rw [show splitAllChar '\n' (joinChar '\n' ls) = ls from physLines_joinChar ls hne hnl]
  cases ls with
  | nil => exact absurd rfl hne
  | cons x rest =>
    cases rest with
    | nil => rfl
    | cons y r2 =>
      show x :: ((List.filter (fun l => !List.isEmpty l) (y :: r2).dropLast) ++
        [(y :: r2).getLastD []]) = x :: y :: r2
      congr 1
      have hfilter : ((y :: r2).dropLast.filter fun l => !l.isEmpty) = (y :: r2).dropLast := by
        apply List.filter_eq_self.mpr
        intro l hl
        have hmem : l ∈ y :: r2 := List.dropLast_subset _ hl
        have := hns l (List.mem_cons_of_mem x hmem)
        simp [this]
      rw [hfilter]
      have hgl : (y :: r2).getLastD [] = (y :: r2).getLast (by simp) := by
        rw [List.getLastD_eq_getLast?, List.getLast?_eq_getLast _ (by simp)]
        rfl
      rw [hgl]
      exact List.dropLast_append_getLast (by simp)

/-- A name character unchanged by escaping and by whitespace normalization. -/
def goodChar (c : Char) : Prop := plainChar c ∧ jsWs c = false

instance (c : Char) : Decidable (goodChar c) := by
  unfold goodChar
  infer_instance

/-- The version and kind configurations of the amended round-trip family. -/
def rtConfigs : List (Nat × Option Str) :=
  [(3, none), (4, some "individual".data), (4, some "group".data),
   (4, some "org".data), (4, some "location".data)]

/-- The simple contact of the amended round-trip family. -/
def cSimple (v : Nat) (k : Option Str) (n : Str) : VCard :=
  { emptyVCard with
    specVersion := v
    kind := k
    name := [n] }

/-- The same contact built through the setter calls. -/
def builtCard (v : Nat) (k : Option Str) (n : Str) : VCard :=
  setName n (match k with
    | some kv => (setKind kv (setVersion v emptyVCard).1).1
    | none => (setVersion v emptyVCard).1)

theorem stripF_joinChar (ls : List Str) (h : ∀ l ∈ ls, l.headD ' ' ≠ ' ') :
    stripFolds (joinChar '\n' ls) = joinChar '\n' (ls.map stripFolds) := by
  induction ls with
  | nil => rfl
  | cons l rest ih =>
    cases rest with
    | nil => rfl
    | cons l2 r2 =>
      show stripFolds (l ++ '\n' :: joinChar '\n' (l2 :: r2)) =
        stripFolds l ++ '\n' :: joinChar '\n' ((l2 :: r2).map stripFolds)
      have hh : (joinChar '\n' (l2 :: r2)).headD ' ' ≠ ' ' := by
        have h2 := h l2 (by simp)
        cases l2 with
        | nil => exact absurd rfl h2
        | cons c t =>
          cases r2 with
          | nil => exact h2
          | cons a b => exact h2
      rw [stripFolds_join_sep l _ hh]
      rw [ih (fun x hx => h x (List.mem_cons_of_mem l hx))]

theorem collectE_cons_ok {α β : Type} (f : α → Except Str β) (x : α) (l : List α)
    (y : β) (ys : List β) (hx : f x = .ok y) (hl : collectE f l = .ok ys) :
    collectE f (x :: l) = .ok (y :: ys) := by
  unfold collectE
  rw [hx, hl]
  rfl

theorem nonempty_isEmpty_false {α : Type} (l : List α) (h : l ≠ []) :
    l.isEmpty = false := by
  cases l with
  | nil => exact absurd rfl h
  | cons x t => rfl

theorem parseToken_version (vals : List Str) (c : VCard) (hv : vals ≠ []) :
    parseToken (Token.mk "VERSION".data [] vals) c = parseVersionToken (Token.mk "VERSION".data [] vals) c := by
  unfold parseToken
  rw [if_neg (by rw [nonempty_isEmpty_false vals hv]; simp)]
  rw [if_pos (by simp only [upperStr]; decide)]

theorem parseToken_kind (vals : List Str) (c : VCard) (hv : vals ≠ []) :
    parseToken (Token.mk "KIND".data [] vals) c = toE (setKind (vals.headD []) c) := by
  unfold parseToken
  rw [if_neg (by rw [nonempty_isEmpty_false vals hv]; simp)]
  rw [if_neg (by simp only [upperStr]; decide), if_neg (by simp only [upperStr]; decide), if_neg (by simp only [upperStr]; decide), if_pos (by simp only [upperStr]; decide)]

theorem parseToken_fn (vals : List Str) (c : VCard) (hv : vals ≠ []) :
    parseToken (Token.mk "FN".data [] vals) c = .ok (setName (vals.headD []) c) := by
  unfold parseToken
  rw [if_neg (by rw [nonempty_isEmpty_false vals hv]; simp)]
  rw [if_neg (by simp only [upperStr]; decide), if_neg (by simp only [upperStr]; decide), if_pos (by simp only [upperStr]; decide)]

theorem parseToken_n (vals : List Str) (c : VCard) (hv : vals ≠ []) :
    parseToken (Token.mk "N".data [] vals) c = .ok c := by
  unfold parseToken
  rw [if_neg (by rw [nonempty_isEmpty_false vals hv]; simp)]
  rw [if_neg (by simp only [upperStr]; decide), if_pos (by simp only [upperStr]; decide)]

theorem kindValue_facts (kv : Str) (hkv : kv ∈ kindValues) :
    kv ≠ [] ∧ (∀ c ∈ kv, goodChar c) ∧ lowerStr (trimStr kv) = kv := by
  have h2 : kv = "individual".data ∨ kv = "group".data ∨ kv = "org".data ∨
      kv = "location".data := by simpa [kindValues] using hkv
  rcases h2 with rfl | rfl | rfl | rfl <;>
    exact ⟨by decide, by decide, by decide⟩

theorem tokenizeVcard_lines (L LL : List Str) (toks : List Token)
    (hhead : ∀ l ∈ L, l.headD ' ' ≠ ' ')
    (hmap : L.map stripFolds = LL)
    (hne : LL ≠ []) (hnl : ∀ l ∈ LL, '\n' ∉ l) (hns : ∀ l ∈ LL, l ≠ [])
    (hcoll : collectE tokenizeLine LL = .ok toks)
    (hnodot : ∀ t ∈ toks, t.key.contains '.' = false) :
    tokenizeVcardString (joinChar '\n' L) = .ok toks := by
  unfold tokenizeVcardString
  rw [stripF_joinChar L hhead, hmap, regexSplitNl_joinChar LL hne hnl hns]
  show (do
    let toks2 ← collectE tokenizeLine LL
    pure (mergeGroups toks2) : Except Str (List Token)) = Except.ok toks
  rw [hcoll]
  simp [bind, Except.bind, pure, Except.pure, mergeGroups_nodot toks hnodot]

theorem parserParse_toks (text : Str) (mid : List Token) (c2 : VCard)
    (htok : tokenizeVcardString text = .ok
      (Token.mk "BEGIN".data [] ["VCARD".data] ::
        (mid ++ [Token.mk "END".data [] ["VCARD".data]])))
    (t0 : Token) (r : List Token) (hmid : mid = t0 :: r)
    (ht0 : upperStr t0.key = "VERSION".data)
    (hfold : foldTokens mid emptyVCard = .ok c2) :
    decode text = .ok c2 := by
  unfold decode parserParse
  rw [htok]
  simp only [bind, Except.bind]
  rw [if_neg (by decide)]
  simp only [List.getLast?_concat]
  rw [if_neg (by decide)]
  simp only [List.dropLast_concat]
  subst hmid
  show (if upperStr t0.key ≠ "VERSION".data then
      (throw "Version missing or out of place.".data : Except Str VCard)
    else foldTokens (t0 :: r) emptyVCard) = Except.ok c2
  rw [if_neg (fun hne => hne ht0)]
  exact hfold

theorem foldTokens_cons (t : Token) (ts : List Token) (c c2 : VCard)
    (h : parseToken t c = .ok c2) :
    foldTokens (t :: ts) c = foldTokens ts c2 := by
  show (do
    let x ← parseToken t c
    foldTokens ts x : Except Str VCard) = foldTokens ts c2
  rw [h]
  show (Except.ok c2 >>= fun x => foldTokens ts x) = foldTokens ts c2
  simp [bind, Except.bind]

theorem decode_simple (v : Nat) (k : Option Str) (n : Str)
    (hn : n ≠ []) (hgood : ∀ ch ∈ n, goodChar ch)
    (hv : v = 3 ∨ v = 4)
    (hk4 : v = 4 → ∃ kv, k = some kv ∧ kv ∈ kindValues)
    (hk3 : v = 3 → k = none) :
    decode (joinChar '\n'
      (["BEGIN:VCARD".data, "VERSION:".data ++ (toString v).data ++ ".0".data] ++
        (if v = 4 then ["KIND:".data ++ k.getD []] else []) ++
        [formatTextValue ("FN%COL%".data ++ n), formatTextValue ("N%COL%".data ++ n),
         "END:VCARD".data])) = .ok (cSimple v k n) := by
  have hws : ∀ c ∈ n, jsWs c = false := fun c hc => (hgood c hc).2
  have hpl : ∀ c ∈ n, plainChar c := fun c hc => (hgood c hc).1
  have hnnl : '\n' ∉ n := fun hm => (hpl '\n' hm).2.2.2.2.2 rfl
  have hng : ∀ c ∈ n, c ≠ ':' ∧ c ≠ ';' ∧ c ≠ '\\' := fun c hc =>
    ⟨(hpl c hc).2.2.2.1, (hpl c hc).2.2.1, (hpl c hc).2.2.2.2.1⟩
  have hsf : stripFolds (formatTextValue ("FN%COL%".data ++ n)) = "FN:".data ++ n := by
    rw [(formatTextValue_folding _).2, escapeStr_fn_col, escapeStr_plain n hpl]
  have hsn : stripFolds (formatTextValue ("N%COL%".data ++ n)) = "N:".data ++ n := by
    rw [(formatTextValue_folding _).2, escapeStr_n_col, escapeStr_plain n hpl]
  obtain ⟨tf, htf0⟩ := ftv_head_char 'F' ("N%COL%".data ++ n) (by decide) (by decide)
  obtain ⟨tn2, htn0⟩ := ftv_head_char 'N' ("%COL%".data ++ n) (by decide) (by decide)
  have htf : formatTextValue ("FN%COL%".data ++ n) = 'F' :: tf := htf0
  have htn2 : formatTextValue ("N%COL%".data ++ n) = 'N' :: tn2 := htn0
  have htfn : tokenizeLine ("FN:".data ++ n) = .ok (Token.mk "FN".data [] [n]) :=
    tokenizeLine_plain_val "FN".data n (by decide) (by decide) (by decide) (by decide) hn hng
  have htnn : tokenizeLine ("N:".data ++ n) = .ok (Token.mk "N".data [] [n]) :=
    tokenizeLine_plain_val "N".data n (by decide) (by decide) (by decide) (by decide) hn hng
  rcases hv with rfl | rfl
  · obtain rfl := hk3 rfl
    rw [if_neg (by decide)]
    rw [show "VERSION:".data ++ (toString (3 : Nat)).data ++ ".0".data =
      "VERSION:3.0".data from by decide]
    show decode (joinChar '\n' ["BEGIN:VCARD".data, "VERSION:3.0".data,
      formatTextValue ("FN%COL%".data ++ n), formatTextValue ("N%COL%".data ++ n),
      "END:VCARD".data]) = .ok (cSimple 3 none n)
    refine parserParse_toks _ [Token.mk "VERSION".data [] ["3.0".data],
        Token.mk "FN".data [] [n], Token.mk "N".data [] [n]] _ ?_ _ _ rfl
      (by decide) ?_
    · refine tokenizeVcard_lines _ ["BEGIN:VCARD".data, "VERSION:3.0".data,
        "FN:".data ++ n, "N:".data ++ n, "END:VCARD".data] _ ?_ ?_ (by simp) ?_ ?_ ?_ ?_
      · intro l hl
        simp only [List.mem_cons, List.not_mem_nil, or_false] at hl
        rcases hl with rfl | rfl | rfl | rfl | rfl
        · decide
        · decide
        · rw [htf, List.headD_cons]
          decide
        · rw [htn2, List.headD_cons]
          decide
        · decide
      · simp only [List.map_cons, List.map_nil]
        rw [stripF_of_no_nl "BEGIN:VCARD".data (by decide),
          stripF_of_no_nl "VERSION:3.0".data (by decide), hsf, hsn,
          stripF_of_no_nl "END:VCARD".data (by decide)]
      · intro l hl
        simp only [List.mem_cons, List.not_mem_nil, or_false] at hl
        rcases hl with rfl | rfl | rfl | rfl | rfl
        · decide
        · decide
        · intro hm
          rcases List.mem_append.mp hm with h | h
          · exact absurd h (by decide)
          · exact hnnl h
        · intro hm
          rcases List.mem_append.mp hm with h | h
          · exact absurd h (by decide)
          · exact hnnl h
        · decide
      · intro l hl
        simp only [List.mem_cons, List.not_mem_nil, or_false] at hl
        rcases hl with rfl | rfl | rfl | rfl | rfl
        · decide
        · decide
        · exact List.cons_ne_nil _ _
        · exact List.cons_ne_nil _ _
        · decide
      · exact collectE_cons_ok _ _ _ _ _ (by decide)
          (collectE_cons_ok _ _ _ _ _ (by decide)
            (collectE_cons_ok _ _ _ _ _ htfn
              (collectE_cons_ok _ _ _ _ _ htnn
                (collectE_cons_ok _ _ _ _ _ (by decide) rfl))))
      · intro t ht
        simp only [List.append_eq, List.cons_append, List.nil_append, List.mem_cons,
          List.not_mem_nil, or_false] at ht
        rcases ht with rfl | rfl | rfl | rfl | rfl
        · exact (by decide : ("BEGIN".data).contains '.' = false)
        · exact (by decide : ("VERSION".data).contains '.' = false)
        · exact (by decide : ("FN".data).contains '.' = false)
        · exact (by decide : ("N".data).contains '.' = false)
        · exact (by decide : ("END".data).contains '.' = false)
    · rw [foldTokens_cons _ _ _ _ (show parseToken (Token.mk "VERSION".data [] ["3.0".data])
        emptyVCard = .ok ({ emptyVCard with specVersion := 3 }) from by decide)]
      rw [foldTokens_cons _ _ _ _ (show parseToken (Token.mk "FN".data [] [n])
          ({ emptyVCard with specVersion := 3 } : VCard) = .ok (cSimple 3 none n) from by
        rw [parseToken_fn [n] _ (by simp)]
        simp [setName, cSimple, emptyVCard, normalizeName_id n hws])]
      rw [foldTokens_cons _ _ _ _ (parseToken_n [n] _ (by simp))]
      rfl
  · obtain ⟨kv, rfl, hkvm⟩ := hk4 rfl
    obtain ⟨hkne, hkgood, hklow⟩ := kindValue_facts kv hkvm
    have hkvnl : '\n' ∉ kv := fun hm => ((hkgood '\n' hm).1).2.2.2.2.2 rfl
    have hkg : ∀ c ∈ kv, c ≠ ':' ∧ c ≠ ';' ∧ c ≠ '\\' := fun c hc =>
      ⟨((hkgood c hc).1).2.2.2.1, ((hkgood c hc).1).2.2.1, ((hkgood c hc).1).2.2.2.2.1⟩
    have htk : tokenizeLine ("KIND:".data ++ kv) = .ok (Token.mk "KIND".data [] [kv]) :=
      tokenizeLine_plain_val "KIND".data kv (by decide) (by decide) (by decide) (by decide)
        hkne hkg
    rw [if_pos rfl]
    rw [show "VERSION:".data ++ (toString (4 : Nat)).data ++ ".0".data =
      "VERSION:4.0".data from by decide]
    rw [show (some kv).getD [] = kv from rfl]
    show decode (joinChar '\n' ["BEGIN:VCARD".data, "VERSION:4.0".data,
      "KIND:".data ++ kv, formatTextValue ("FN%COL%".data ++ n),
      formatTextValue ("N%COL%".data ++ n), "END:VCARD".data]) = .ok (cSimple 4 (some kv) n)
    refine parserParse_toks _ [Token.mk "VERSION".data [] ["4.0".data],
        Token.mk "KIND".data [] [kv], Token.mk "FN".data [] [n], Token.mk "N".data [] [n]]
        _ ?_ _ _ rfl (by decide) ?_
    · refine tokenizeVcard_lines _ ["BEGIN:VCARD".data, "VERSION:4.0".data,
        "KIND:".data ++ kv, "FN:".data ++ n, "N:".data ++ n, "END:VCARD".data] _
        ?_ ?_ (by simp) ?_ ?_ ?_ ?_
      · intro l hl
        simp only [List.mem_cons, List.not_mem_nil, or_false] at hl
        rcases hl with rfl | rfl | rfl | rfl | rfl | rfl
        · decide
        · decide
        · exact (by decide : ('K' : Char) ≠ ' ')
        · rw [htf, List.headD_cons]
          decide
        · rw [htn2, List.headD_cons]
          decide
        · decide
      · simp only [List.map_cons, List.map_nil]
        rw [stripF_of_no_nl "BEGIN:VCARD".data (by decide),
          stripF_of_no_nl "VERSION:4.0".data (by decide),
          stripF_of_no_nl ("KIND:".data ++ kv) (fun hm => by
            rcases List.mem_append.mp hm with h | h
            · exact absurd h (by decide)
            · exact hkvnl h), hsf, hsn,
          stripF_of_no_nl "END:VCARD".data (by decide)]
      · intro l hl
        simp only [List.mem_cons, List.not_mem_nil, or_false] at hl
        rcases hl with rfl | rfl | rfl | rfl | rfl | rfl
        · decide
        · decide
        · intro hm
          rcases List.mem_append.mp hm with h | h
          · exact absurd h (by decide)
          · exact hkvnl h
        · intro hm
          rcases List.mem_append.mp hm with h | h
          · exact absurd h (by decide)
          · exact hnnl h
        · intro hm
          rcases List.mem_append.mp hm with h | h
          · exact absurd h (by decide)
          · exact hnnl h
        · decide
      · intro l hl
        simp only [List.mem_cons, List.not_mem_nil, or_false] at hl
        rcases hl with rfl | rfl | rfl | rfl | rfl | rfl
        · decide
        · decide
        · exact List.cons_ne_nil _ _
        · exact List.cons_ne_nil _ _
        · exact List.cons_ne_nil _ _
        · decide
      · exact collectE_cons_ok _ _ _ _ _ (by decide)
          (collectE_cons_ok _ _ _ _ _ (by decide)
            (collectE_cons_ok _ _ _ _ _ htk
              (collectE_cons_ok _ _ _ _ _ htfn
                (collectE_cons_ok _ _ _ _ _ htnn
                  (collectE_cons_ok _ _ _ _ _ (by decide) rfl)))))
      · intro t ht
        simp only [List.append_eq, List.cons_append, List.nil_append, List.mem_cons,
          List.not_mem_nil, or_false] at ht
        rcases ht with rfl | rfl | rfl | rfl | rfl | rfl
        · exact (by decide : ("BEGIN".data).contains '.' = false)
        · exact (by decide : ("VERSION".data).contains '.' = false)
        · exact (by decide : ("KIND".data).contains '.' = false)
        · exact (by decide : ("FN".data).contains '.' = false)
        · exact (by decide : ("N".data).contains '.' = false)
        · exact (by decide : ("END".data).contains '.' = false)
    · rw [foldTokens_cons _ _ _ _ (show parseToken (Token.mk "VERSION".data [] ["4.0".data])
        emptyVCard = .ok ({ emptyVCard with specVersion := 4 }) from by decide)]
      rw [foldTokens_cons _ _ _ _ (show parseToken (Token.mk "KIND".data [] [kv])
          ({ emptyVCard with specVersion := 4 } : VCard) =
          .ok ({ emptyVCard with specVersion := 4, kind := some kv }) from by
        rw [parseToken_kind [kv] _ (by simp)]
        show toE (setKind kv ({ emptyVCard with specVersion := 4 } : VCard)) = _
        simp only [setKind, hklow]
        rw [if_neg (fun hnm => hnm hkvm)]
        rfl)]
      rw [foldTokens_cons _ _ _ _ (show parseToken (Token.mk "FN".data [] [n])
          ({ emptyVCard with specVersion := 4, kind := some kv } : VCard) =
          .ok (cSimple 4 (some kv) n) from by
        rw [parseToken_fn [n] _ (by simp)]
        simp [setName, cSimple, emptyVCard, normalizeName_id n hws])]
      rw [foldTokens_cons _ _ _ _ (parseToken_n [n] _ (by simp))]
      rfl

theorem roundTrip_of (c c2 : VCard) (t : Str) (hr : render c = .ok t)
    (hd : decode t = .ok c2) (hr2 : render c2 = .ok t) :
    roundTrip c = .ok (t, t) := by
  unfold roundTrip
  rw [hr]
  show (do
    let c3 ← decode t
    let t2 ← render c3
    pure (t, t2) : Except Str (Str × Str)) = Except.ok (t, t)
  rw [hd]
  show (do
    let t2 ← render c2
    pure (t, t2) : Except Str (Str × Str)) = Except.ok (t, t)
  rw [hr2]
  simp [bind, Except.bind, pure, Except.pure]

theorem renderParts_simple (v : Nat) (k : Option Str) (n : Str)
    (hn : n ≠ []) (hsp : ' ' ∉ n) (hkt : v = 4 → optTruthy k = true) :
    renderParts (cSimple v k n) = .ok
      (["BEGIN:VCARD".data, "VERSION:".data ++ (toString v).data ++ ".0".data] ++
        (if v = 4 then ["KIND:".data ++ k.getD []] else []) ++
        [formatTextValue ("FN%COL%".data ++ n), formatTextValue ("N%COL%".data ++ n),
         "END:VCARD".data]) := by
  have hnp : nameParts (cSimple v k n) =
      [formatTextValue ("FN%COL%".data ++ n), formatTextValue ("N%COL%".data ++ n)] := by
    simp [nameParts, cSimple, splitAllChar_of_not_mem ' ' n hsp, joinChar]
  unfold renderParts
  rw [if_neg (show ¬ ((cSimple v k n).specVersion = 4 ∧
      ¬ optTruthy (cSimple v k n).kind = true) from by
    rintro ⟨h4, hnk⟩
    exact hnk (hkt h4))]
  rw [if_neg (show ¬ ((cSimple v k n).name.isEmpty = true) from by simp [cSimple])]
  rw [show photoParts (cSimple v k n) = Except.ok [] from rfl]
  rw [show logoParts (cSimple v k n) = Except.ok [] from rfl]
  simp only [bind, Except.bind, pure, Except.pure]
  rw [hnp]
  simp [kindParts, nicknameParts, bdayParts, anniversaryParts, genderParts,
    addressParts, telParts, emailParts, imppParts, titleParts, roleParts,
    orgParts, noteParts, urlParts, cSimple, emptyVCard, optTruthy]

theorem render_simple (v : Nat) (k : Option Str) (n : Str)
    (hn : n ≠ []) (hsp : ' ' ∉ n) (hkt : v = 4 → optTruthy k = true) :
    render (cSimple v k n) = .ok (joinChar '\n'
      (["BEGIN:VCARD".data, "VERSION:".data ++ (toString v).data ++ ".0".data] ++
        (if v = 4 then ["KIND:".data ++ k.getD []] else []) ++
        [formatTextValue ("FN%COL%".data ++ n), formatTextValue ("N%COL%".data ++ n),
         "END:VCARD".data])) := by
  unfold render
  rw [renderParts_simple v k n hn hsp hkt]
  rfl

theorem builtCard_eq (v : Nat) (k : Option Str) (n : Str)
    (hcfg : (v, k) ∈ rtConfigs) (hws : ∀ c ∈ n, jsWs c = false) :
    builtCard v k n = cSimple v k n := by
  have h2 : (v = 3 ∧ k = none) ∨ (v = 4 ∧ k = some "individual".data) ∨
      (v = 4 ∧ k = some "group".data) ∨ (v = 4 ∧ k = some "org".data) ∨
      (v = 4 ∧ k = some "location".data) := by
    simpa [rtConfigs, Prod.ext_iff] using hcfg
  rcases h2 with ⟨rfl, rfl⟩ | ⟨rfl, rfl⟩ | ⟨rfl, rfl⟩ | ⟨rfl, rfl⟩ | ⟨rfl, rfl⟩
  · have hX : builtCard 3 none n =
        setName n ({ emptyVCard with specVersion := 3 }) := by
      show setName n ((setVersion 3 emptyVCard).1) = _
      rw [show (setVersion 3 emptyVCard).1 =
        ({ emptyVCard with specVersion := 3 } : VCard) from by decide]
    rw [hX]
    simp [setName, cSimple, emptyVCard, normalizeName_id n hws]
  · have hX : builtCard 4 (some "individual".data) n =
        setName n ({ emptyVCard with specVersion := 4, kind := some "individual".data }) := by
      show setName n ((setKind "individual".data (setVersion 4 emptyVCard).1).1) = _
      rw [show (setKind "individual".data (setVersion 4 emptyVCard).1).1 =
        ({ emptyVCard with specVersion := 4, kind := some "individual".data } : VCard)
        from by decide]
    rw [hX]
    simp [setName, cSimple, emptyVCard, normalizeName_id n hws]
  · have hX : builtCard 4 (some "group".data) n =
        setName n ({ emptyVCard with specVersion := 4, kind := some "group".data }) := by
      show setName n ((setKind "group".data (setVersion 4 emptyVCard).1).1) = _
      rw [show (setKind "group".data (setVersion 4 emptyVCard).1).1 =
        ({ emptyVCard with specVersion := 4, kind := some "group".data } : VCard)
        from by decide]
    rw [hX]
    simp [setName, cSimple, emptyVCard, normalizeName_id n hws]
  · have hX : builtCard 4 (some "org".data) n =
        setName n ({ emptyVCard with specVersion := 4, kind := some "org".data }) := by
      show setName n ((setKind "org".data (setVersion 4 emptyVCard).1).1) = _
      rw [show (setKind "org".data (setVersion 4 emptyVCard).1).1 =
        ({ emptyVCard with specVersion := 4, kind := some "org".data } : VCard)
        from by decide]
    rw [hX]
    simp [setName, cSimple, emptyVCard, normalizeName_id n hws]
  · have hX : builtCard 4 (some "location".data) n =
        setName n ({ emptyVCard with specVersion := 4, kind := some "location".data }) := by
      show setName n ((setKind "location".data (setVersion 4 emptyVCard).1).1) = _
      rw [show (setKind "location".data (setVersion 4 emptyVCard).1).1 =
        ({ emptyVCard with specVersion := 4, kind := some "location".data } : VCard)
        from by decide]
    rw [hX]
    simp [setName, cSimple, emptyVCard, normalizeName_id n hws]

/-- C1 amended: for a contact built through the validated setter calls of an
allowed version and kind configuration, holding one name made of characters
that escaping and whitespace normalization leave unchanged and no other
field, the encode-decode-encode pipeline succeeds and reproduces the first
rendering byte for byte, under version 3 and under version 4 alike. -/
theorem C1_roundtrip_amended (v : Nat) (k : Option Str) (n : Str)
    (hcfg : (v, k) ∈ rtConfigs) (hn : n ≠ []) (hgood : ∀ ch ∈ n, goodChar ch) :
    ∃ t, roundTrip (builtCard v k n) = .ok (t, t) := by
  have hws : ∀ c ∈ n, jsWs c = false := fun c hc => (hgood c hc).2
  have hsp : ' ' ∉ n := fun hm => by
    have := hws ' ' hm
    simp [jsWs] at this
  have h2 : (v = 3 ∧ k = none) ∨ (v = 4 ∧ k = some "individual".data) ∨
      (v = 4 ∧ k = some "group".data) ∨ (v = 4 ∧ k = some "org".data) ∨
      (v = 4 ∧ k = some "location".data) := by
    simpa [rtConfigs, Prod.ext_iff] using hcfg
  have hv : v = 3 ∨ v = 4 := by
    rcases h2 with ⟨h, _⟩ | ⟨h, _⟩ | ⟨h, _⟩ | ⟨h, _⟩ | ⟨h, _⟩
    exacts [Or.inl h, Or.inr h, Or.inr h, Or.inr h, Or.inr h]
  have hk3 : v = 3 → k = none := by
    intro h3
    rcases h2 with ⟨_, hk⟩ | ⟨h, _⟩ | ⟨h, _⟩ | ⟨h, _⟩ | ⟨h, _⟩
    exacts [hk, absurd (h.symm.trans h3) (by decide), absurd (h.symm.trans h3) (by decide),
      absurd (h.symm.trans h3) (by decide), absurd (h.symm.trans h3) (by decide)]
  have hk4 : v = 4 → ∃ kv, k = some kv ∧ kv ∈ kindValues := by
    intro h4
    rcases h2 with ⟨h, _⟩ | ⟨_, hk⟩ | ⟨_, hk⟩ | ⟨_, hk⟩ | ⟨_, hk⟩
    exacts [absurd (h.symm.trans h4) (by decide), ⟨_, hk, by decide⟩, ⟨_, hk, by decide⟩,
      ⟨_, hk, by decide⟩, ⟨_, hk, by decide⟩]
  have hkt : v = 4 → optTruthy k = true := by
    intro h4
    obtain ⟨kv, rfl, hkvm⟩ := hk4 h4
    obtain ⟨hkne, _, _⟩ := kindValue_facts kv hkvm
    simp [optTruthy, nonempty_isEmpty_false kv hkne]
  have hr := render_simple v k n hn hsp hkt
  have hd := decode_simple v k n hn hgood hv hk4 hk3
  rw [builtCard_eq v k n hcfg hws]
  exact ⟨_, roundTrip_of _ _ _ hr hd hr⟩

/-- The amended round trip holds at a concrete contact built by the
setters. -/
theorem C1_witness :
    (4, some "individual".data) ∈ rtConfigs ∧ "Bob".data ≠ [] ∧
      (∀ ch ∈ "Bob".data, goodChar ch) ∧
      ∃ t, roundTrip (builtCard 4 (some "individual".data) "Bob".data) = .ok (t, t) :=
  ⟨by decide, by decide, by decide,
    C1_roundtrip_amended 4 (some "individual".data) "Bob".data (by decide) (by decide)
      (by decide)⟩

end VCardSpec
